import Mathlib

/-!
# ISDuBA: the SQL builder, the buckets of criticals and the quoting of passwords

A shallow embedding of `pkg/database/query/sqlbuilder.go`, with theorems about
the WHERE compiler `CreateWhere` and the statements built around it, of
`collectCritcalBuckets` in `pkg/web/importstats.go` and of `sqlQuote` in
`pkg/database/migrations.go`.

Conventions of the embedding

* A `strings.Builder` is a `String` that is passed in and returned; `WriteString`
  and `WriteByte` append to it.
* A Go map is an association list with distinct keys (`mapGet`, `mapSet`); a nil
  map and an empty map are both `[]`.
* Reading `e.children[i]` beyond the length of the slice panics in Go; the
  compiler then returns `none`.
* `strconv.Itoa` and `strconv.FormatInt(_, 10)` are decimal rendering
  (`Nat.repr`, with a leading `-` for negative integers).
* The functions of the Go standard library that format a floating point
  constant and a time are kept abstract in `GoFmt`, the verb `%q` in `GoQuote`.
* The `float64` that `Duration.Seconds` computes is given exactly, as sign,
  mantissa and binary exponent (`F64`); its arithmetic rounds to the nearest
  value of 53 bits, ties to even, and `%.2f` rounds the exact value to the
  nearest hundredth, ties to even.
* `ExistsDocumentColumn`, the allow-list lookup of the package, is declared in
  another file; `CreateOrder` and `CheckProjections` take it as an argument.
* A Go result `(string, error)` is a pair of the text and `Option String`, the
  message of the error, `none` for `nil`.
-/

namespace ISDuBA

/-! ## Expression nodes -/

/-- Modelled from the spec: the kind tag of an expression node; its declaration
is in a file of the package other than `sqlbuilder.go`. The constructors are the
kinds `whereRecurse` switches over (`cnst` is the kind `const`). -/
inductive ExprType where
  | access | cnst | cast
  | eq | ne | lt | gt | le | ge
  | not | and | or
  | search | csearch | mentioned | involved
  | ilike | ilikePID | now
  | add | sub | mul | div
  deriving DecidableEq, Repr

/-- Modelled from the spec: the value type of a `const` or `cast` node; its
declaration is in a file of the package other than `sqlbuilder.go`. The
constructors are the types `cnstWhere` and `castWhere` switch over. -/
inductive ValueType where
  | stringType | intType | floatType | timeType | boolType | workflowType
  | durationType
  deriving DecidableEq, Repr

/-- A Go `time.Time`: seconds and nanoseconds since the Unix epoch, and the
offset of its location from UTC in seconds. -/
structure Time where
  sec : Int
  nsec : Nat
  zone : Int
  deriving DecidableEq, Repr

/-- Go `Time.UTC`: the same instant with the location set to UTC. -/
def Time.UTC (t : Time) : Time := { t with zone := 0 }

/-- Modelled from the spec: an expression node (`Expr`); its declaration is in a
file of the package other than `sqlbuilder.go`. The fields are those the
compiler reads; `durationValue` is a Go `time.Duration`, a number of
nanoseconds. -/
inductive Expr where
  | mk (exprType : ExprType) (valueType : ValueType) (stringValue : String)
      (intValue : Int) (floatValue : Float) (timeValue : Time)
      (boolValue : Bool) (durationValue : Int) (langValue : String)
      (alias_ : String) (children : List Expr)

namespace Expr

/-- Field `exprType`. -/
def exprType : Expr → ExprType
  | mk t _ _ _ _ _ _ _ _ _ _ => t

/-- Field `valueType`. -/
def valueType : Expr → ValueType
  | mk _ vt _ _ _ _ _ _ _ _ _ => vt

/-- Field `stringValue`. -/
def stringValue : Expr → String
  | mk _ _ s _ _ _ _ _ _ _ _ => s

/-- Field `intValue`. -/
def intValue : Expr → Int
  | mk _ _ _ i _ _ _ _ _ _ _ => i

/-- Field `floatValue`. -/
def floatValue : Expr → Float
  | mk _ _ _ _ f _ _ _ _ _ _ => f

/-- Field `timeValue`. -/
def timeValue : Expr → Time
  | mk _ _ _ _ _ t _ _ _ _ _ => t

/-- Field `boolValue`. -/
def boolValue : Expr → Bool
  | mk _ _ _ _ _ _ bv _ _ _ _ => bv

/-- Field `durationValue`. -/
def durationValue : Expr → Int
  | mk _ _ _ _ _ _ _ d _ _ _ => d

/-- Field `langValue`. -/
def langValue : Expr → String
  | mk _ _ _ _ _ _ _ _ l _ _ => l

/-- Field `alias` (a reserved word, hence the underscore). -/
def alias_ : Expr → String
  | mk _ _ _ _ _ _ _ _ _ a _ => a

/-- Field `children`. -/
def children : Expr → List Expr
  | mk _ _ _ _ _ _ _ _ _ _ ch => ch

end Expr

/-! ## The Go runtime -/

/-- Characters that occur in the decimal rendering of a number or in a
timestamp of layout `2006-01-02T15:04:05-0700`: digits, sign, decimal point,
colon, `T`, and the letters of `NaN` and `Inf`. -/
def numericChar (c : Char) : Bool :=
  c.isDigit || c == '+' || c == '-' || c == '.' || c == ':' || c == 'T' ||
    c == 'N' || c == 'a' || c == 'I' || c == 'n' || c == 'f'

/-- The formatting functions of the Go standard library that `cnstWhere` calls
on floating point constants and times. They are kept abstract; what is recorded
of them is the alphabet of their output. -/
structure GoFmt where
  /-- Go `strconv.FormatFloat(x, 'f', -1, 64)`. -/
  FormatFloat : Float → String
  /-- Go `t.Format("2006-01-02T15:04:05-0700")`. -/
  FormatTime : Time → String
  FormatFloat_chars : ∀ x c, c ∈ (FormatFloat x).data → numericChar c = true
  FormatTime_chars : ∀ t c, c ∈ (FormatTime t).data → numericChar c = true

/-- Go `strconv.Itoa` on a non-negative integer. -/
def Itoa (n : Nat) : String := Nat.repr n

/-- Go `strconv.FormatInt(i, 10)`. -/
def FormatInt (i : Int) : String :=
  match i with
  | Int.ofNat n => Nat.repr n
  | Int.negSucc n => "-" ++ Nat.repr (n + 1)

/-- A finite Go `float64`, the number `mant * 2 ^ exp` with the sign `neg`.
Infinities and NaN do not arise from a duration. -/
structure F64 where
  neg : Bool
  mant : Nat
  exp : Int
  deriving DecidableEq, Repr

/-- The rational number a `float64` stands for. -/
def F64.val (x : F64) : ℚ :=
  (if x.neg then -1 else 1) * (x.mant : ℚ) * (2 : ℚ) ^ x.exp

/-- The quotient `p / q` rounded to the nearest natural number, a tie going to
the even one. -/
def roundHalfEven (p q : Nat) : Nat :=
  if 2 * (p % q) < q then p / q
  else if q < 2 * (p % q) then p / q + 1
  else if p / q % 2 = 0 then p / q else p / q + 1

/-- The number `p / q * 2 ^ e` rewritten until the quotient `p / q` has 53
bits, or the exponent is the least one of a `float64`; the first argument
bounds the number of steps. -/
def normalize : Nat → Nat → Nat → Int → Nat × Nat × Int
  | 0, p, q, e => (p, q, e)
  | fuel + 1, p, q, e =>
    if q * 2 ^ 53 ≤ p then normalize fuel p (2 * q) (e + 1)
    else if p < q * 2 ^ 52 ∧ -1074 < e then normalize fuel (2 * p) q (e - 1)
    else (p, q, e)

/-- The rounding of `float64` arithmetic, to nearest, ties to even: the
`float64` nearest to `p / q * 2 ^ e`, with the sign `neg`. The bound `p + q + 53`
on the steps of `normalize` suffices for all positive `p` and `q`, and for
`p = 0` the result is zero after any number of steps; the overflow to an
infinity is not modelled. -/
def roundF64 (neg : Bool) (p q : Nat) (e : Int) : F64 :=
  let r := normalize (p + q + 53) p q e
  ⟨neg, roundHalfEven r.1 r.2.1, r.2.2⟩

/-- The Go conversion `float64(i)` of an integer. -/
def F64.ofInt (i : Int) : F64 := roundF64 (decide (i < 0)) i.natAbs 1 0

/-- The Go quotient `x / y` of two `float64`, for a divisor other than zero. -/
def F64.div (x y : F64) : F64 :=
  roundF64 (x.neg != y.neg) x.mant y.mant (x.exp - y.exp)

/-- The Go sum `x + y` of two `float64`. -/
def F64.add (x y : F64) : F64 :=
  let e := min x.exp y.exp
  let a : Int := (if x.neg then -1 else 1) * (x.mant * 2 ^ (x.exp - e).toNat : Nat)
  let c : Int := (if y.neg then -1 else 1) * (y.mant * 2 ^ (y.exp - e).toNat : Nat)
  roundF64 (if a + c = 0 then x.neg && y.neg else decide (a + c < 0)) (a + c).natAbs 1 e

/-- Go `Duration.Seconds`, for a duration of `d` nanoseconds:
`float64(d / Second) + float64(d % Second) / 1e9`. -/
def Seconds (d : Int) : F64 :=
  let sec := Int.tdiv d 1000000000
  let nsec := Int.tmod d 1000000000
  F64.add (F64.ofInt sec) (F64.div (F64.ofInt nsec) (F64.ofInt 1000000000))

/-- The number of hundredths `%.2f` writes for a `float64`: its absolute value
times 100, rounded to the nearest natural number, ties to even. -/
def hundredths (x : F64) : Nat :=
  if 0 ≤ x.exp then x.mant * 100 * 2 ^ x.exp.toNat
  else roundHalfEven (x.mant * 100) (2 ^ (-x.exp).toNat)

/-- Go `fmt.Sprintf("%.2f", x)`: the sign, the integer part in decimal, a
point and two decimals. -/
def Sprintf2f (x : F64) : String :=
  (if x.neg then "-" else "") ++ Nat.repr (hundredths x / 100) ++ "." ++
    Nat.repr (hundredths x / 10 % 10) ++ Nat.repr (hundredths x % 10)

/-- Go `strings.Builder.WriteString`. -/
def WriteString (b : String) (s : String) : String := b ++ s

/-- Go `strings.Builder.WriteByte`. -/
def WriteByte (b : String) (c : Char) : String := b ++ String.singleton c

/-- Lookup in a Go map: `v, ok := m[k]`. -/
def mapGet {β : Type} (m : List (String × β)) (k : String) : Option β :=
  match m with
  | [] => none
  | (k', v) :: rest => if k' = k then some v else mapGet rest k

/-- Assignment in a Go map, `m[k] = v`: an existing key gets the new value, a
new key is added. -/
def mapSet {β : Type} (m : List (String × β)) (k : String) (v : β) :
    List (String × β) :=
  match m with
  | [] => [(k, v)]
  | (k', v') :: rest => if k' = k then (k, v) :: rest else (k', v') :: mapSet rest k v

/-! ## The builder -/

/-- The Go struct `SQLBuilder`. `Replacements` holds the string values that
`replacementIndex` appends. -/
structure SQLBuilder where
  WhereClause : String := ""
  Replacements : List String := []
  replToIdx : List (String × Nat) := []
  Aliases : List (String × String) := []
  Advisory : Bool := false
  TextTables : Bool := false
  deriving DecidableEq, Repr

/-- Go `SQLBuilder.replacementIndex`: the index of `s` in the memo; a value not
in the memo is appended to `Replacements` and gets the number of memo entries
as its index. -/
def replacementIndex (sb : SQLBuilder) (s : String) : SQLBuilder × Nat :=
  match mapGet sb.replToIdx s with
  | some idx => (sb, idx)
  | none =>
    let idx := sb.replToIdx.length
    ({ sb with
        Replacements := sb.Replacements ++ [s]
        replToIdx := mapSet sb.replToIdx s idx }, idx)

/-- The projection fragment `searchWhere` registers for an alias:
`fmt.Sprintf("ts_headline('%[1]s',txt,websearch_to_tsquery('%[1]s', $%[2]d))", lang, k)`. -/
def headline (lang : String) (k : Nat) : String :=
  "ts_headline('" ++ lang ++ "',txt,websearch_to_tsquery('" ++ lang ++ "', $" ++
    Itoa k ++ "))"

/-- Go `SQLBuilder.searchWhere`. -/
def searchWhere (sb : SQLBuilder) (e : Expr) (b : String) : SQLBuilder × String :=
  let b := WriteString b "ts @@ websearch_to_tsquery('"
  let b := WriteString b e.langValue
  let b := WriteString b "',$"
  let (sb, idx) := replacementIndex sb e.stringValue
  let b := WriteString b (Itoa (idx + 1))
  let b := WriteByte b ')'
  let sb := { sb with TextTables := true }
  if e.alias_ = "" then (sb, b)
  else
    let repl := headline e.langValue (idx + 1)
    ({ sb with Aliases := mapSet sb.Aliases e.alias_ repl }, b)

/-- Go `SQLBuilder.csearchWhere`. -/
def csearchWhere (sb : SQLBuilder) (e : Expr) (b : String) : SQLBuilder × String :=
  let (sb', idx) := replacementIndex sb e.stringValue
  if sb.Advisory then
    (sb', WriteString b ("EXISTS(SELECT 1 FROM comments JOIN documents docs " ++
      "ON comments.documents_id = docs.id " ++
      "WHERE ts @@ websearch_to_tsquery('" ++ e.langValue ++ "', $" ++
      Itoa (idx + 1) ++ ") " ++
      "AND docs.publisher = documents.publisher AND docs.tracking_id = documents.tracking_id)"))
  else
    (sb', WriteString b ("EXISTS(SELECT 1 FROM comments WHERE ts @@ websearch_to_tsquery('" ++
      e.langValue ++ "', $" ++ Itoa (idx + 1) ++ ") " ++
      "AND comments.documents_id = documents.id)"))

/-- Go `SQLBuilder.mentionedWhere`. -/
def mentionedWhere (sb : SQLBuilder) (e : Expr) (b : String) : SQLBuilder × String :=
  let (sb', idx) := replacementIndex sb e.stringValue
  if sb.Advisory then
    (sb', WriteString b ("EXISTS(SELECT 1 FROM comments JOIN documents docs " ++
      "ON comments.documents_id = docs.id " ++
      "WHERE ts @@ phraseto_tsquery($" ++ Itoa (idx + 1) ++ ") " ++
      "AND docs.publisher = documents.publisher AND docs.tracking_id = documents.tracking_id)"))
  else
    (sb', WriteString b ("EXISTS(SELECT 1 FROM comments WHERE ts @@ phraseto_tsquery($" ++
      Itoa (idx + 1) ++ ") " ++
      "AND comments.documents_id = documents.id)"))

/-- Go `SQLBuilder.involvedWhere`. -/
def involvedWhere (sb : SQLBuilder) (e : Expr) (b : String) : SQLBuilder × String :=
  let (sb', idx) := replacementIndex sb e.stringValue
  if sb.Advisory then
    (sb', WriteString b ("EXISTS(SELECT 1 FROM events_log JOIN documents docs " ++
      "ON events_log.documents_id = docs.id " ++
      "WHERE actor = $" ++ Itoa (idx + 1) ++ " " ++
      "AND docs.publisher = documents.publisher AND docs.tracking_id = documents.tracking_id)"))
  else
    (sb', WriteString b ("EXISTS(SELECT 1 FROM events_log WHERE actor = $" ++
      Itoa (idx + 1) ++ " " ++
      "AND comments.documents_id = documents.id)"))

/-- The type name `castWhere` writes after ` AS `. -/
def castTypeName (vt : ValueType) : String :=
  match vt with
  | .stringType => "text"
  | .intType => "int"
  | .floatType => "float"
  | .timeType => "timestamptz"
  | .boolType => "boolean"
  | .workflowType => "workflow"
  | .durationType => "interval"

/-- Go `SQLBuilder.cnstWhere`. -/
def cnstWhere (fmt : GoFmt) (sb : SQLBuilder) (e : Expr) (b : String) :
    SQLBuilder × String :=
  match e.valueType with
  | .stringType =>
    let b := WriteByte b '$'
    let (sb, idx) := replacementIndex sb e.stringValue
    (sb, WriteString b (Itoa (idx + 1)))
  | .intType => (sb, WriteString b (FormatInt e.intValue))
  | .floatType => (sb, WriteString b (fmt.FormatFloat e.floatValue))
  | .timeType =>
    let b := WriteString b "'"
    let utc := e.timeValue.UTC
    let b := WriteString b (fmt.FormatTime utc)
    (sb, WriteString b "'::timestamptz")
  | .boolType =>
    if e.boolValue then (sb, WriteString b "TRUE") else (sb, WriteString b "FALSE")
  | .workflowType =>
    let b := WriteString b "'"
    let b := WriteString b e.stringValue
    (sb, WriteString b "'::workflow")
  | .durationType =>
    (sb, WriteString b ("'" ++ Sprintf2f (Seconds e.durationValue) ++ " seconds'::interval"))

/-- The constant `versionsCount`. -/
def versionsCount : String :=
  "(SELECT count(*) FROM documents WHERE " ++
  "documents.publisher = advisories.publisher AND " ++
  "documents.tracking_id = advisories.tracking_id)"

/-- The constant `commentsCount`. -/
def commentsCount : String :=
  "(SELECT count(*) FROM comments WHERE " ++
  "comments.documents_id = documents.id)"

/-- Go `SQLBuilder.accessWhere`. -/
def accessWhere (sb : SQLBuilder) (e : Expr) (b : String) : String :=
  let column := e.stringValue
  if column = "tracking_id" ∨ column = "publisher" then
    WriteString (WriteString b "documents.") column
  else if column = "versions" then
    WriteString b versionsCount
  else if column = "comments" then
    if sb.Advisory then WriteString b column else WriteString b commentsCount
  else
    WriteString b column

/-- Go `SQLBuilder.nowWhere`. -/
def nowWhere (b : String) : String := WriteString b "current_timestamp"

/-- The text `ilikePIDWhere` writes before the pattern. -/
def ilikePIDText : String :=
  "EXISTS (" ++
  "WITH product_ids AS (SELECT jsonb_path_query(" ++
  "document, '$.product_tree.**.product.product_id')::int num " ++
  "FROM documents ds WHERE ds.id = documents.id)" ++
  "SELECT * FROM documents_texts dts JOIN product_ids " ++
  "ON product_ids.num = dts.num JOIN unique_texts ON dts.txt_id = unique_texts.id " ++
  "WHERE dts.documents_id = documents.id AND " ++
  "unique_texts.txt ILIKE "

mutual

/-- Go `SQLBuilder.whereRecurse`. The methods that recurse into the children
(`castWhere`, `binaryWhere`, `notWhere`, `ilikeWhere`, `ilikePIDWhere`) receive
the fields of the node they read. -/
def whereRecurse (fmt : GoFmt) (sb : SQLBuilder) (e : Expr) (b : String) :
    Option (SQLBuilder × String) :=
  match e with
  | .mk t vt s i f tm bv d lang al ch =>
    let e' := Expr.mk t vt s i f tm bv d lang al ch
    let b := WriteByte b '('
    let r : Option (SQLBuilder × String) :=
      match t with
      | .access => some (sb, accessWhere sb e' b)
      | .cnst => some (cnstWhere fmt sb e' b)
      | .cast => castWhere fmt sb vt ch b
      | .eq => binaryWhere fmt sb ch b "="
      | .ne => binaryWhere fmt sb ch b "<>"
      | .lt => binaryWhere fmt sb ch b "<"
      | .gt => binaryWhere fmt sb ch b ">"
      | .le => binaryWhere fmt sb ch b "<="
      | .ge => binaryWhere fmt sb ch b ">="
      | .not => notWhere fmt sb ch b
      | .and => binaryWhere fmt sb ch b "AND"
      | .or => binaryWhere fmt sb ch b "OR"
      | .search => some (searchWhere sb e' b)
      | .csearch => some (csearchWhere sb e' b)
      | .mentioned => some (mentionedWhere sb e' b)
      | .involved => some (involvedWhere sb e' b)
      | .ilike => ilikeWhere fmt sb ch b
      | .ilikePID => ilikePIDWhere fmt sb ch b
      | .now => some (sb, nowWhere b)
      | .add => binaryWhere fmt sb ch b "+"
      | .sub => binaryWhere fmt sb ch b "-"
      | .mul => binaryWhere fmt sb ch b "*"
      | .div => binaryWhere fmt sb ch b "/"
    match r with
    | none => none
    | some (sb, b) => some (sb, WriteByte b ')')

/-- Go `SQLBuilder.castWhere`, on the `valueType` and `children` of the node. -/
def castWhere (fmt : GoFmt) (sb : SQLBuilder) (valueType : ValueType)
    (children : List Expr) (b : String) : Option (SQLBuilder × String) :=
  let b := WriteString b "CAST("
  match children with
  | [] => none
  | c :: _ =>
    match whereRecurse fmt sb c b with
    | none => none
    | some (sb, b) =>
      let b := WriteString b " AS "
      let b := WriteString b (castTypeName valueType)
      some (sb, WriteByte b ')')

/-- Go `SQLBuilder.binaryWhere`, on the `children` of the node. -/
def binaryWhere (fmt : GoFmt) (sb : SQLBuilder) (children : List Expr)
    (b : String) (op : String) : Option (SQLBuilder × String) :=
  let b := WriteByte b '('
  match children with
  | l :: r :: _ =>
    match whereRecurse fmt sb l b with
    | none => none
    | some (sb, b) =>
      let b := WriteString b op
      match whereRecurse fmt sb r b with
      | none => none
      | some (sb, b) => some (sb, WriteByte b ')')
  | _ => none

/-- Go `SQLBuilder.notWhere`, on the `children` of the node. -/
def notWhere (fmt : GoFmt) (sb : SQLBuilder) (children : List Expr)
    (b : String) : Option (SQLBuilder × String) :=
  let b := WriteString b "(NOT "
  match children with
  | [] => none
  | c :: _ =>
    match whereRecurse fmt sb c b with
    | none => none
    | some (sb, b) => some (sb, WriteByte b ')')

/-- Go `SQLBuilder.ilikeWhere`, on the `children` of the node. -/
def ilikeWhere (fmt : GoFmt) (sb : SQLBuilder) (children : List Expr)
    (b : String) : Option (SQLBuilder × String) :=
  let b := WriteByte b '('
  match children with
  | l :: r :: _ =>
    match whereRecurse fmt sb l b with
    | none => none
    | some (sb, b) =>
      let b := WriteString b " ILIKE "
      match whereRecurse fmt sb r b with
      | none => none
      | some (sb, b) => some (sb, WriteByte b ')')
  | _ => none

/-- Go `SQLBuilder.ilikePIDWhere`, on the `children` of the node. -/
def ilikePIDWhere (fmt : GoFmt) (sb : SQLBuilder) (children : List Expr)
    (b : String) : Option (SQLBuilder × String) :=
  let b := WriteString b ilikePIDText
  match children with
  | [] => none
  | c :: _ =>
    match whereRecurse fmt sb c b with
    | none => none
    | some (sb, b) => some (sb, WriteByte b ')')

end

/-- Go `SQLBuilder.CreateWhere`: the text is built in a new `strings.Builder`,
stored in `WhereClause` and returned. -/
def CreateWhere (fmt : GoFmt) (sb : SQLBuilder) (e : Expr) :
    Option (SQLBuilder × String) :=
  match whereRecurse fmt sb e "" with
  | none => none
  | some (sb, b) =>
    let sb := { sb with WhereClause := b }
    some (sb, sb.WhereClause)

/-! ## Reading the traversal -/

/-- How `whereRecurse` treats a node kind: it writes a leaf text, or one child
between two fixed texts, or two children around an operator. -/
inductive Shape where
  | leaf
  | unary (pre post : String)
  | binary (op : String)
  deriving DecidableEq, Repr

/-- The shape of each node kind, read off the switch of `whereRecurse` and the
methods it calls (`ilikeWhere` writes its children like `binaryWhere` with
the operator ` ILIKE `). -/
def shape (t : ExprType) (vt : ValueType) : Shape :=
  match t with
  | .cast => .unary "CAST(" (" AS " ++ castTypeName vt ++ ")")
  | .not => .unary "(NOT " ")"
  | .ilikePID => .unary ilikePIDText ")"
  | .eq => .binary "="
  | .ne => .binary "<>"
  | .lt => .binary "<"
  | .gt => .binary ">"
  | .le => .binary "<="
  | .ge => .binary ">="
  | .and => .binary "AND"
  | .or => .binary "OR"
  | .add => .binary "+"
  | .sub => .binary "-"
  | .mul => .binary "*"
  | .div => .binary "/"
  | .ilike => .binary " ILIKE "
  | _ => .leaf

mutual

/-- A well-formed tree: every node the compiler visits has the children its
kind reads, one for `cast`, `not` and `ilikePID`, two for the comparison,
boolean and arithmetic kinds and `ilike`. -/
def wellFormed : Expr → Bool
  | .mk t vt _ _ _ _ _ _ _ _ ch =>
    match shape t vt with
    | .leaf => true
    | .unary _ _ => wellFormedFirst ch
    | .binary _ => wellFormedPair ch

/-- There is a first child and it is well-formed. -/
def wellFormedFirst : List Expr → Bool
  | c :: _ => wellFormed c
  | [] => false

/-- There are two children and both are well-formed. -/
def wellFormedPair : List Expr → Bool
  | l :: r :: _ => wellFormed l && wellFormed r
  | _ => false

end

mutual

/-- The leaf nodes of a tree in the order the compiler visits them: depth
first, left child before right child. -/
def leaves : Expr → List Expr
  | .mk t vt s i f tm bv d lang al ch =>
    match shape t vt with
    | .leaf => [Expr.mk t vt s i f tm bv d lang al ch]
    | .unary _ _ => leavesFirst ch
    | .binary _ => leavesPair ch

/-- The leaves below the first child. -/
def leavesFirst : List Expr → List Expr
  | c :: _ => leaves c
  | [] => []

/-- The leaves below the first child, then those below the second. -/
def leavesPair : List Expr → List Expr
  | l :: r :: _ => leaves l ++ leaves r
  | _ => []

end

/-- The literal string value a leaf passes to `replacementIndex`: the value of
a string-typed `const` node and the query text of a `search`, `csearch`,
`mentioned` or `involved` node. -/
def leafLits (e : Expr) : List String :=
  match e.exprType with
  | .cnst => if e.valueType = .stringType then [e.stringValue] else []
  | .search => [e.stringValue]
  | .csearch => [e.stringValue]
  | .mentioned => [e.stringValue]
  | .involved => [e.stringValue]
  | _ => []

/-- The literal string values of a tree, one per position, in the order of a
left-to-right depth-first traversal. -/
def lits (e : Expr) : List String := (leaves e).flatMap leafLits

/-- The builder after a leaf has been compiled. -/
def leafState (sb : SQLBuilder) (e : Expr) : SQLBuilder :=
  match e.exprType with
  | .cnst =>
    if e.valueType = .stringType then (replacementIndex sb e.stringValue).1 else sb
  | .search =>
    let r := replacementIndex sb e.stringValue
    if e.alias_ = "" then { r.1 with TextTables := true }
    else
      { r.1 with
          TextTables := true
          Aliases := mapSet r.1.Aliases e.alias_ (headline e.langValue (r.2 + 1)) }
  | .csearch => (replacementIndex sb e.stringValue).1
  | .mentioned => (replacementIndex sb e.stringValue).1
  | .involved => (replacementIndex sb e.stringValue).1
  | _ => sb

/-- The builder after the leaves of a tree have been compiled in order. -/
def stateAfter (sb : SQLBuilder) (e : Expr) : SQLBuilder :=
  (leaves e).foldl leafState sb

/-- The placeholder number the memo of a builder gives to a value: its memo
index plus one. -/
def placeholderOf (sb : SQLBuilder) (v : String) : Nat :=
  (mapGet sb.replToIdx v).getD 0 + 1

/-- The text of a leaf when the literal value `v` is written as the
placeholder `$(k v)`; `adv` is the mode flag `Advisory`. -/
def leafText (fmt : GoFmt) (k : String → Nat) (adv : Bool) (e : Expr) : String :=
  match e.exprType with
  | .access => accessWhere { Advisory := adv } e ""
  | .cnst =>
    if e.valueType = .stringType then "$" ++ Itoa (k e.stringValue)
    else (cnstWhere fmt {} e "").2
  | .search =>
    "ts @@ websearch_to_tsquery('" ++ e.langValue ++ "',$" ++ Itoa (k e.stringValue) ++ ")"
  | .csearch =>
    if adv then
      "EXISTS(SELECT 1 FROM comments JOIN documents docs " ++
      "ON comments.documents_id = docs.id " ++
      "WHERE ts @@ websearch_to_tsquery('" ++ e.langValue ++ "', $" ++
      Itoa (k e.stringValue) ++ ") " ++
      "AND docs.publisher = documents.publisher AND docs.tracking_id = documents.tracking_id)"
    else
      "EXISTS(SELECT 1 FROM comments WHERE ts @@ websearch_to_tsquery('" ++
      e.langValue ++ "', $" ++ Itoa (k e.stringValue) ++ ") " ++
      "AND comments.documents_id = documents.id)"
  | .mentioned =>
    if adv then
      "EXISTS(SELECT 1 FROM comments JOIN documents docs " ++
      "ON comments.documents_id = docs.id " ++
      "WHERE ts @@ phraseto_tsquery($" ++ Itoa (k e.stringValue) ++ ") " ++
      "AND docs.publisher = documents.publisher AND docs.tracking_id = documents.tracking_id)"
    else
      "EXISTS(SELECT 1 FROM comments WHERE ts @@ phraseto_tsquery($" ++
      Itoa (k e.stringValue) ++ ") " ++
      "AND comments.documents_id = documents.id)"
  | .involved =>
    if adv then
      "EXISTS(SELECT 1 FROM events_log JOIN documents docs " ++
      "ON events_log.documents_id = docs.id " ++
      "WHERE actor = $" ++ Itoa (k e.stringValue) ++ " " ++
      "AND docs.publisher = documents.publisher AND docs.tracking_id = documents.tracking_id)"
    else
      "EXISTS(SELECT 1 FROM events_log WHERE actor = $" ++
      Itoa (k e.stringValue) ++ " " ++
      "AND comments.documents_id = documents.id)"
  | .now => "current_timestamp"
  | _ => ""

mutual

/-- The WHERE text of a tree when every literal value `v` is written as the
placeholder `$(k v)`: each node in parentheses, a leaf as `leafText`, one child
between the two texts of its parent, two children around the operator and in
parentheses. Nothing is written for a child that is missing. -/
def renderWith (fmt : GoFmt) (k : String → Nat) (adv : Bool) : Expr → String
  | .mk t vt s i f tm bv d lang al ch =>
    match shape t vt with
    | .leaf => "(" ++ leafText fmt k adv (Expr.mk t vt s i f tm bv d lang al ch) ++ ")"
    | .unary pre post => "(" ++ pre ++ renderFirst fmt k adv ch ++ post ++ ")"
    | .binary op => "((" ++ renderPair fmt k adv ch op ++ "))"

/-- The text of the first child. -/
def renderFirst (fmt : GoFmt) (k : String → Nat) (adv : Bool) : List Expr → String
  | c :: _ => renderWith fmt k adv c
  | [] => ""

/-- The texts of the first two children around the operator. -/
def renderPair (fmt : GoFmt) (k : String → Nat) (adv : Bool) :
    List Expr → String → String
  | l :: r :: _, op => renderWith fmt k adv l ++ op ++ renderWith fmt k adv r
  | _, _ => ""

end

/-- The effect of `replacementIndex` on the value list and the memo. -/
def memoStep (p : List String × List (String × Nat)) (v : String) :
    List String × List (String × Nat) :=
  match mapGet p.2 v with
  | some _ => p
  | none => (p.1 ++ [v], mapSet p.2 v p.2.length)

/-- The value list and the memo of a builder. -/
def memoOf (sb : SQLBuilder) : List String × List (String × Nat) :=
  (sb.Replacements, sb.replToIdx)


/-! ## Builders and trees of the scenarios -/

/-- A fresh builder, as a caller constructs it: only the mode flag is set. -/
def fresh (adv : Bool) : SQLBuilder := { Advisory := adv }

/-- A node without children: kind, value type, `stringValue`, `langValue`,
`alias`; the other value fields are zero. -/
def mkLeaf (t : ExprType) (vt : ValueType) (s lang al : String) : Expr :=
  Expr.mk t vt s 0 0 ⟨0, 0, 0⟩ false 0 lang al []

/-- A node with children and no value. -/
def mkNode (t : ExprType) (ch : List Expr) : Expr :=
  Expr.mk t .stringType "" 0 0 ⟨0, 0, 0⟩ false 0 "" "" ch

/-- An instance of the formatting functions, every value written as `0`. -/
def zeroFmt : GoFmt where
  FormatFloat := fun _ => "0"
  FormatTime := fun _ => "0"
  FormatFloat_chars := by intro x c h; simp at h; subst h; decide
  FormatTime_chars := by intro x c h; simp at h; subst h; decide

/-- The tree `access("publisher") = const("BSI-2024-001", string) AND
access("tracking_id") = const("CSAF-X", string)`. -/
def equalityConjunction : Expr :=
  mkNode .and
    [mkNode .eq [mkLeaf .access .stringType "publisher" "" "",
                 mkLeaf .cnst .stringType "BSI-2024-001" "" ""],
     mkNode .eq [mkLeaf .access .stringType "tracking_id" "" "",
                 mkLeaf .cnst .stringType "CSAF-X" "" ""]]

/-- A text with its space and parenthesis characters removed. -/
def stripSpaceParen (s : String) : List Char :=
  s.data.filter (fun c => c ≠ ' ' ∧ c ≠ '(' ∧ c ≠ ')')

/-- The parentheses of a text are balanced: no prefix has more `)` than `(`,
and the text has as many `)` as `(`. -/
def Balanced (l : List Char) : Prop :=
  (∀ p, p <+: l → p.count ')' ≤ p.count '(') ∧ l.count ')' = l.count '('

/-- The nesting depth after reading a text at depth `d`; `none` when a `)` is
read at depth zero. -/
def depth (d : Nat) : List Char → Option Nat
  | [] => some d
  | c :: l =>
    if c = '(' then depth (d + 1) l
    else if c = ')' then
      match d with
      | 0 => none
      | d' + 1 => depth d' l
    else depth d l

/-- The search node of the scenario: language `english`, query text
`heap overflow`, alias `snippet`. -/
def searchWithAlias : Expr :=
  mkLeaf .search .stringType "heap overflow" "english" "snippet"

/-- A text without parenthesis characters. -/
def noParen (s : String) : Bool :=
  s.data.all (fun c => c ≠ '(' ∧ c ≠ ')')

/-- The names a leaf copies into the text have no parenthesis characters:
the column name of an `access` node, the language name of a `search` or
`csearch` node, the literal of a workflow-typed `const` node. -/
def leafNoParen (e : Expr) : Bool :=
  match e.exprType with
  | .access => noParen e.stringValue
  | .search => noParen e.langValue
  | .csearch => noParen e.langValue
  | .cnst => if e.valueType = .workflowType then noParen e.stringValue else true
  | _ => true

/-- The column names, language names and workflow literals of a tree have no
parenthesis characters. -/
def noParenNames (e : Expr) : Bool := (leaves e).all leafNoParen

mutual

/-- The nodes of a tree that the compiler visits, the tree itself first. -/
def nodes : Expr → List Expr
  | .mk t vt s i f tm bv d lang al ch =>
    Expr.mk t vt s i f tm bv d lang al ch ::
      match shape t vt with
      | .leaf => []
      | .unary _ _ => nodesFirst ch
      | .binary _ => nodesPair ch

/-- The nodes below the first child. -/
def nodesFirst : List Expr → List Expr
  | c :: _ => nodes c
  | [] => []

/-- The nodes below the first child, then those below the second. -/
def nodesPair : List Expr → List Expr
  | l :: r :: _ => nodes l ++ nodes r
  | _ => []

end

/-- The parenthesis characters of a text, in order. -/
def parens (l : List Char) : List Char :=
  l.filter (fun c => c = '(' ∨ c = ')')

/-- The distinct values of a list in the order of their first occurrence. -/
def firstOccurrences : List String → List String
  | [] => []
  | v :: l => v :: (firstOccurrences l).filter (fun w => w ≠ v)

/-- The memo agrees with the value list: the values are distinct, and the memo
maps each of them, and nothing else, to its index in the list. -/
def memoInv (p : List String × List (String × Nat)) : Prop :=
  p.1.Nodup ∧ p.2.length = p.1.length ∧
    ∀ v, mapGet p.2 v = if v ∈ p.1 then some (p.1.indexOf v) else none

/-- A tree with a repeated literal:
`(publisher = "x" AND tracking_id = "y") OR search("x")`. -/
def repeatedLiteral : Expr :=
  mkNode .or
    [mkNode .and
      [mkNode .eq [mkLeaf .access .stringType "publisher" "" "",
                   mkLeaf .cnst .stringType "x" "" ""],
       mkNode .eq [mkLeaf .access .stringType "tracking_id" "" "",
                   mkLeaf .cnst .stringType "y" "" ""]],
     mkLeaf .search .stringType "x" "english" ""]

/-- The search leaves of a tree that carry the alias `a`, in traversal order. -/
def searchesWith (a : String) (e : Expr) : List Expr :=
  (leaves e).filter (fun l => l.exprType = .search ∧ l.alias_ = a)

/-- Two search nodes with the alias `s`: first language `english` and text `a`,
then language `german` and text `b`. -/
def aliasReused : Expr :=
  mkNode .and
    [mkLeaf .search .stringType "a" "english" "s",
     mkLeaf .search .stringType "b" "german" "s"]

/-- The nodes whose `stringValue` is a text value: `const` nodes of any value
type and `search`, `csearch`, `mentioned` and `involved` nodes. -/
def textNode (t : ExprType) (_vt : ValueType) : Bool :=
  t = .cnst || t = .search || t = .csearch || t = .mentioned || t = .involved

/-- The text nodes without the workflow-typed `const` nodes. -/
def textNodeNoWorkflow (t : ExprType) (vt : ValueType) : Bool :=
  (t = .cnst && vt ≠ .workflowType) || t = .search || t = .csearch || t = .mentioned ||
    t = .involved

/-- The nodes whose `stringValue` is passed to `replacementIndex`: string-typed
`const` nodes and `search`, `csearch`, `mentioned` and `involved` nodes. -/
def literalNode (t : ExprType) (vt : ValueType) : Bool :=
  (t = .cnst && vt = .stringType) || t = .search || t = .csearch || t = .mentioned ||
    t = .involved

mutual

/-- Two trees of identical shape that differ at most in the `stringValue` of the
nodes selected by `free`. -/
def sameExcept (free : ExprType → ValueType → Bool) : Expr → Expr → Prop
  | .mk t vt s i f tm bv d lang al ch, .mk t2 vt2 s2 i2 f2 tm2 bv2 d2 lang2 al2 ch2 =>
    t2 = t ∧ vt2 = vt ∧ i2 = i ∧ f2 = f ∧ tm2 = tm ∧ bv2 = bv ∧ d2 = d ∧
      lang2 = lang ∧ al2 = al ∧ (free t vt = true ∨ s2 = s) ∧ sameExceptList free ch ch2

/-- The lists of children have the same length and agree child by child. -/
def sameExceptList (free : ExprType → ValueType → Bool) : List Expr → List Expr → Prop
  | [], [] => True
  | c :: rest, c2 :: rest2 => sameExcept free c c2 ∧ sameExceptList free rest rest2
  | [], _ :: _ => False
  | _ :: _, [] => False

end

/-- The `stringValue` of the leaves selected by `free`, in traversal order. -/
def valuesAt (free : ExprType → ValueType → Bool) (e : Expr) : List String :=
  ((leaves e).filter (fun l => free l.exprType l.valueType)).map Expr.stringValue

/-- Two lists of values have the same pattern of equalities between positions. -/
def samePattern (l1 l2 : List String) : Prop :=
  l1.length = l2.length ∧
    ∀ i < l1.length, ∀ j < l1.length, (l1[i]? = l1[j]? ↔ l2[i]? = l2[j]?)

/-- A workflow-typed `const` node with the literal `s`. -/
def workflowConst (s : String) : Expr := mkLeaf .cnst .workflowType s "" ""

/-- The tree `repeatedLiteral` with other literal values, `u` for `x` and `w`
for `y`. -/
def repeatedLiteral2 : Expr :=
  mkNode .or
    [mkNode .and
      [mkNode .eq [mkLeaf .access .stringType "publisher" "" "",
                   mkLeaf .cnst .stringType "u" "" ""],
       mkNode .eq [mkLeaf .access .stringType "tracking_id" "" "",
                   mkLeaf .cnst .stringType "w" "" ""]],
     mkLeaf .search .stringType "u" "english" ""]

/-! ## Statement assembly -/

/-- The double quote character as a text. -/
def doubleQuote : String := String.singleton (Char.ofNat 34)

/-- A printable ASCII character other than the double quote and the
backslash. -/
def plainChar (c : Char) : Bool :=
  32 ≤ c.toNat && c.toNat ≤ 126 && c.toNat != 34 && c.toNat != 92

/-- The verb `%q` of Go `fmt` on a string (`strconv.Quote`), kept abstract; what
is recorded of it is that a text of printable ASCII characters without double
quote and backslash is written unchanged between double quotes. -/
structure GoQuote where
  /-- Go `strconv.Quote`. -/
  Quote : String → String
  Quote_plain : ∀ s : String, (∀ c ∈ s.data, plainChar c = true) →
    Quote s = doubleQuote ++ s ++ doubleQuote

/-- An instance of `%q`: every text written unchanged between double quotes. -/
def plainQuote : GoQuote where
  Quote := fun s => doubleQuote ++ s ++ doubleQuote
  Quote_plain := fun _ _ => rfl

/-- Go `strings.HasPrefix`. -/
def HasPrefix (s p : String) : Bool := p.data.isPrefixOf s.data

/-- Go `s[1:]` on a text that starts with a one-byte character. -/
def dropFirst (s : String) : String := String.mk (s.data.drop 1)

/-- The join `createFrom` writes in advisory mode, after the base table. -/
def advisoriesJoin : String :=
  " JOIN advisories ON " ++
  "advisories.tracking_id = documents.tracking_id AND " ++
  "advisories.publisher = documents.publisher"

/-- The join `createFrom` writes when the text tables are needed. -/
def textTablesJoin : String :=
  " JOIN documents_texts ON id = documents_texts.documents_id " ++
  "JOIN unique_texts ON documents_texts.txt_id = unique_texts.id"

/-- Go `SQLBuilder.createFrom`. -/
def createFrom (sb : SQLBuilder) (b : String) : String :=
  let b :=
    if sb.Advisory then
      WriteString b ("documents " ++
        "JOIN advisories ON " ++
        "advisories.tracking_id = documents.tracking_id AND " ++
        "advisories.publisher = documents.publisher")
    else WriteString b "documents"
  if sb.TextTables then
    WriteString b (" JOIN documents_texts ON id = documents_texts.documents_id " ++
      "JOIN unique_texts ON documents_texts.txt_id = unique_texts.id")
  else b

/-- Go `SQLBuilder.CreateCountSQL`. -/
def CreateCountSQL (sb : SQLBuilder) : String :=
  let b := ""
  let b := WriteString b "SELECT count(*) FROM "
  let b := createFrom sb b
  let b := WriteString b " WHERE "
  WriteString b sb.WhereClause

/-- The `for` loop of `CreateOrder` on the remaining fields and the builder `b`;
the result is the returned text and the error, `none` for `nil`.
`ExistsDocumentColumn` is the allow-list lookup of the package. -/
def CreateOrderLoop (q : GoQuote) (ExistsDocumentColumn : String → Bool → Bool)
    (sb : SQLBuilder) : List String → String → String × Option String
  | [], b => (b, none)
  | field :: rest, b =>
    let desc := HasPrefix field "-"
    let field := if desc then dropFirst field else field
    if (mapGet sb.Aliases field).isNone && !ExistsDocumentColumn field sb.Advisory then
      ("", some ("order field " ++ q.Quote field ++ " does not exists"))
    else
      let b := if 0 < b.length then WriteByte b ',' else b
      let b :=
        if field = "tracking_id" ∨ field = "publisher" then
          WriteString (WriteString b "documents.") field
        else if field = "cvss_v2_score" ∨ field = "cvss_v3_score" ∨ field = "critical" then
          WriteString (WriteString (WriteString b "COALESCE(") field) ",0)"
        else if field = "version" then
          WriteString b
            "CASE WHEN pg_input_is_valid(version, 'integer') THEN version::int END"
        else WriteString b field
      let b := if desc then WriteString b " DESC" else WriteString b " ASC"
      CreateOrderLoop q ExistsDocumentColumn sb rest b

/-- Go `SQLBuilder.CreateOrder`. -/
def CreateOrder (q : GoQuote) (ExistsDocumentColumn : String → Bool → Bool)
    (sb : SQLBuilder) (fields : List String) : String × Option String :=
  CreateOrderLoop q ExistsDocumentColumn sb fields ""

/-- The `for` loop of `projectionsWithCasts` from index `i` on. -/
def projectionsLoop (sb : SQLBuilder) : Nat → List String → String → String
  | _, [], b => b
  | i, p :: rest, b =>
    let b := if i > 0 then WriteByte b ',' else b
    match mapGet sb.Aliases p with
    | some a => projectionsLoop sb (i + 1) rest (WriteString b a)
    | none =>
      let b :=
        if p = "id" ∨ p = "tracking_id" ∨ p = "publisher" then
          WriteString (WriteString b "documents.") p
        else if p = "state" then WriteString b "state::text"
        else if p = "versions" then WriteString b (versionsCount ++ "AS versions")
        else if p = "comments" then
          if sb.Advisory then WriteString b p
          else WriteString b (commentsCount ++ "AS comments")
        else WriteString b p
      projectionsLoop sb (i + 1) rest b

/-- Go `SQLBuilder.projectionsWithCasts`. -/
def projectionsWithCasts (sb : SQLBuilder) (b : String) (proj : List String) : String :=
  projectionsLoop sb 0 proj b

/-- Go `SQLBuilder.CreateQuery`; `limit` and `offset` are Go `int64`. -/
def CreateQuery (sb : SQLBuilder) (fields : List String) (order : String)
    (limit offset : Int) : String :=
  let b := ""
  let b := WriteString b "SELECT "
  let b := projectionsWithCasts sb b fields
  let b := WriteString b " FROM "
  let b := createFrom sb b
  let b := WriteString b " WHERE "
  let b := WriteString b sb.WhereClause
  let b := if order ≠ "" then WriteString (WriteString b " ORDER BY ") order else b
  let b := if limit ≥ 0 then WriteString (WriteString b " LIMIT ") (FormatInt limit) else b
  if offset > 0 then WriteString (WriteString b " OFFSET ") (FormatInt offset) else b

/-- Go `SQLBuilder.CheckProjections`; the result is the error, `none` for
`nil`. `ExistsDocumentColumn` is the allow-list lookup of the package. -/
def CheckProjections (q : GoQuote) (ExistsDocumentColumn : String → Bool → Bool)
    (sb : SQLBuilder) : List String → Option String
  | [] => none
  | p :: rest =>
    if (mapGet sb.Aliases p).isSome then
      CheckProjections q ExistsDocumentColumn sb rest
    else if !ExistsDocumentColumn p sb.Advisory then
      some ("column " ++ q.Quote p ++ " does not exists")
    else CheckProjections q ExistsDocumentColumn sb rest

/-- An order field after removing one leading `-`. -/
def orderField (f : String) : String :=
  if HasPrefix f "-" then dropFirst f else f

/-- The sort key of a field name: `documents.<f>` for `tracking_id` and
`publisher`, `COALESCE(<f>,0)` for `cvss_v2_score`, `cvss_v3_score` and
`critical`, the conditional integer cast for `version`, and the name itself
otherwise. -/
def orderKey (f : String) : String :=
  if f = "tracking_id" ∨ f = "publisher" then "documents." ++ f
  else if f = "cvss_v2_score" ∨ f = "cvss_v3_score" ∨ f = "critical" then
    "COALESCE(" ++ f ++ ",0)"
  else if f = "version" then
    "CASE WHEN pg_input_is_valid(version, 'integer') THEN version::int END"
  else f

/-- The sort key of an order field followed by its direction: ` DESC` when the
field has the leading `-`, ` ASC` otherwise. -/
def orderItem (f : String) : String :=
  orderKey (orderField f) ++ (if HasPrefix f "-" then " DESC" else " ASC")

/-- Texts joined by `,`. -/
def joinComma : List String → String
  | [] => ""
  | [x] => x
  | x :: y :: rest => x ++ "," ++ joinComma (y :: rest)

/-- An order or projection field that is neither a key of `Aliases` nor accepted
by the allow-list lookup. -/
def unknownField (ExistsDocumentColumn : String → Bool → Bool) (sb : SQLBuilder)
    (f : String) : Bool :=
  (mapGet sb.Aliases f).isNone && !ExistsDocumentColumn f sb.Advisory

/-- A node of kind `search`. -/
def isSearch (e : Expr) : Bool := e.exprType = .search

/-- The fixed operator token of the comparison, boolean and arithmetic kinds. -/
def operatorToken (t : ExprType) : Option String :=
  match t with
  | .eq => some "="
  | .ne => some "<>"
  | .lt => some "<"
  | .gt => some ">"
  | .le => some "<="
  | .ge => some ">="
  | .and => some "AND"
  | .or => some "OR"
  | .add => some "+"
  | .sub => some "-"
  | .mul => some "*"
  | .div => some "/"
  | _ => none

/-- An `involved` node with the actor `alice`. -/
def involvedAlice : Expr := mkLeaf .involved .stringType "alice" "" ""

/-- The text of one projection field as the specification states it: the
fragment registered for the field when it is a key of `Aliases`; otherwise
`documents.` and the name for `id`, `tracking_id` and `publisher`, `state::text`
for `state`, the versions count followed by `AS versions` for `versions`, for
`comments` the bare name in advisory mode and the comments count followed by
`AS comments` otherwise, and the name itself for every other field. -/
def projectionText (sb : SQLBuilder) (p : String) : String :=
  match mapGet sb.Aliases p with
  | some a => a
  | none =>
    if p = "id" ∨ p = "tracking_id" ∨ p = "publisher" then "documents." ++ p
    else if p = "state" then "state::text"
    else if p = "versions" then versionsCount ++ "AS versions"
    else if p = "comments" then
      if sb.Advisory then "comments" else commentsCount ++ "AS comments"
    else p

/-- The correspondence of placeholders and slots: a value that the memo numbers
`i`, written as the placeholder `$(i+1)`, is stored at `Replacements[i]`. -/
def slotsAgree (sb : SQLBuilder) : Prop :=
  ∀ (v : String) (i : Nat), mapGet sb.replToIdx v = some i → sb.Replacements[i]? = some v

/-- The number of children the kind of a node requires, as the specification
states it: one for `cast`, `not` and `ilikePID`, two for the comparison,
boolean and arithmetic kinds and `ilike`, none for the other kinds. -/
def requiredChildren : ExprType → Nat
  | .cast | .not | .ilikePID => 1
  | .eq | .ne | .lt | .gt | .le | .ge => 2
  | .and | .or => 2
  | .add | .sub | .mul | .div => 2
  | .ilike => 2
  | _ => 0

mutual

/-- The arity invariant: every node of the tree, read or not by the compiler,
has at least the children its kind requires. -/
def arityInv : Expr → Bool
  | .mk t _ _ _ _ _ _ _ _ _ ch => decide (requiredChildren t ≤ ch.length) && arityInvList ch

/-- The arity invariant on every tree of a list. -/
def arityInvList : List Expr → Bool
  | [] => true
  | c :: rest => arityInv c && arityInvList rest

end

/-- The assignments to `Aliases` that compiling a list of leaves makes, in
order: every `search` leaf with a non-empty alias assigns the headline fragment
of its language and of the placeholder number `k` gives to its query text. -/
def aliasOps (k : String → Nat) (l : List Expr) : List (String × String) :=
  l.filterMap (fun x =>
    if x.exprType = .search ∧ x.alias_ ≠ "" then
      some (x.alias_, headline x.langValue (k x.stringValue))
    else none)

/-- A list of assignments carried out on a map, in order. -/
def applyOps (m : List (String × String)) (ops : List (String × String)) :
    List (String × String) :=
  ops.foldl (fun m p => mapSet m p.1 p.2) m

/-! ## Database migrations: quoting a password -/

/-- The single quote character. -/
def singleQuote : Char := Char.ofNat 39

/-- The scan of Go `strings.ReplaceAll` for a non-empty pattern, on the
characters that are left; `skip` counts the characters of a match that are
still to be passed over. At the start of a match the replacement is written and
the match is passed over, any other character is copied. -/
def replaceAllAux (old new : List Char) : Nat → List Char → List Char
  | _, [] => []
  | skip + 1, _ :: rest => replaceAllAux old new skip rest
  | 0, c :: rest =>
    if old.isPrefixOf (c :: rest) then new ++ replaceAllAux old new (old.length - 1) rest
    else c :: replaceAllAux old new 0 rest

/-- Go `strings.ReplaceAll(s, old, new)`: the non-overlapping occurrences of
`old` from left to right are replaced by `new`; for an empty `old` the
replacement is written before every character and at the end. -/
def ReplaceAll (s old new : String) : String :=
  if old.data = [] then String.mk (new.data ++ s.data.flatMap (fun c => c :: new.data))
  else String.mk (replaceAllAux old.data new.data 0 s.data)

/-- Go `sqlQuote`. -/
def sqlQuote (s : String) : String :=
  "'" ++ ReplaceAll s "'" "''" ++ "'"

/-- The characters of a text with every single quote written twice. -/
def doubleQuotes : List Char → List Char
  | [] => []
  | c :: rest =>
    if c = singleQuote then singleQuote :: singleQuote :: doubleQuotes rest
    else c :: doubleQuotes rest

/-- The characters of a text with every pair of adjacent single quotes, from
left to right, replaced by one single quote. -/
def halveQuotes : List Char → List Char
  | [] => []
  | [c] => [c]
  | c :: d :: rest =>
    if c = singleQuote ∧ d = singleQuote then singleQuote :: halveQuotes rest
    else c :: halveQuotes (d :: rest)

/-- The inverse of `sqlQuote`: the first and the last character are removed and
every doubled single quote is halved. -/
def sqlUnquote (t : String) : String :=
  String.mk (halveQuotes (t.data.drop 1).dropLast)

/-- The lengths of the maximal runs of single quotes in a list of characters,
from left to right; `cur` is the length of the run that is open. -/
def quoteRunsAux : Nat → List Char → List Nat
  | cur, [] => if cur = 0 then [] else [cur]
  | cur, c :: rest =>
    if c = singleQuote then quoteRunsAux (cur + 1) rest
    else (if cur = 0 then [] else [cur]) ++ quoteRunsAux 0 rest

/-- The lengths of the maximal runs of single quotes in a list of characters. -/
def quoteRuns (l : List Char) : List Nat := quoteRunsAux 0 l

/-! ## Import statistics: the buckets of criticals -/

/-- Go `Time.Equal`: the two times are the same instant, whatever their
locations. -/
def Time.Equal (t u : Time) : Bool := t.sec = u.sec ∧ t.nsec = u.nsec

/-- The zero value of a Go `time.Time`: January 1 of the year 1, 00:00 UTC. -/
def zeroTime : Time := ⟨-62135596800, 0, 0⟩

/-- The values `rows.Scan` reads from a row of the critical statistics: the
bucket, the critical value, a `*float64` that is nil for SQL NULL, and the
count. -/
structure CritRow where
  bucket : Time
  critical : Option Float
  count : Int

/-- A bin of a bucket, the Go slice `[]any{critical, count}`. -/
abbrev Bin := Option Float × Int

/-- A group of the result, the Go slice `[]any{bucket, bins}`. -/
abbrev Group := Time × List Bin

/-- The local variables of `collectCritcalBuckets`. -/
structure BucketState where
  list : List Group
  bins : List Bin
  last : Time

/-- The closure `add` of `collectCritcalBuckets`. -/
def add (st : BucketState) (bucket : Time) (critical : Option Float) (count : Int) :
    BucketState :=
  let st :=
    if st.bins.length = 0 ∨ bucket.Equal st.last = true then
      { st with bins := st.bins ++ [(critical, count)] }
    else if st.bins.length > 0 then
      { st with
          list := st.list ++ [(st.last, st.bins)]
          bins := [(critical, count)] }
    else st
  { st with last := bucket }

/-- The `for rows.Next()` loop of `collectCritcalBuckets`; a row is `none` when
`rows.Scan` fails on it, and the loop then returns the error. -/
def collectLoop : List (Option CritRow) → BucketState → Option BucketState
  | [], st => some st
  | none :: _, _ => none
  | some r :: rest, st => collectLoop rest (add st r.bucket.UTC r.critical r.count)

/-- Go `collectCritcalBuckets` on the rows of a result set; `none` is the
error of a failed scan. -/
def collectCritcalBuckets (rows : List (Option CritRow)) : Option (List Group) :=
  match collectLoop rows ⟨[], [], zeroTime⟩ with
  | none => none
  | some st =>
    if st.bins.length > 0 then some (st.list ++ [(st.last, st.bins)]) else some st.list

/-- The groups a state of the loop stands for: the closed groups and, when
there are bins, the open group of the last bucket. -/
def groupsOf (st : BucketState) : List Group :=
  if st.bins.length > 0 then st.list ++ [(st.last, st.bins)] else st.list

/-- The rows of a list of groups: every bin with the bucket of its group. -/
def groupRows (gs : List Group) : List (Time × Bin) :=
  gs.flatMap (fun g => g.2.map (fun p => (g.1, p)))

/-! # Lemmas -/

/-! ## Induction over expression trees -/

theorem Expr.induct {P : Expr → Prop}
    (h : ∀ t vt s i f tm bv d lang al ch, (∀ c ∈ ch, P c) →
      P (Expr.mk t vt s i f tm bv d lang al ch)) : ∀ e, P e := by
  intro e
  refine Expr.rec (motive_1 := P) (motive_2 := fun l => ∀ c ∈ l, P c) ?_ ?_ ?_ e
  · intro t vt s i f tm bv d lang al ch ih
    exact h t vt s i f tm bv d lang al ch ih
  · intro c hc; cases hc
  · intro hd tl h1 h2 c hc
    rcases List.mem_cons.1 hc with rfl | hc
    · exact h1
    · exact h2 c hc

/-! ## Maps and the memo -/

theorem mapGet_mapSet_self {β : Type} (m : List (String × β)) (k : String) (v : β) :
    mapGet (mapSet m k v) k = some v := by
  induction m with
  | nil => simp [mapSet, mapGet]
  | cons p rest ih =>
    obtain ⟨k', v'⟩ := p
    by_cases h : k' = k
    · simp [mapSet, mapGet, h]
    · simp [mapSet, mapGet, h, ih]

theorem mapGet_mapSet_ne {β : Type} (m : List (String × β)) (k k2 : String) (v : β)
    (h : k ≠ k2) : mapGet (mapSet m k v) k2 = mapGet m k2 := by
  induction m with
  | nil => simp [mapSet, mapGet, h]
  | cons p rest ih =>
    obtain ⟨k', v'⟩ := p
    by_cases h1 : k' = k
    · subst h1; simp [mapSet, mapGet, h]
    · by_cases h2 : k' = k2
      · subst h2; simp [mapSet, mapGet, h1]
      · simp [mapSet, mapGet, h1, h2, ih]

/-! ## Strings and leaves -/

@[simp] theorem WriteString_eq (b s : String) : WriteString b s = b ++ s := rfl

@[simp] theorem WriteByte_eq (b : String) (c : Char) :
    WriteByte b c = b ++ String.singleton c := rfl

@[simp] theorem singleton_lparen : String.singleton '(' = "(" := rfl

@[simp] theorem singleton_rparen : String.singleton ')' = ")" := rfl

@[simp] theorem singleton_dollar : String.singleton '$' = "$" := rfl

theorem replacementIndex_get (sb : SQLBuilder) (s : String) :
    mapGet (replacementIndex sb s).1.replToIdx s = some (replacementIndex sb s).2 := by
  unfold replacementIndex
  cases h : mapGet sb.replToIdx s with
  | none => simp [mapGet_mapSet_self]
  | some i => simp [h]

theorem replacementIndex_keeps (sb : SQLBuilder) (s v : String) (i : Nat)
    (h : mapGet sb.replToIdx v = some i) :
    mapGet (replacementIndex sb s).1.replToIdx v = some i := by
  unfold replacementIndex
  cases hs : mapGet sb.replToIdx s with
  | none =>
    have hne : s ≠ v := by
      intro hsv; subst hsv; rw [hs] at h; cases h
    simp [mapGet_mapSet_ne _ _ _ _ hne, h]
  | some j => simpa using h

@[simp] theorem replacementIndex_Advisory (sb : SQLBuilder) (s : String) :
    (replacementIndex sb s).1.Advisory = sb.Advisory := by
  unfold replacementIndex
  cases mapGet sb.replToIdx s <;> rfl

@[simp] theorem replacementIndex_Aliases (sb : SQLBuilder) (s : String) :
    (replacementIndex sb s).1.Aliases = sb.Aliases := by
  unfold replacementIndex
  cases mapGet sb.replToIdx s <;> rfl

@[simp] theorem replacementIndex_TextTables (sb : SQLBuilder) (s : String) :
    (replacementIndex sb s).1.TextTables = sb.TextTables := by
  unfold replacementIndex
  cases mapGet sb.replToIdx s <;> rfl

@[simp] theorem replacementIndex_WhereClause (sb : SQLBuilder) (s : String) :
    (replacementIndex sb s).1.WhereClause = sb.WhereClause := by
  unfold replacementIndex
  cases mapGet sb.replToIdx s <;> rfl

theorem placeholderOf_replacementIndex (sb : SQLBuilder) (s : String) :
    placeholderOf (replacementIndex sb s).1 s = (replacementIndex sb s).2 + 1 := by
  simp [placeholderOf, replacementIndex_get]

theorem accessWhere_eq (sb : SQLBuilder) (e : Expr) (b : String) :
    accessWhere sb e b = b ++ accessWhere { Advisory := sb.Advisory } e "" := by
  unfold accessWhere
  simp only [WriteString_eq, String.empty_append]
  split_ifs <;> simp [String.append_assoc]

theorem cnstWhere_eq (fmt : GoFmt) (sb : SQLBuilder) (e : Expr) (b : String)
    (h : e.valueType ≠ .stringType) :
    cnstWhere fmt sb e b = (sb, b ++ (cnstWhere fmt {} e "").2) := by
  unfold cnstWhere
  cases hv : e.valueType <;> simp [String.append_assoc] at * 
  · exact absurd hv h
  · split_ifs <;> simp

theorem whereRecurse_leaf (fmt : GoFmt) (sb : SQLBuilder) (b : String)
    (t : ExprType) (vt : ValueType) (s : String) (i : Int) (f : Float) (tm : Time)
    (bv : Bool) (d : Int) (lang al : String) (ch : List Expr)
    (h : shape t vt = .leaf) :
    whereRecurse fmt sb (Expr.mk t vt s i f tm bv d lang al ch) b =
      some (leafState sb (Expr.mk t vt s i f tm bv d lang al ch),
        b ++ ("(" ++ leafText fmt
          (placeholderOf (leafState sb (Expr.mk t vt s i f tm bv d lang al ch)))
          sb.Advisory (Expr.mk t vt s i f tm bv d lang al ch) ++ ")")) := by
  cases t <;> simp [shape] at h
  · -- access
    simp [whereRecurse, leafState, leafText, Expr.exprType]
    rw [accessWhere_eq]; simp [String.append_assoc]
  · -- cnst
    by_cases hv : vt = .stringType
    · subst hv
      simp [whereRecurse, leafState, leafText, Expr.exprType, Expr.valueType, cnstWhere,
        Expr.stringValue, placeholderOf_replacementIndex, String.append_assoc]
      simp [String.ext_iff]
    · simp [whereRecurse, leafState, leafText, Expr.exprType, Expr.valueType, hv]
      rw [cnstWhere_eq _ _ _ _ (by simpa [Expr.valueType] using hv)]
      simp [String.append_assoc]
  · -- search
    simp only [whereRecurse, leafState, leafText, Expr.exprType, searchWhere,
        Expr.stringValue, Expr.alias_, Expr.langValue]
    by_cases ha : al = ""
    · simp [ha, placeholderOf, replacementIndex_get, String.append_assoc]
      simp [String.ext_iff]
    · simp [ha, placeholderOf, replacementIndex_get, String.append_assoc]
      simp [String.ext_iff]
  · simp [whereRecurse, leafState, leafText, Expr.exprType, csearchWhere,
        Expr.stringValue, Expr.langValue, placeholderOf_replacementIndex, String.append_assoc]
    split_ifs <;> simp [String.append_assoc]
  · simp [whereRecurse, leafState, leafText, Expr.exprType, mentionedWhere,
        Expr.stringValue, Expr.langValue, placeholderOf_replacementIndex, String.append_assoc]
    split_ifs <;> simp [String.append_assoc]
  · simp [whereRecurse, leafState, leafText, Expr.exprType, involvedWhere,
        Expr.stringValue, Expr.langValue, placeholderOf_replacementIndex, String.append_assoc]
    split_ifs <;> simp [String.append_assoc]
  · simp [whereRecurse, leafState, leafText, Expr.exprType, nowWhere, String.append_assoc]

/-! ## Unfolding the recursion -/

theorem whereRecurse_unary (fmt : GoFmt) (sb : SQLBuilder) (b : String)
    (t : ExprType) (vt : ValueType) (s : String) (i : Int) (f : Float) (tm : Time)
    (bv : Bool) (d : Int) (lang al : String) (c : Expr) (rest : List Expr)
    (pre post : String) (h : shape t vt = .unary pre post) :
    whereRecurse fmt sb (Expr.mk t vt s i f tm bv d lang al (c :: rest)) b =
      (whereRecurse fmt sb c (b ++ ("(" ++ pre))).map
        (fun p => (p.1, p.2 ++ (post ++ ")"))) := by
  cases t <;> simp [shape] at h <;> obtain ⟨rfl, rfl⟩ := h
  · simp only [whereRecurse, castWhere, WriteString_eq, WriteByte_eq, singleton_lparen,
      singleton_rparen, String.append_assoc]
    cases whereRecurse fmt sb c (b ++ ("(" ++ "CAST(")) with
    | none => rfl
    | some p => simp [String.append_assoc]
  · simp only [whereRecurse, notWhere, WriteString_eq, WriteByte_eq, singleton_lparen,
      singleton_rparen, String.append_assoc]
    cases whereRecurse fmt sb c (b ++ ("(" ++ "(NOT ")) with
    | none => rfl
    | some p => simp [String.append_assoc]
  · simp only [whereRecurse, ilikePIDWhere, WriteString_eq, WriteByte_eq, singleton_lparen,
      singleton_rparen, String.append_assoc]
    cases whereRecurse fmt sb c (b ++ ("(" ++ ilikePIDText)) with
    | none => rfl
    | some p => simp [String.append_assoc]

theorem whereRecurse_binary (fmt : GoFmt) (sb : SQLBuilder) (b : String)
    (t : ExprType) (vt : ValueType) (s : String) (i : Int) (f : Float) (tm : Time)
    (bv : Bool) (d : Int) (lang al : String) (l r : Expr) (rest : List Expr)
    (op : String) (h : shape t vt = .binary op) :
    whereRecurse fmt sb (Expr.mk t vt s i f tm bv d lang al (l :: r :: rest)) b =
      (whereRecurse fmt sb l (b ++ ("(" ++ "("))).bind (fun p =>
        (whereRecurse fmt p.1 r (p.2 ++ op)).map (fun q => (q.1, q.2 ++ (")" ++ ")")))) := by
  cases t <;> simp [shape] at h <;> subst h <;>
    simp only [whereRecurse, binaryWhere, ilikeWhere, WriteString_eq, WriteByte_eq,
      singleton_lparen, singleton_rparen, String.append_assoc] <;>
    (cases whereRecurse fmt sb l (b ++ ("(" ++ "(")) with
      | none => rfl
      | some p =>
        simp only [Option.some_bind]
        cases whereRecurse fmt p.1 r (p.2 ++ _) with
        | none => rfl
        | some q => simp [String.append_assoc])

/-! ## The memo along the traversal -/

theorem replacementIndex_memo (sb : SQLBuilder) (s : String) :
    memoOf (replacementIndex sb s).1 = memoStep (memoOf sb) s := by
  unfold replacementIndex memoStep memoOf
  cases h : mapGet sb.replToIdx s <;> simp [h]

theorem memoStep_get (p : List String × List (String × Nat)) (v : String) :
    ∃ i, mapGet (memoStep p v).2 v = some i := by
  unfold memoStep
  cases h : mapGet p.2 v with
  | none => exact ⟨p.2.length, by simp [mapGet_mapSet_self]⟩
  | some i => exact ⟨i, by simp [h]⟩

theorem memoStep_keeps (p : List String × List (String × Nat)) (s v : String) (i : Nat)
    (h : mapGet p.2 v = some i) : mapGet (memoStep p s).2 v = some i := by
  unfold memoStep
  cases hs : mapGet p.2 s with
  | none =>
    have hne : s ≠ v := by
      intro hsv; subst hsv; rw [hs] at h; cases h
    simp [mapGet_mapSet_ne _ _ _ _ hne, h]
  | some j => simpa using h

theorem foldl_memoStep_keeps (l : List String) :
    ∀ (p : List String × List (String × Nat)) (v : String) (i : Nat),
      mapGet p.2 v = some i → mapGet (l.foldl memoStep p).2 v = some i := by
  induction l with
  | nil => intro p v i h; simpa using h
  | cons a l ih =>
    intro p v i h
    simp only [List.foldl_cons]
    exact ih _ v i (memoStep_keeps p a v i h)

theorem foldl_memoStep_get (l : List String) :
    ∀ (p : List String × List (String × Nat)) (v : String), v ∈ l →
      ∃ i, mapGet (l.foldl memoStep p).2 v = some i := by
  induction l with
  | nil => intro p v h; cases h
  | cons a l ih =>
    intro p v h
    simp only [List.foldl_cons]
    rcases List.mem_cons.1 h with rfl | h
    · obtain ⟨i, hi⟩ := memoStep_get p v
      exact ⟨i, foldl_memoStep_keeps l _ v i hi⟩
    · exact ih _ v h

theorem leafState_memo (sb : SQLBuilder) (e : Expr) :
    memoOf (leafState sb e) = (leafLits e).foldl memoStep (memoOf sb) := by
  unfold leafState leafLits
  cases e.exprType <;> simp [replacementIndex_memo]
  · split_ifs <;> simp [replacementIndex_memo]
  · split_ifs <;> exact replacementIndex_memo sb _

theorem foldl_leafState_memo (l : List Expr) : ∀ sb : SQLBuilder,
    memoOf (l.foldl leafState sb) = (l.flatMap leafLits).foldl memoStep (memoOf sb) := by
  induction l with
  | nil => intro sb; rfl
  | cons a l ih =>
    intro sb
    simp only [List.foldl_cons, List.flatMap_cons, List.foldl_append]
    rw [ih, leafState_memo]

theorem stateAfter_memo (sb : SQLBuilder) (e : Expr) :
    memoOf (stateAfter sb e) = (lits e).foldl memoStep (memoOf sb) :=
  foldl_leafState_memo _ sb

@[simp] theorem leafState_Advisory (sb : SQLBuilder) (e : Expr) :
    (leafState sb e).Advisory = sb.Advisory := by
  unfold leafState
  cases e.exprType <;> simp
  · split_ifs <;> simp
  · split_ifs <;> simp

theorem foldl_leafState_Advisory (l : List Expr) : ∀ sb : SQLBuilder,
    (l.foldl leafState sb).Advisory = sb.Advisory := by
  induction l with
  | nil => intro sb; rfl
  | cons a l ih => intro sb; simp only [List.foldl_cons]; rw [ih, leafState_Advisory]

@[simp] theorem stateAfter_Advisory (sb : SQLBuilder) (e : Expr) :
    (stateAfter sb e).Advisory = sb.Advisory :=
  foldl_leafState_Advisory _ sb

theorem placeholderOf_eq_of_get (sb : SQLBuilder) (v : String) (i : Nat)
    (h : mapGet sb.replToIdx v = some i) : placeholderOf sb v = i + 1 := by
  simp [placeholderOf, h]

/-- Values compiled earlier keep their placeholder number. -/
theorem placeholderOf_stateAfter (sb : SQLBuilder) (e e2 : Expr) (v : String)
    (hv : v ∈ lits e) :
    placeholderOf (stateAfter (stateAfter sb e) e2) v = placeholderOf (stateAfter sb e) v := by
  have h1 := stateAfter_memo sb e
  have h2 := stateAfter_memo (stateAfter sb e) e2
  obtain ⟨i, hi⟩ := foldl_memoStep_get (lits e) (memoOf sb) v hv
  rw [← h1] at hi
  have hi2 := foldl_memoStep_keeps (lits e2) (memoOf (stateAfter sb e)) v i hi
  rw [← h2] at hi2
  rw [placeholderOf_eq_of_get _ _ _ hi, placeholderOf_eq_of_get _ _ _ hi2]

/-! ## The compiler as a rendering -/

theorem leafText_congr (fmt : GoFmt) (k k' : String → Nat) (adv : Bool) (e : Expr)
    (h : ∀ v ∈ leafLits e, k v = k' v) : leafText fmt k adv e = leafText fmt k' adv e := by
  unfold leafText
  unfold leafLits at h
  cases ht : e.exprType <;> simp only [ht] at h ⊢
  · by_cases hv : e.valueType = .stringType
    · simp only [hv, if_true] at h ⊢
      rw [h _ (List.mem_singleton.2 rfl)]
    · simp only [hv, if_false]
  all_goals rw [h _ (List.mem_singleton.2 rfl)]

theorem renderWith_congr (fmt : GoFmt) (k k' : String → Nat) (adv : Bool) :
    ∀ e : Expr, (∀ v ∈ lits e, k v = k' v) →
      renderWith fmt k adv e = renderWith fmt k' adv e := by
  refine Expr.induct ?_
  intro t vt s i f tm bv d lang al ch ih h
  cases hs : shape t vt with
  | leaf =>
    simp only [lits, leaves, leavesFirst, leavesPair, hs, List.flatMap_cons, List.flatMap_nil, List.append_nil] at h
    simp only [renderWith, renderFirst, renderPair, hs]
    rw [leafText_congr fmt k k' adv _ h]
  | unary pre post =>
    cases ch with
    | nil => simp only [renderWith, renderFirst, renderPair, hs]
    | cons c rest =>
      simp only [lits, leaves, leavesFirst, leavesPair, hs] at h
      simp only [renderWith, renderFirst, renderPair, hs]
      rw [ih c (List.mem_cons_self _ _) h]
  | binary op =>
    match ch with
    | [] => simp only [renderWith, renderFirst, renderPair, hs]
    | [_] => simp only [renderWith, renderFirst, renderPair, hs]
    | l :: r :: rest =>
      simp only [lits, leaves, leavesFirst, leavesPair, hs, List.flatMap_append, List.mem_append] at h
      simp only [renderWith, renderFirst, renderPair, hs]
      rw [ih l (List.mem_cons_self _ _) (fun v hv => h v (Or.inl hv)),
        ih r (List.mem_cons_of_mem _ (List.mem_cons_self _ _)) (fun v hv => h v (Or.inr hv))]

/-- What `whereRecurse` does on a well-formed tree: the builder becomes
`stateAfter sb e`, and the text appended is the tree rendered with the
placeholder numbers of the memo of that builder. -/
theorem whereRecurse_eq (fmt : GoFmt) :
    ∀ (e : Expr) (sb : SQLBuilder) (b : String), wellFormed e = true →
      whereRecurse fmt sb e b =
        some (stateAfter sb e,
          b ++ renderWith fmt (placeholderOf (stateAfter sb e)) sb.Advisory e) := by
  refine Expr.induct ?_
  intro t vt s i f tm bv d lang al ch ih sb b hwf
  cases hs : shape t vt with
  | leaf =>
    rw [whereRecurse_leaf fmt sb b t vt s i f tm bv d lang al ch hs]
    simp only [stateAfter, leaves, leavesFirst, leavesPair, hs, List.foldl_cons, List.foldl_nil, renderWith]
  | unary pre post =>
    cases ch with
    | nil => simp [wellFormed, wellFormedFirst, wellFormedPair, hs] at hwf
    | cons c rest =>
      simp only [wellFormed, wellFormedFirst, wellFormedPair, hs] at hwf
      rw [whereRecurse_unary fmt sb b t vt s i f tm bv d lang al c rest pre post hs,
        ih c (List.mem_cons_self _ _) sb _ hwf]
      simp only [Option.map_some', stateAfter, leaves, leavesFirst, leavesPair, hs, renderWith, renderFirst, renderPair]
      simp [String.ext_iff]
  | binary op =>
    match ch, hwf, ih with
    | [], hwf, _ => simp [wellFormed, wellFormedFirst, wellFormedPair, hs] at hwf
    | [_], hwf, _ => simp [wellFormed, wellFormedFirst, wellFormedPair, hs] at hwf
    | l :: r :: rest, hwf, ih =>
      simp only [wellFormed, wellFormedFirst, wellFormedPair, hs, Bool.and_eq_true] at hwf
      rw [whereRecurse_binary fmt sb b t vt s i f tm bv d lang al l r rest op hs,
        ih l (List.mem_cons_self _ _) sb _ hwf.1]
      simp only [Option.some_bind]
      rw [ih r (List.mem_cons_of_mem _ (List.mem_cons_self _ _)) _ _ hwf.2]
      have hst : stateAfter sb (Expr.mk t vt s i f tm bv d lang al (l :: r :: rest)) =
          stateAfter (stateAfter sb l) r := by
        simp only [stateAfter, leaves, leavesFirst, leavesPair, hs, List.foldl_append]
      have hl : renderWith fmt (placeholderOf (stateAfter sb l)) sb.Advisory l =
          renderWith fmt (placeholderOf (stateAfter (stateAfter sb l) r)) sb.Advisory l :=
        renderWith_congr fmt _ _ _ l
          (fun v hv => (placeholderOf_stateAfter sb l r v hv).symm)
      rw [hst, hl]
      simp only [Option.map_some', stateAfter_Advisory, renderWith, renderFirst, renderPair, hs]
      simp [String.ext_iff]

/-! # The claims -/

theorem depth_prefix_count (l : List Char) : ∀ (d d' : Nat), depth d l = some d' →
    (∀ p, p <+: l → p.count ')' ≤ d + p.count '(') ∧
      d + l.count '(' = d' + l.count ')' := by
  induction l with
  | nil =>
    intro d d' h
    simp only [depth, Option.some.injEq] at h
    subst h
    refine ⟨?_, by simp⟩
    intro p hp
    rw [List.prefix_nil] at hp
    subst hp; simp
  | cons c l ih =>
    intro d d' h
    have hpre : ∀ p, p <+: c :: l → p = [] ∨ ∃ q, p = c :: q ∧ q <+: l := by
      intro p hp
      cases p with
      | nil => exact Or.inl rfl
      | cons x q =>
        rw [List.cons_prefix_cons] at hp
        exact Or.inr ⟨q, by rw [hp.1], hp.2⟩
    by_cases h1 : c = '('
    · subst h1
      simp only [depth, if_true] at h
      obtain ⟨ha, hb⟩ := ih _ _ h
      refine ⟨?_, ?_⟩
      · intro p hp
        rcases hpre p hp with rfl | ⟨q, rfl, hq⟩
        · simp
        · have := ha q hq
          simp [List.count_cons] at this ⊢
          omega
      · simp [List.count_cons] at hb ⊢
        omega
    · by_cases h2 : c = ')'
      · subst h2
        cases d with
        | zero => simp [depth] at h
        | succ d0 =>
          simp only [depth, h1, if_false, if_true] at h
          obtain ⟨ha, hb⟩ := ih _ _ h
          refine ⟨?_, ?_⟩
          · intro p hp
            rcases hpre p hp with rfl | ⟨q, rfl, hq⟩
            · simp
            · have := ha q hq
              simp [List.count_cons] at this ⊢
              omega
          · simp [List.count_cons] at hb ⊢
            omega
      · simp only [depth, h1, h2, if_false] at h
        obtain ⟨ha, hb⟩ := ih _ _ h
        refine ⟨?_, ?_⟩
        · intro p hp
          rcases hpre p hp with rfl | ⟨q, rfl, hq⟩
          · simp
          · have := ha q hq
            have e1 : ¬ (c == ')') = true := by simpa using h2
            have e2 : ¬ (c == '(') = true := by simpa using h1
            simp [List.count_cons, e1, e2] at this ⊢
            omega
        · have e1 : ¬ (c == ')') = true := by simpa using h2
          have e2 : ¬ (c == '(') = true := by simpa using h1
          simp [List.count_cons, e1, e2] at hb ⊢
          omega

theorem balanced_of_depth (l : List Char) (h : depth 0 l = some 0) : Balanced l := by
  obtain ⟨ha, hb⟩ := depth_prefix_count l 0 0 h
  refine ⟨?_, ?_⟩
  · intro p hp
    have := ha p hp
    omega
  · omega

/-- C5. The equality conjunction `publisher = "BSI-2024-001" AND tracking_id =
"CSAF-X"`, compiled on a fresh builder, gives a WHERE text that coincides with
`((documents.publisher = $1) AND (documents.tracking_id = $2))` once spaces and
parentheses are disregarded and whose parentheses are balanced, leaves
`Replacements = ["BSI-2024-001", "CSAF-X"]`, and stores the text in
`WhereClause`. -/
theorem equality_conjunction_scenario (fmt : GoFmt) (adv : Bool) :
    ∃ sb text, CreateWhere fmt (fresh adv) equalityConjunction = some (sb, text) ∧
      text = "(((((documents.publisher)=($1)))AND(((documents.tracking_id)=($2)))))" ∧
      stripSpaceParen text =
        stripSpaceParen "((documents.publisher = $1) AND (documents.tracking_id = $2))" ∧
      Balanced text.data ∧
      sb.Replacements = ["BSI-2024-001", "CSAF-X"] ∧
      sb.WhereClause = text :=
  ⟨{ WhereClause := "(((((documents.publisher)=($1)))AND(((documents.tracking_id)=($2)))))"
     Replacements := ["BSI-2024-001", "CSAF-X"]
     replToIdx := [("BSI-2024-001", 0), ("CSAF-X", 1)]
     Advisory := adv },
    "(((((documents.publisher)=($1)))AND(((documents.tracking_id)=($2)))))",
    by cases adv <;> rfl, rfl, by decide, balanced_of_depth _ (by decide), rfl, rfl⟩

/-- C7. The search node with language `english`, text `heap overflow` and alias
`snippet`, compiled on a fresh builder in advisory mode, sets `TextTables`,
leaves `Replacements = ["heap overflow"]`, returns
`(ts @@ websearch_to_tsquery('english',$1))` and registers the alias as
`ts_headline('english',txt,websearch_to_tsquery('english', $1))`. In general a
search node with a non-empty alias, compiled on any builder, registers under
its alias the fragment with the placeholder number `k` of its WHERE text. -/
theorem search_alias_scenario :
    (∀ fmt : GoFmt,
      CreateWhere fmt (fresh true) searchWithAlias =
        some ({ WhereClause := "(ts @@ websearch_to_tsquery('english',$1))"
                Replacements := ["heap overflow"]
                replToIdx := [("heap overflow", 0)]
                Aliases := [("snippet",
                  "ts_headline('english',txt,websearch_to_tsquery('english', $1))")]
                Advisory := true
                TextTables := true },
              "(ts @@ websearch_to_tsquery('english',$1))")) ∧
    (∀ (fmt : GoFmt) (sb : SQLBuilder) (e : Expr) (b : String),
      e.exprType = .search → e.alias_ ≠ "" →
      ∃ sb' k, whereRecurse fmt sb e b =
          some (sb', b ++ ("(ts @@ websearch_to_tsquery('" ++ e.langValue ++ "',$" ++
            Itoa k ++ "))")) ∧
        mapGet sb'.Aliases e.alias_ =
          some ("ts_headline('" ++ e.langValue ++ "',txt,websearch_to_tsquery('" ++
            e.langValue ++ "', $" ++ Itoa k ++ "))") ∧
        sb'.TextTables = true) := by
  refine ⟨fun fmt => rfl, ?_⟩
  intro fmt sb e b ht ha
  obtain ⟨t, vt, s, i, f, tm, bv, d, lang, al, ch⟩ := e
  simp only [Expr.exprType] at ht
  subst ht
  simp only [Expr.alias_] at ha
  refine ⟨leafState sb (Expr.mk .search vt s i f tm bv d lang al ch),
    (replacementIndex sb s).2 + 1, ?_, ?_, ?_⟩
  · rw [whereRecurse_leaf fmt sb b .search vt s i f tm bv d lang al ch rfl]
    simp only [leafText, Expr.exprType, Expr.stringValue, Expr.langValue, Expr.alias_,
      leafState, if_neg ha, placeholderOf, replacementIndex_get, Option.getD_some]
    simp [String.ext_iff]
  · simp [leafState, Expr.exprType, Expr.stringValue, Expr.langValue, Expr.alias_, ha,
      mapGet_mapSet_self, headline]
  · simp [leafState, Expr.exprType, Expr.alias_, ha]

/-- The general part of the search scenario on the scenario's own node. -/
theorem search_alias_scenario_witness :
    ∃ sb' k, whereRecurse zeroFmt (fresh true) searchWithAlias "" =
        some (sb', "" ++ ("(ts @@ websearch_to_tsquery('" ++ searchWithAlias.langValue ++
          "',$" ++ Itoa k ++ "))")) ∧
      mapGet sb'.Aliases searchWithAlias.alias_ =
        some ("ts_headline('" ++ searchWithAlias.langValue ++
          "',txt,websearch_to_tsquery('" ++ searchWithAlias.langValue ++ "', $" ++
          Itoa k ++ "))") ∧
      sb'.TextTables = true :=
  search_alias_scenario.2 zeroFmt (fresh true) searchWithAlias "" (by decide) (by decide)

theorem renderWith_parens (fmt : GoFmt) (k : String → Nat) (adv : Bool) (e : Expr) :
    ∃ m : String, renderWith fmt k adv e = "(" ++ m ++ ")" := by
  obtain ⟨t, vt, s, i, f, tm, bv, d, lang, al, ch⟩ := e
  cases hs : shape t vt with
  | leaf =>
    exact ⟨leafText fmt k adv (Expr.mk t vt s i f tm bv d lang al ch), by
      simp only [renderWith, hs]⟩
  | unary pre post =>
    exact ⟨pre ++ renderFirst fmt k adv ch ++ post, by
      simp only [renderWith, hs]; simp [String.ext_iff]⟩
  | binary op =>
    exact ⟨"(" ++ renderPair fmt k adv ch op ++ ")", by
      simp only [renderWith, hs]; simp [String.ext_iff]⟩

/-- A text that stays in place when two copies of a character are put before
it consists of that character only. -/
theorem all_eq_of_shift (c : Char) (r1 r2 : List Char) :
    ∀ (n : Nat) (a : List Char), a.length = n → a ++ r1 = c :: c :: (a ++ r2) →
      ∀ x ∈ a, x = c := by
  intro n
  induction n using Nat.strong_induction_on with
  | _ n ih =>
    intro a hn h x hx
    match a, hn, h, hx with
    | [], _, _, hx => cases hx
    | [y], _, h, hx =>
      simp only [List.cons_append, List.nil_append, List.cons.injEq] at h
      rw [List.mem_singleton] at hx
      rw [hx]; exact h.1
    | y :: z :: a', hn, h, hx =>
      simp only [List.cons_append, List.cons.injEq] at h
      obtain ⟨hy, hz, hrest⟩ := h
      rcases List.mem_cons.1 hx with rfl | hx
      · exact hy
      · rcases List.mem_cons.1 hx with rfl | hx
        · exact hz
        · have hlen : a'.length < n := by
            simp only [List.length_cons] at hn; omega
          refine ih a'.length hlen a' rfl ?_ x hx
          rw [hrest, hy, hz]

theorem nesting_texts_ne (a b c : String) (m : String) (ha : a = "(" ++ m ++ ")") :
    "((" ++ (a ++ "OR" ++ ("((" ++ (b ++ "AND" ++ c) ++ "))")) ++ "))" ≠
      "((" ++ (("((" ++ (a ++ "OR" ++ b) ++ "))") ++ "AND" ++ c) ++ "))" := by
  intro h
  have h' := congrArg String.data h
  simp only [String.data_append] at h'
  simp only [List.cons_append, List.nil_append, List.append_assoc, List.cons.injEq,
    true_and] at h'
  have hall := all_eq_of_shift '(' _ _ a.data.length a.data rfl h'
  have hmem : ')' ∈ a.data := by
    rw [ha]; simp [String.data_append]
  have := hall _ hmem
  exact absurd this (by decide)

/-- What `CreateWhere` returns on a well-formed tree. -/
theorem CreateWhere_eq (fmt : GoFmt) (sb : SQLBuilder) (e : Expr)
    (h : wellFormed e = true) :
    CreateWhere fmt sb e =
      some ({ stateAfter sb e with
                WhereClause :=
                  renderWith fmt (placeholderOf (stateAfter sb e)) sb.Advisory e },
            renderWith fmt (placeholderOf (stateAfter sb e)) sb.Advisory e) := by
  simp only [CreateWhere, whereRecurse_eq fmt e sb "" h, String.empty_append]

/-- C8. For well-formed `A`, `B`, `C` and every builder, the text of
`or(A, and(B, C))` differs from the text of `and(or(A, B), C)`; both
compilations return. -/
theorem nestings_distinguishable (fmt : GoFmt) (sb : SQLBuilder) (A B C : Expr)
    (o1 a1 a2 o2 : Expr)
    (hA : wellFormed A = true) (hB : wellFormed B = true) (hC : wellFormed C = true)
    (ho1 : o1.exprType = .or ∧ o1.children = [A, a1])
    (ha1 : a1.exprType = .and ∧ a1.children = [B, C])
    (ha2 : a2.exprType = .and ∧ a2.children = [o2, C])
    (ho2 : o2.exprType = .or ∧ o2.children = [A, B]) :
    ∃ s1 s2 t1 t2, CreateWhere fmt sb o1 = some (s1, t1) ∧
      CreateWhere fmt sb a2 = some (s2, t2) ∧ t1 ≠ t2 := by
  obtain ⟨t1, vt1, x1, i1, f1, tm1, bv1, d1, lang1, al1, ch1⟩ := o1
  obtain ⟨t2, vt2, x2, i2, f2, tm2, bv2, d2, lang2, al2, ch2⟩ := a1
  obtain ⟨t3, vt3, x3, i3, f3, tm3, bv3, d3, lang3, al3, ch3⟩ := a2
  obtain ⟨t4, vt4, x4, i4, f4, tm4, bv4, d4, lang4, al4, ch4⟩ := o2
  simp only [Expr.exprType, Expr.children] at ho1 ha1 ha2 ho2
  obtain ⟨rfl, rfl⟩ := ho1
  obtain ⟨rfl, rfl⟩ := ha1
  obtain ⟨rfl, rfl⟩ := ha2
  obtain ⟨rfl, rfl⟩ := ho2
  have hw1 : wellFormed (Expr.mk .or vt1 x1 i1 f1 tm1 bv1 d1 lang1 al1
      [A, Expr.mk .and vt2 x2 i2 f2 tm2 bv2 d2 lang2 al2 [B, C]]) = true := by
    simp [wellFormed, wellFormedPair, shape, hA, hB, hC]
  have hw2 : wellFormed (Expr.mk .and vt3 x3 i3 f3 tm3 bv3 d3 lang3 al3
      [Expr.mk .or vt4 x4 i4 f4 tm4 bv4 d4 lang4 al4 [A, B], C]) = true := by
    simp [wellFormed, wellFormedPair, shape, hA, hB, hC]
  have hst : stateAfter sb (Expr.mk .and vt3 x3 i3 f3 tm3 bv3 d3 lang3 al3
      [Expr.mk .or vt4 x4 i4 f4 tm4 bv4 d4 lang4 al4 [A, B], C]) =
      stateAfter sb (Expr.mk .or vt1 x1 i1 f1 tm1 bv1 d1 lang1 al1
      [A, Expr.mk .and vt2 x2 i2 f2 tm2 bv2 d2 lang2 al2 [B, C]]) := by
    simp [stateAfter, leaves, leavesPair, shape]
  refine ⟨_, _, _, _, CreateWhere_eq fmt sb _ hw1, CreateWhere_eq fmt sb _ hw2, ?_⟩
  · simp only [hst, renderWith, renderPair, shape]
    obtain ⟨m, hm⟩ := renderWith_parens fmt
      (placeholderOf (stateAfter sb (Expr.mk .or vt1 x1 i1 f1 tm1 bv1 d1 lang1 al1
      [A, Expr.mk .and vt2 x2 i2 f2 tm2 bv2 d2 lang2 al2 [B, C]]))) sb.Advisory A
    exact nesting_texts_ne _ _ _ m hm

/-- The two nestings of three column references. -/
theorem nestings_distinguishable_witness :
    ∃ s1 s2 t1 t2,
      CreateWhere zeroFmt (fresh false)
          (mkNode .or [mkLeaf .access .stringType "a" "" "",
            mkNode .and [mkLeaf .access .stringType "b" "" "",
              mkLeaf .access .stringType "c" "" ""]]) = some (s1, t1) ∧
      CreateWhere zeroFmt (fresh false)
          (mkNode .and [mkNode .or [mkLeaf .access .stringType "a" "" "",
              mkLeaf .access .stringType "b" "" ""],
            mkLeaf .access .stringType "c" "" ""]) = some (s2, t2) ∧
      t1 ≠ t2 :=
  nestings_distinguishable zeroFmt (fresh false)
    (mkLeaf .access .stringType "a" "" "") (mkLeaf .access .stringType "b" "" "")
    (mkLeaf .access .stringType "c" "" "") _ _ _ _
    (by decide) (by decide) (by decide) ⟨rfl, rfl⟩ ⟨rfl, rfl⟩ ⟨rfl, rfl⟩ ⟨rfl, rfl⟩

theorem depth_append (a b : List Char) : ∀ d, depth d (a ++ b) = (depth d a).bind (fun d' => depth d' b) := by
  induction a with
  | nil => intro d; simp [depth]
  | cons c a ih =>
    intro d
    by_cases h1 : c = '('
    · simp [depth, h1, ih]
    · by_cases h2 : c = ')'
      · cases d with
        | zero => simp [depth, h2]
        | succ d0 => simp [depth, h2, ih]
      · simp [depth, h1, h2, ih]

theorem depth_add (l : List Char) : ∀ d d' n, depth d l = some d' →
    depth (d + n) l = some (d' + n) := by
  induction l with
  | nil => intro d d' n h; simp [depth] at h ⊢; omega
  | cons c l ih =>
    intro d d' n h
    by_cases h1 : c = '('
    · simp only [depth, h1, if_true] at h ⊢
      have := ih _ _ n h
      rw [show d + n + 1 = d + 1 + n by omega]; exact this
    · by_cases h2 : c = ')'
      · cases d with
        | zero => simp [depth, h2] at h
        | succ d0 =>
          simp only [depth, h1, h2, if_false, if_true] at h
          have := ih _ _ n h
          rw [show d0 + 1 + n = (d0 + n) + 1 by omega]
          simp only [depth, h1, h2, if_false, if_true]
          exact this
      · simp only [depth, h1, h2, if_false] at h ⊢
        exact ih _ _ n h

theorem depth_noParen (l : List Char) (h : ∀ c ∈ l, c ≠ '(' ∧ c ≠ ')') :
    ∀ d, depth d l = some d := by
  induction l with
  | nil => intro d; rfl
  | cons c l ih =>
    intro d
    have hc := h c (List.mem_cons_self _ _)
    simp only [depth, hc.1, hc.2, if_false]
    exact ih (fun x hx => h x (List.mem_cons_of_mem _ hx)) d

/-- A balanced text between texts: the depth is unchanged. -/
theorem depth_balanced (l : List Char) (h : depth 0 l = some 0) (d : Nat) :
    depth d l = some d := by
  have := depth_add l 0 0 d h
  simpa using this

theorem digitChar_isDigit (m : Nat) (h : m < 10) : (Nat.digitChar m).isDigit = true := by
  interval_cases m <;> rfl

theorem toDigitsCore_isDigit : ∀ (fuel n : Nat) (ds : List Char),
    (∀ c ∈ ds, c.isDigit = true) → ∀ c ∈ Nat.toDigitsCore 10 fuel n ds, c.isDigit = true := by
  intro fuel
  induction fuel with
  | zero => intro n ds h c hc; simpa [Nat.toDigitsCore] using h c (by simpa [Nat.toDigitsCore] using hc)
  | succ fuel ih =>
    intro n ds h c hc
    have hd : ∀ x ∈ Nat.digitChar (n % 10) :: ds, x.isDigit = true := by
      intro x hx
      rcases List.mem_cons.1 hx with rfl | hx
      · exact digitChar_isDigit _ (Nat.mod_lt _ (by decide))
      · exact h x hx
    simp only [Nat.toDigitsCore] at hc
    split_ifs at hc
    · exact hd c hc
    · exact ih _ _ hd c hc

theorem Itoa_isDigit (n : Nat) : ∀ c ∈ (Itoa n).data, c.isDigit = true := by
  intro c hc
  simp only [Itoa, Nat.repr, List.asString] at hc
  exact toDigitsCore_isDigit _ _ [] (fun _ h => by cases h) c hc

theorem not_paren_of_isDigit (c : Char) (h : c.isDigit = true) : c ≠ '(' ∧ c ≠ ')' := by
  constructor <;> (intro hc; subst hc; revert h; decide)

theorem not_paren_of_numericChar (c : Char) (h : numericChar c = true) :
    c ≠ '(' ∧ c ≠ ')' := by
  constructor <;> (intro hc; subst hc; revert h; decide)

theorem Itoa_noParen (n : Nat) : ∀ c ∈ (Itoa n).data, c ≠ '(' ∧ c ≠ ')' :=
  fun c hc => not_paren_of_isDigit c (Itoa_isDigit n c hc)

theorem FormatInt_noParen (i : Int) : ∀ c ∈ (FormatInt i).data, c ≠ '(' ∧ c ≠ ')' := by
  intro c hc
  cases i with
  | ofNat n => exact Itoa_noParen n c hc
  | negSucc n =>
    simp only [FormatInt, String.data_append, List.mem_append] at hc
    rcases hc with hc | hc
    · have : c = '-' := by simpa using hc
      subst this; decide
    · exact Itoa_noParen (n + 1) c hc

theorem depth_parens (l : List Char) : ∀ d, depth d l = depth d (parens l) := by
  induction l with
  | nil => intro d; rfl
  | cons c l ih =>
    intro d
    by_cases h1 : c = '('
    · subst h1
      simp only [parens, List.filter_cons, depth] at ih ⊢
      simpa using ih (d + 1)
    · by_cases h2 : c = ')'
      · subst h2
        cases d with
        | zero => simp [parens, List.filter_cons, depth]
        | succ d0 =>
          simp only [parens, List.filter_cons, depth] at ih ⊢
          simpa using ih d0
      · simp only [parens, List.filter_cons, depth, h1, h2, if_false] at ih ⊢
        simpa [h1, h2] using ih d

theorem parens_append (a b : List Char) : parens (a ++ b) = parens a ++ parens b := by
  simp [parens]

theorem parens_noParen (l : List Char) (h : ∀ c ∈ l, c ≠ '(' ∧ c ≠ ')') : parens l = [] := by
  simp only [parens, List.filter_eq_nil_iff]
  intro c hc
  have := h c hc
  simp [this.1, this.2]

theorem parens_of_noParen (s : String) (h : noParen s = true) : parens s.data = [] := by
  apply parens_noParen
  intro c hc
  simp only [noParen, List.all_eq_true] at h
  simpa using h c hc

theorem parens_Itoa (n : Nat) : parens (Itoa n).data = [] :=
  parens_noParen _ (Itoa_noParen n)

theorem parens_FormatInt (i : Int) : parens (FormatInt i).data = [] :=
  parens_noParen _ (FormatInt_noParen i)

theorem parens_FormatFloat (fmt : GoFmt) (x : Float) : parens (fmt.FormatFloat x).data = [] :=
  parens_noParen _ (fun c hc => not_paren_of_numericChar c (fmt.FormatFloat_chars x c hc))

theorem parens_FormatTime (fmt : GoFmt) (x : Time) : parens (fmt.FormatTime x).data = [] :=
  parens_noParen _ (fun c hc => not_paren_of_numericChar c (fmt.FormatTime_chars x c hc))

theorem parens_Sprintf2f (x : F64) : parens (Sprintf2f x).data = [] := by
  have hs : parens (if x.neg = true then "-" else "").data = [] := by
    cases x.neg <;> decide
  have hr : ∀ n : Nat, parens (Nat.repr n).data = [] := parens_Itoa
  have hp : parens ".".data = [] := by decide
  simp only [Sprintf2f, String.data_append, parens_append, hs, hr, hp, List.append_nil]

set_option maxRecDepth 8000 in
theorem leafText_depth (fmt : GoFmt) (k : String → Nat) (adv : Bool) (e : Expr)
    (h : leafNoParen e = true) : depth 0 (leafText fmt k adv e).data = some 0 := by
  obtain ⟨t, vt, s, i, f, tm, bv, d, lang, al, ch⟩ := e
  unfold leafNoParen at h
  unfold leafText
  simp only [Expr.exprType, Expr.valueType, Expr.stringValue, Expr.langValue] at h ⊢
  have key : ∀ l l' : List Char, parens l = parens l' → depth 0 l' = some 0 →
      depth 0 l = some 0 := by
    intro l l' h1 h2
    rw [depth_parens, h1, ← depth_parens]; exact h2
  cases t <;> simp only [] at h ⊢
  case access =>
    have hs := parens_of_noParen _ h
    unfold accessWhere
    simp only [WriteString_eq, String.empty_append, Expr.stringValue]
    split_ifs
    · exact key _ "documents.".data
        (by simp only [String.data_append, parens_append, hs, List.append_nil, List.nil_append]) (by decide)
    · unfold versionsCount; decide
    · exact key _ [] (by simp only [hs]; rfl) (by decide)
    · unfold commentsCount; decide
    · exact key _ [] (by simp only [hs]; rfl) (by decide)
  case cnst =>
    by_cases hv : vt = .stringType
    · simp only [hv, if_true]
      exact key _ "$".data
        (by simp only [String.data_append, parens_append, parens_Itoa, List.append_nil, List.nil_append])
        (by decide)
    · simp only [hv, if_false]
      unfold cnstWhere
      simp only [Expr.valueType, Expr.stringValue, Expr.intValue, Expr.floatValue,
        Expr.timeValue, Expr.boolValue, Expr.durationValue, WriteString_eq,
        String.empty_append]
      cases vt <;> simp only [] at hv h ⊢
      · exact absurd trivial hv
      · exact key _ [] (by simp only [parens_FormatInt]; rfl) (by decide)
      · exact key _ [] (by simp only [parens_FormatFloat]; rfl) (by decide)
      · exact key _ ("'".data ++ "'::timestamptz".data)
          (by simp only [String.data_append, parens_append, parens_FormatTime,
            List.append_nil, List.nil_append]) (by decide)
      · split_ifs <;> decide
      · have hs := parens_of_noParen s (by simpa using h)
        exact key _ ("'".data ++ "'::workflow".data)
          (by simp only [String.data_append, parens_append, hs, List.append_nil, List.nil_append])
          (by decide)
      · exact key _ ("'".data ++ " seconds'::interval".data)
          (by simp only [String.data_append, parens_append, parens_Sprintf2f,
            List.append_nil, List.nil_append]) (by decide)
  case search =>
    have hs := parens_of_noParen _ h
    exact key _ ("ts @@ websearch_to_tsquery('".data ++ "',$".data ++ ")".data)
      (by simp only [String.data_append, parens_append, hs, parens_Itoa, List.nil_append,
        List.append_nil, List.nil_append]) (by decide)
  case csearch =>
    have hs := parens_of_noParen _ h
    split_ifs
    · exact key _ (("EXISTS(SELECT 1 FROM comments JOIN documents docs ".data ++
        "ON comments.documents_id = docs.id ".data ++
        "WHERE ts @@ websearch_to_tsquery('".data) ++ "', $".data ++ ") ".data ++
        "AND docs.publisher = documents.publisher AND docs.tracking_id = documents.tracking_id)".data)
        (by simp only [String.data_append, parens_append, hs, parens_Itoa, List.nil_append,
          List.append_nil, List.nil_append, List.append_assoc]) (by decide)
    · exact key _ ("EXISTS(SELECT 1 FROM comments WHERE ts @@ websearch_to_tsquery('".data ++
        "', $".data ++ ") ".data ++ "AND comments.documents_id = documents.id)".data)
        (by simp only [String.data_append, parens_append, hs, parens_Itoa, List.nil_append,
          List.append_nil, List.nil_append, List.append_assoc]) (by decide)
  case mentioned =>
    split_ifs
    · exact key _ ("EXISTS(SELECT 1 FROM comments JOIN documents docs ".data ++
        "ON comments.documents_id = docs.id ".data ++
        "WHERE ts @@ phraseto_tsquery($".data ++ ") ".data ++
        "AND docs.publisher = documents.publisher AND docs.tracking_id = documents.tracking_id)".data)
        (by simp only [String.data_append, parens_append, parens_Itoa, List.nil_append,
          List.append_nil, List.nil_append, List.append_assoc]) (by decide)
    · exact key _ ("EXISTS(SELECT 1 FROM comments WHERE ts @@ phraseto_tsquery($".data ++
        ") ".data ++ "AND comments.documents_id = documents.id)".data)
        (by simp only [String.data_append, parens_append, parens_Itoa, List.nil_append,
          List.append_nil, List.nil_append, List.append_assoc]) (by decide)
  case involved =>
    split_ifs
    · exact key _ ("EXISTS(SELECT 1 FROM events_log JOIN documents docs ".data ++
        "ON events_log.documents_id = docs.id ".data ++
        "WHERE actor = $".data ++ " ".data ++
        "AND docs.publisher = documents.publisher AND docs.tracking_id = documents.tracking_id)".data)
        (by simp only [String.data_append, parens_append, parens_Itoa, List.nil_append,
          List.append_nil, List.nil_append, List.append_assoc]) (by decide)
    · exact key _ ("EXISTS(SELECT 1 FROM events_log WHERE actor = $".data ++
        " ".data ++ "AND comments.documents_id = documents.id)".data)
        (by simp only [String.data_append, parens_append, parens_Itoa, List.nil_append,
          List.append_nil, List.nil_append, List.append_assoc]) (by decide)
  all_goals decide

theorem depth_chain {a b c : Nat} {l1 l2 : List Char} (h1 : depth a l1 = some b)
    (h2 : depth b l2 = some c) : depth a (l1 ++ l2) = some c := by
  rw [depth_append, h1]; exact h2

set_option maxRecDepth 8000 in
theorem shape_unary_depth (t : ExprType) (vt : ValueType) (pre post : String)
    (h : shape t vt = .unary pre post) :
    depth 1 pre.data = some 2 ∧ depth 2 post.data = some 1 := by
  cases t <;> simp [shape] at h <;> obtain ⟨rfl, rfl⟩ := h
  · cases vt <;> decide
  · decide
  · decide

theorem shape_binary_depth (t : ExprType) (vt : ValueType) (op : String)
    (h : shape t vt = .binary op) (d : Nat) : depth d op.data = some d := by
  apply depth_balanced
  cases t <;> simp [shape] at h <;> subst h <;> decide

theorem renderWith_depth (fmt : GoFmt) (k : String → Nat) (adv : Bool) :
    ∀ e : Expr, wellFormed e = true → noParenNames e = true →
      depth 0 (renderWith fmt k adv e).data = some 0 := by
  refine Expr.induct ?_
  intro t vt s i f tm bv d lang al ch ih hwf hnp
  have h01 : depth 0 "(".data = some 1 := by decide
  have h10 : depth 1 ")".data = some 0 := by decide
  cases hs : shape t vt with
  | leaf =>
    simp only [noParenNames, leaves, hs, List.all_cons, List.all_nil, Bool.and_true] at hnp
    simp only [renderWith, hs, String.data_append]
    have h1 := depth_balanced _ (leafText_depth fmt k adv _ hnp) 1
    exact depth_chain (depth_chain h01 h1) h10
  | unary pre post =>
    cases ch with
    | nil => simp [wellFormed, wellFormedFirst, hs] at hwf
    | cons c rest =>
      simp only [wellFormed, wellFormedFirst, hs] at hwf
      simp only [noParenNames, leaves, leavesFirst, hs] at hnp
      simp only [renderWith, renderFirst, hs, String.data_append]
      obtain ⟨hpre, hpost⟩ := shape_unary_depth t vt pre post hs
      have hc := depth_balanced _ (ih c (List.mem_cons_self _ _) hwf hnp) 2
      exact depth_chain (depth_chain (depth_chain (depth_chain h01 hpre) hc) hpost) h10
  | binary op =>
    match ch, hwf, hnp, ih with
    | [], hwf, _, _ => simp [wellFormed, wellFormedPair, hs] at hwf
    | [_], hwf, _, _ => simp [wellFormed, wellFormedPair, hs] at hwf
    | l :: r :: rest, hwf, hnp, ih =>
      simp only [wellFormed, wellFormedPair, hs, Bool.and_eq_true] at hwf
      simp only [noParenNames, leaves, leavesPair, hs, List.all_append,
        Bool.and_eq_true] at hnp
      simp only [renderWith, renderPair, hs, String.data_append]
      have h02 : depth 0 "((".data = some 2 := by decide
      have h20 : depth 2 "))".data = some 0 := by decide
      have hl := depth_balanced _ (ih l (List.mem_cons_self _ _) hwf.1 hnp.1) 2
      have hr := depth_balanced _
        (ih r (List.mem_cons_of_mem _ (List.mem_cons_self _ _)) hwf.2 hnp.2) 2
      have hop := shape_binary_depth t vt op hs 2
      exact depth_chain (depth_chain h02 (depth_chain (depth_chain hl hop) hr)) h20

theorem nodes_sub : ∀ e : Expr, wellFormed e = true →
    ∀ c ∈ nodes e, wellFormed c = true ∧ (noParenNames e = true → noParenNames c = true) := by
  refine Expr.induct ?_
  intro t vt s i f tm bv d lang al ch ih hwf c hc
  simp only [nodes, List.mem_cons] at hc
  rcases hc with rfl | hc
  · exact ⟨hwf, id⟩
  · cases hs : shape t vt with
    | leaf => simp [hs] at hc
    | unary pre post =>
      cases ch with
      | nil => simp [wellFormed, wellFormedFirst, hs] at hwf
      | cons c0 rest =>
        simp only [wellFormed, wellFormedFirst, hs] at hwf
        simp only [hs, nodesFirst] at hc
        have := ih c0 (List.mem_cons_self _ _) hwf c hc
        refine ⟨this.1, fun hnp => this.2 ?_⟩
        simpa only [noParenNames, leaves, leavesFirst, hs] using hnp
    | binary op =>
      match ch, hwf, hc, ih with
      | [], hwf, _, _ => simp [wellFormed, wellFormedPair, hs] at hwf
      | [_], hwf, _, _ => simp [wellFormed, wellFormedPair, hs] at hwf
      | l :: r :: rest, hwf, hc, ih =>
        simp only [wellFormed, wellFormedPair, hs, Bool.and_eq_true] at hwf
        simp only [hs, nodesPair, List.mem_append] at hc
        have hsplit : noParenNames (Expr.mk t vt s i f tm bv d lang al (l :: r :: rest)) = true →
            noParenNames l = true ∧ noParenNames r = true := by
          intro hnp
          simpa only [noParenNames, leaves, leavesPair, hs, List.all_append,
            Bool.and_eq_true] using hnp
        rcases hc with hc | hc
        · have := ih l (List.mem_cons_self _ _) hwf.1 c hc
          exact ⟨this.1, fun hnp => this.2 (hsplit hnp).1⟩
        · have := ih r (List.mem_cons_of_mem _ (List.mem_cons_self _ _)) hwf.2 c hc
          exact ⟨this.1, fun hnp => this.2 (hsplit hnp).2⟩

/-- C9. For a well-formed tree and each node `c` the compiler visits in it,
on every builder the text written for `c` begins with `(` and ends with `)`;
and when the column names, language names and workflow literals of the tree
have no parenthesis characters, its parentheses are balanced. -/
theorem every_node_parenthesized (fmt : GoFmt) (e : Expr) (h : wellFormed e = true) :
    ∀ c ∈ nodes e, ∀ (sb : SQLBuilder) (b : String),
      ∃ sb' t, whereRecurse fmt sb c b = some (sb', b ++ t) ∧
        t.data.head? = some '(' ∧ t.data.getLast? = some ')' ∧
        (noParenNames e = true → Balanced t.data) := by
  intro c hc sb b
  obtain ⟨hwc, hnc⟩ := nodes_sub e h c hc
  refine ⟨_, _, whereRecurse_eq fmt c sb b hwc, ?_, ?_, ?_⟩
  · obtain ⟨m, hm⟩ := renderWith_parens fmt (placeholderOf (stateAfter sb c)) sb.Advisory c
    rw [hm]; simp [String.data_append]
  · obtain ⟨m, hm⟩ := renderWith_parens fmt (placeholderOf (stateAfter sb c)) sb.Advisory c
    rw [hm]
    simp only [String.data_append]
    exact List.getLast?_concat ("(".data ++ m.data)
  · intro hnp
    exact balanced_of_depth _ (renderWith_depth fmt _ _ c hwc (hnc hnp))

/-- The parenthesization theorem on the equality conjunction. -/
theorem every_node_parenthesized_witness :
    ∃ sb' t, whereRecurse zeroFmt (fresh false) equalityConjunction "" = some (sb', "" ++ t) ∧
      t.data.head? = some '(' ∧ t.data.getLast? = some ')' ∧ Balanced t.data := by
  obtain ⟨sb', t, h1, h2, h3, h4⟩ :=
    every_node_parenthesized zeroFmt equalityConjunction (by decide) equalityConjunction
      (by simp [nodes, equalityConjunction, mkNode]) (fresh false) ""
  exact ⟨sb', t, h1, h2, h3, h4 (by decide)⟩

theorem mem_firstOccurrences (l : List String) : ∀ v, v ∈ firstOccurrences l ↔ v ∈ l := by
  induction l with
  | nil => intro v; simp [firstOccurrences]
  | cons a l ih =>
    intro v
    simp only [firstOccurrences, List.mem_cons, List.mem_filter, ih, decide_eq_true_eq]
    by_cases h : v = a
    · simp [h]
    · simp [h]

theorem nodup_firstOccurrences (l : List String) : (firstOccurrences l).Nodup := by
  induction l with
  | nil => simp [firstOccurrences]
  | cons a l ih =>
    simp only [firstOccurrences, List.nodup_cons, List.mem_filter, decide_eq_true_eq]
    exact ⟨fun h => h.2 rfl, ih.filter _⟩

theorem length_mapSet_of_none {β : Type} (m : List (String × β)) (k : String) (v : β)
    (h : mapGet m k = none) : (mapSet m k v).length = m.length + 1 := by
  induction m with
  | nil => simp [mapSet]
  | cons p rest ih =>
    obtain ⟨k', v'⟩ := p
    by_cases hk : k' = k
    · simp [mapGet, hk] at h
    · simp only [mapGet, hk, if_false] at h
      simp [mapSet, hk, ih h]

theorem memoInv_nil : memoInv ([], []) := by
  refine ⟨List.nodup_nil, rfl, ?_⟩
  intro v; simp [mapGet]

theorem memoStep_fst (p : List String × List (String × Nat)) (h : memoInv p) (v : String) :
    (memoStep p v).1 = if v ∈ p.1 then p.1 else p.1 ++ [v] := by
  obtain ⟨_, _, hget⟩ := h
  unfold memoStep
  by_cases hv : v ∈ p.1
  · have := hget v
    simp only [hv, if_true] at this
    simp [this, hv]
  · have := hget v
    simp only [hv, if_false] at this
    simp [this, hv]

theorem memoInv_step (p : List String × List (String × Nat)) (h : memoInv p) (v : String) :
    memoInv (memoStep p v) := by
  obtain ⟨hnd, hlen, hget⟩ := h
  by_cases hv : v ∈ p.1
  · have hg := hget v
    simp only [hv, if_true] at hg
    have : memoStep p v = p := by simp [memoStep, hg]
    rw [this]; exact ⟨hnd, hlen, hget⟩
  · have hg := hget v
    simp only [hv, if_false] at hg
    have : memoStep p v = (p.1 ++ [v], mapSet p.2 v p.2.length) := by simp [memoStep, hg]
    rw [this]
    refine ⟨?_, ?_, ?_⟩
    · simp only
      rw [List.nodup_append]
      refine ⟨hnd, List.nodup_singleton v, ?_⟩
      intro a ha hb
      rw [List.mem_singleton] at hb
      subst hb; exact hv ha
    · simp [length_mapSet_of_none _ _ _ hg, hlen]
    · intro w
      simp only
      by_cases hw : w = v
      · subst hw
        rw [mapGet_mapSet_self]
        simp [List.indexOf_append_of_not_mem hv, hlen]
      · rw [mapGet_mapSet_ne _ _ _ _ (Ne.symm hw), hget w]
        by_cases hw2 : w ∈ p.1
        · simp [hw2, List.indexOf_append_of_mem hw2]
        · simp [hw2, hw]

theorem foldl_memoStep_inv (l : List String) :
    ∀ p : List String × List (String × Nat), memoInv p →
      memoInv (l.foldl memoStep p) ∧
        (l.foldl memoStep p).1 = p.1 ++ (firstOccurrences l).filter (fun w => w ∉ p.1) := by
  induction l with
  | nil => intro p hp; exact ⟨hp, by simp [firstOccurrences]⟩
  | cons a l ih =>
    intro p hp
    simp only [List.foldl_cons]
    obtain ⟨h1, h2⟩ := ih _ (memoInv_step p hp a)
    refine ⟨h1, ?_⟩
    rw [h2, memoStep_fst p hp a]
    by_cases ha : a ∈ p.1
    · simp only [ha, if_true, firstOccurrences, List.filter_cons, not_true_eq_false,
        decide_False, List.filter_filter]
      congr 1
      apply List.filter_congr
      intro x _
      by_cases hx : x ∈ p.1
      · simp [hx]
      · have : x ≠ a := fun h => hx (h ▸ ha)
        simp [hx, this]
    · simp only [ha, if_false, firstOccurrences, List.filter_cons, not_false_eq_true,
        decide_True, if_true, List.filter_filter, List.append_assoc, List.singleton_append]
      congr 2
      apply List.filter_congr
      intro x _
      by_cases hx : x ∈ p.1
      · simp [hx]
      · by_cases hxa : x = a
        · simp [hxa]
        · simp [hx, hxa]

/-- The value list and the placeholder numbers after a well-formed tree has been
compiled on a fresh builder. -/
theorem stateAfter_fresh (adv : Bool) (e : Expr) :
    (stateAfter (fresh adv) e).Replacements = firstOccurrences (lits e) ∧
      ∀ v ∈ lits e, placeholderOf (stateAfter (fresh adv) e) v =
        (firstOccurrences (lits e)).indexOf v + 1 := by
  have hm := stateAfter_memo (fresh adv) e
  have hfresh : memoOf (fresh adv) = ([], []) := rfl
  rw [hfresh] at hm
  obtain ⟨hinv, hfst⟩ := foldl_memoStep_inv (lits e) ([], []) memoInv_nil
  rw [← hm] at hinv hfst
  have hR : (stateAfter (fresh adv) e).Replacements = firstOccurrences (lits e) := by
    have : (memoOf (stateAfter (fresh adv) e)).1 = firstOccurrences (lits e) := by
      rw [hfst]; simp
    exact this
  refine ⟨hR, ?_⟩
  intro v hv
  have hmem : v ∈ (stateAfter (fresh adv) e).Replacements := by
    rw [hR]; exact (mem_firstOccurrences _ v).2 hv
  have := hinv.2.2 v
  simp only [memoOf] at this
  simp only [hmem, if_true] at this
  rw [placeholderOf, this, hR]
  rfl

theorem firstOccurrences_pairwise (l : List String) :
    (firstOccurrences l).Pairwise (fun a b => l.indexOf a < l.indexOf b) := by
  induction l with
  | nil => simp [firstOccurrences]
  | cons a l ih =>
    simp only [firstOccurrences, List.pairwise_cons, List.mem_filter, decide_eq_true_eq]
    refine ⟨?_, ?_⟩
    · intro b hb
      rw [List.indexOf_cons_self, List.indexOf_cons_ne _ (Ne.symm hb.2)]
      exact Nat.succ_pos _
    · refine (ih.filter _).imp_of_mem ?_
      intro x y hx hy hxy
      simp only [List.mem_filter, decide_eq_true_eq] at hx hy
      rw [List.indexOf_cons_ne _ (Ne.symm hx.2), List.indexOf_cons_ne _ (Ne.symm hy.2)]
      exact Nat.succ_lt_succ hxy

/-- The result of `CreateWhere` on a fresh builder: the text, the value list and
the placeholder numbers. -/
theorem CreateWhere_fresh (fmt : GoFmt) (adv : Bool) (e : Expr)
    (h : wellFormed e = true) :
    ∃ sb', CreateWhere fmt (fresh adv) e =
        some (sb', renderWith fmt (placeholderOf sb') adv e) ∧
      sb'.Replacements = firstOccurrences (lits e) ∧
      ∀ v ∈ lits e, placeholderOf sb' v = (firstOccurrences (lits e)).indexOf v + 1 := by
  obtain ⟨hR, hk⟩ := stateAfter_fresh adv e
  exact ⟨{ stateAfter (fresh adv) e with
      WhereClause :=
        renderWith fmt (placeholderOf (stateAfter (fresh adv) e)) (fresh adv).Advisory e },
    CreateWhere_eq fmt (fresh adv) e h, hR, hk⟩

/-- C1. On a fresh builder a well-formed tree compiles to the text in which
every literal value `v`, wherever it stands, is written as the one placeholder
`$(k v)`, `k v` being the memo index of `v` plus one; after the call
`Replacements` holds `v` exactly once, at index `k v - 1`. -/
theorem placeholder_dedup (fmt : GoFmt) (adv : Bool) (e : Expr)
    (h : wellFormed e = true) :
    ∃ sb', CreateWhere fmt (fresh adv) e =
        some (sb', renderWith fmt (placeholderOf sb') adv e) ∧
      ∀ v ∈ lits e, 1 ≤ placeholderOf sb' v ∧ sb'.Replacements.count v = 1 ∧
        sb'.Replacements[placeholderOf sb' v - 1]? = some v := by
  obtain ⟨sb', hC, hR, hk⟩ := CreateWhere_fresh fmt adv e h
  refine ⟨sb', hC, ?_⟩
  intro v hv
  have hmem : v ∈ firstOccurrences (lits e) := (mem_firstOccurrences _ v).2 hv
  refine ⟨by simp [placeholderOf], ?_, ?_⟩
  · rw [hR]
    exact List.count_eq_one_of_mem (nodup_firstOccurrences _) hmem
  · rw [hk v hv, hR, Nat.add_sub_cancel]
    exact List.getElem?_indexOf hmem

/-- The dedup theorem on the tree `repeatedLiteral`. -/
theorem placeholder_dedup_witness :
    ∃ sb', CreateWhere zeroFmt (fresh false) repeatedLiteral =
        some (sb', renderWith zeroFmt (placeholderOf sb') false repeatedLiteral) ∧
      ∀ v ∈ lits repeatedLiteral, 1 ≤ placeholderOf sb' v ∧
        sb'.Replacements.count v = 1 ∧
        sb'.Replacements[placeholderOf sb' v - 1]? = some v :=
  placeholder_dedup zeroFmt false repeatedLiteral (by decide)

/-- C2. On a fresh builder a well-formed tree leaves in `Replacements` the
distinct literal values of the tree in the order of their first occurrence in
the traversal, and the text writes each value `v` as `$(i + 1)` where `i` is the
index of `v` in `Replacements`; so the value at index `i` is the one written
as placeholder `i + 1`. -/
theorem first_occurrence_numbering (fmt : GoFmt) (adv : Bool) (e : Expr)
    (h : wellFormed e = true) :
    ∃ sb', CreateWhere fmt (fresh adv) e =
        some (sb', renderWith fmt (fun v => sb'.Replacements.indexOf v + 1) adv e) ∧
      sb'.Replacements = firstOccurrences (lits e) ∧
      (∀ v, v ∈ sb'.Replacements ↔ v ∈ lits e) ∧
      sb'.Replacements.Nodup ∧
      sb'.Replacements.Pairwise (fun a b => (lits e).indexOf a < (lits e).indexOf b) ∧
      ∀ (i : Nat) (hi : i < sb'.Replacements.length),
        sb'.Replacements.indexOf (sb'.Replacements.get ⟨i, hi⟩) + 1 = i + 1 := by
  obtain ⟨hR, hk⟩ := stateAfter_fresh adv e
  have hC := CreateWhere_eq fmt (fresh adv) e h
  have hren : renderWith fmt (placeholderOf (stateAfter (fresh adv) e)) (fresh adv).Advisory e =
      renderWith fmt (fun v => (stateAfter (fresh adv) e).Replacements.indexOf v + 1) adv e := by
    apply renderWith_congr
    intro v hv
    rw [hk v hv, hR]
  have key : ∀ R : List String, R = firstOccurrences (lits e) →
      ∀ (i : Nat) (hi : i < R.length), R.indexOf (R.get ⟨i, hi⟩) + 1 = i + 1 := by
    intro R hRe
    subst hRe
    intro i hi
    simp [List.indexOf_getElem (nodup_firstOccurrences _) i hi]
  refine ⟨{ stateAfter (fresh adv) e with
      WhereClause :=
        renderWith fmt (placeholderOf (stateAfter (fresh adv) e)) (fresh adv).Advisory e },
    ?_, hR, ?_, ?_, ?_, key _ hR⟩
  · rw [hC, hren]
  · intro v; simp only [hR]; exact mem_firstOccurrences _ v
  · simp only [hR]; exact nodup_firstOccurrences _
  · simp only [hR]; exact firstOccurrences_pairwise _

/-- The first-occurrence theorem on the tree `repeatedLiteral`. -/
theorem first_occurrence_numbering_witness :
    ∃ sb', CreateWhere zeroFmt (fresh false) repeatedLiteral =
        some (sb', renderWith zeroFmt (fun v => sb'.Replacements.indexOf v + 1) false
          repeatedLiteral) ∧
      sb'.Replacements = firstOccurrences (lits repeatedLiteral) ∧
      (∀ v, v ∈ sb'.Replacements ↔ v ∈ lits repeatedLiteral) ∧
      sb'.Replacements.Nodup ∧
      sb'.Replacements.Pairwise
        (fun a b => (lits repeatedLiteral).indexOf a < (lits repeatedLiteral).indexOf b) ∧
      ∀ (i : Nat) (hi : i < sb'.Replacements.length),
        sb'.Replacements.indexOf (sb'.Replacements.get ⟨i, hi⟩) + 1 = i + 1 :=
  first_occurrence_numbering zeroFmt false repeatedLiteral (by decide)

/-- C10. On a fresh builder a well-formed tree compiles to a text whose
placeholder numbers, one per literal position, are exactly the numbers from `1`
to the length of `Replacements`. -/
theorem placeholders_match_values (fmt : GoFmt) (adv : Bool) (e : Expr)
    (h : wellFormed e = true) :
    ∃ sb', CreateWhere fmt (fresh adv) e =
        some (sb', renderWith fmt (placeholderOf sb') adv e) ∧
      ∀ n, n ∈ (lits e).map (placeholderOf sb') ↔ 1 ≤ n ∧ n ≤ sb'.Replacements.length := by
  obtain ⟨sb', hC, hR, hk⟩ := CreateWhere_fresh fmt adv e h
  refine ⟨sb', hC, ?_⟩
  intro n
  rw [hR]
  simp only [List.mem_map]
  constructor
  · rintro ⟨v, hv, rfl⟩
    rw [hk v hv]
    have hmem : v ∈ firstOccurrences (lits e) := (mem_firstOccurrences _ v).2 hv
    have := List.indexOf_lt_length.2 hmem
    omega
  · rintro ⟨h1, h2⟩
    have hi : n - 1 < (firstOccurrences (lits e)).length := by omega
    refine ⟨(firstOccurrences (lits e))[n - 1], ?_, ?_⟩
    · exact (mem_firstOccurrences _ _).1 (List.getElem_mem _)
    · rw [hk _ ((mem_firstOccurrences _ _).1 (List.getElem_mem _)),
        List.indexOf_getElem (nodup_firstOccurrences _) _ hi]
      omega

/-- The numbering theorem on the tree `repeatedLiteral`. -/
theorem placeholders_match_values_witness :
    ∃ sb', CreateWhere zeroFmt (fresh false) repeatedLiteral =
        some (sb', renderWith zeroFmt (placeholderOf sb') false repeatedLiteral) ∧
      ∀ n, n ∈ (lits repeatedLiteral).map (placeholderOf sb') ↔
        1 ≤ n ∧ n ≤ sb'.Replacements.length :=
  placeholders_match_values zeroFmt false repeatedLiteral (by decide)

theorem leafState_keeps_placeholder (sb : SQLBuilder) (x : Expr) (v : String) (i : Nat)
    (h : mapGet sb.replToIdx v = some i) :
    mapGet (leafState sb x).replToIdx v = some i := by
  have hm := leafState_memo sb x
  have := foldl_memoStep_keeps (leafLits x) (memoOf sb) v i h
  rw [← hm] at this
  exact this

theorem leafState_alias_other (sb : SQLBuilder) (x : Expr) (a : String)
    (h : ¬ (x.exprType = .search ∧ x.alias_ = a)) :
    mapGet (leafState sb x).Aliases a = mapGet sb.Aliases a := by
  unfold leafState
  cases ht : x.exprType <;> simp only []
  case cnst => split_ifs <;> simp
  case search =>
    have hne : x.alias_ ≠ a := fun hx => h ⟨ht, hx⟩
    by_cases hx : x.alias_ = ""
    · simp [hx]
    · simp only [hx, if_false]
      rw [mapGet_mapSet_ne _ _ _ _ hne]
      simp
  all_goals simp

theorem leafState_alias_self (sb : SQLBuilder) (x : Expr) (a : String)
    (h : x.exprType = .search ∧ x.alias_ = a) (ha : a ≠ "") :
    mapGet (leafState sb x).Aliases a =
      some (headline x.langValue (placeholderOf (leafState sb x) x.stringValue)) := by
  obtain ⟨ht, hx⟩ := h
  have hx' : x.alias_ ≠ "" := by rw [hx]; exact ha
  unfold leafState placeholderOf
  simp only [ht, hx', if_false]
  rw [← hx, mapGet_mapSet_self, replacementIndex_get]
  rfl

theorem foldl_leafState_alias (a : String) (ha : a ≠ "") (l : List Expr) :
    ∀ (sb : SQLBuilder) (n : Expr),
      (l.filter (fun x => x.exprType = .search ∧ x.alias_ = a)).getLast? = some n →
      mapGet (l.foldl leafState sb).Aliases a =
        some (headline n.langValue (placeholderOf (l.foldl leafState sb) n.stringValue)) := by
  induction l using List.reverseRecOn with
  | nil => intro sb n h; simp at h
  | append_singleton init x ih =>
    intro sb n h
    simp only [List.foldl_append, List.foldl_cons, List.foldl_nil]
    by_cases hx : x.exprType = .search ∧ x.alias_ = a
    · have hn : n = x := by
        simp only [List.filter_append, List.filter_cons, hx, and_self, decide_True, if_true,
          List.filter_nil, List.getLast?_concat, Option.some.injEq] at h
        exact h.symm
      subst hn
      exact leafState_alias_self _ _ a hx ha
    · have hf : (init.filter (fun x => x.exprType = .search ∧ x.alias_ = a)).getLast? =
          some n := by
        simpa [List.filter_append, List.filter_cons, hx] using h
      have hmem : n ∈ init.filter (fun x => x.exprType = .search ∧ x.alias_ = a) :=
        List.mem_of_getLast?_eq_some hf
      simp only [List.mem_filter, decide_eq_true_eq] at hmem
      obtain ⟨hn1, hn2, _⟩ := hmem
      rw [leafState_alias_other _ _ a hx, ih sb n hf]
      have hlit : n.stringValue ∈ init.flatMap leafLits := by
        simp only [List.mem_flatMap]
        exact ⟨n, hn1, by simp [leafLits, hn2]⟩
      obtain ⟨i, hi⟩ := foldl_memoStep_get _ (memoOf sb) _ hlit
      rw [← foldl_leafState_memo init sb] at hi
      simp only [memoOf] at hi
      rw [placeholderOf_eq_of_get _ _ _ hi,
        placeholderOf_eq_of_get _ _ _ (leafState_keeps_placeholder _ x _ _ hi)]

/-- C6, as the code has it. When a well-formed tree has search nodes that carry
the non-empty alias `a`, after `CreateWhere` the fragment registered under `a`
is the one built from the last such node in traversal order: its language and
the placeholder number of its query text. Every later node with the alias
overwrites the registered fragment. -/
theorem alias_last_wins (fmt : GoFmt) (sb : SQLBuilder) (e : Expr) (a : String)
    (n : Expr) (h : wellFormed e = true) (ha : a ≠ "")
    (hn : (searchesWith a e).getLast? = some n) :
    ∃ sb' text, CreateWhere fmt sb e = some (sb', text) ∧
      text = renderWith fmt (placeholderOf sb') sb.Advisory e ∧
      mapGet sb'.Aliases a =
        some (headline n.langValue (placeholderOf sb' n.stringValue)) := by
  refine ⟨_, _, CreateWhere_eq fmt sb e h, rfl, ?_⟩
  exact foldl_leafState_alias a ha (leaves e) sb n hn

/-- The alias theorem on the tree `aliasReused`. -/
theorem alias_last_wins_witness :
    ∃ sb' text, CreateWhere zeroFmt (fresh false) aliasReused = some (sb', text) ∧
      text = renderWith zeroFmt (placeholderOf sb') (fresh false).Advisory aliasReused ∧
      mapGet sb'.Aliases "s" =
        some (headline (mkLeaf .search .stringType "b" "german" "s").langValue
          (placeholderOf sb' (mkLeaf .search .stringType "b" "german" "s").stringValue)) :=
  alias_last_wins zeroFmt (fresh false) aliasReused "s"
    (mkLeaf .search .stringType "b" "german" "s") (by decide) (by decide) (by rfl)

/-- C6, as stated, fails: with two search nodes carrying the alias `s`, the
fragment registered after `CreateWhere` is the one of the second node (language
`german`, placeholder `$2`), not the one of the first node (language `english`,
placeholder `$1`). -/
theorem alias_first_wins_counterexample :
    (CreateWhere zeroFmt (fresh false) aliasReused).map (fun p => mapGet p.1.Aliases "s") =
        some (some "ts_headline('german',txt,websearch_to_tsquery('german', $2))") ∧
      (CreateWhere zeroFmt (fresh false) aliasReused).map (fun p => mapGet p.1.Aliases "s") ≠
        some (some (headline "english" 1)) ∧
      (CreateWhere zeroFmt (fresh false) (mkLeaf .search .stringType "a" "english" "s")).map
          (fun p => mapGet p.1.Aliases "s") = some (some (headline "english" 1)) := by
  decide

/-- Lists with the same pattern of equalities are related by a renaming that is
injective on the values of the first list. -/
theorem samePattern_map (l1 l2 : List String) (h : samePattern l1 l2) :
    ∃ f : String → String, l2 = l1.map f ∧ ∀ a ∈ l1, ∀ b ∈ l1, f a = f b → a = b := by
  obtain ⟨hlen, hpat⟩ := h
  have hidx : ∀ v ∈ l1, l1.indexOf v < l1.length := fun v hv => List.indexOf_lt_length.2 hv
  refine ⟨fun v => l2.getD (l1.indexOf v) "", ?_, ?_⟩
  · apply List.ext_getElem
    · simp [hlen]
    · intro p hp2 hp1
      have hp : p < l1.length := by rw [hlen]; exact hp2
      have hq := hidx l1[p] (List.getElem_mem _)
      have h1 : l1[l1.indexOf l1[p]]? = l1[p]? := by
        rw [List.getElem?_eq_getElem hq, List.getElem?_eq_getElem hp, List.getElem_indexOf hq]
      have h2 := (hpat _ hq _ hp).1 h1
      have hq2 : l1.indexOf l1[p] < l2.length := by rw [← hlen]; exact hq
      rw [List.getElem?_eq_getElem hq2, List.getElem?_eq_getElem hp2] at h2
      simp only [List.getElem_map, List.getD_eq_getElem?_getD, List.getElem?_eq_getElem hq2,
        Option.getD_some]
      exact (Option.some.inj h2).symm
  · intro a ha b hb hab
    have hqa := hidx a ha
    have hqb := hidx b hb
    have hqa2 : l1.indexOf a < l2.length := by rw [← hlen]; exact hqa
    have hqb2 : l1.indexOf b < l2.length := by rw [← hlen]; exact hqb
    simp only [List.getD_eq_getElem?_getD, List.getElem?_eq_getElem hqa2,
      List.getElem?_eq_getElem hqb2, Option.getD_some] at hab
    have h2 : l2[l1.indexOf a]? = l2[l1.indexOf b]? := by
      rw [List.getElem?_eq_getElem hqa2, List.getElem?_eq_getElem hqb2, hab]
    have h1 := (hpat _ hqa _ hqb).2 h2
    rw [List.getElem?_eq_getElem hqa, List.getElem?_eq_getElem hqb,
      List.getElem_indexOf hqa, List.getElem_indexOf hqb] at h1
    exact Option.some.inj h1

theorem firstOccurrences_map (f : String → String) (l : List String)
    (hf : ∀ a ∈ l, ∀ b ∈ l, f a = f b → a = b) :
    firstOccurrences (l.map f) = (firstOccurrences l).map f := by
  induction l with
  | nil => rfl
  | cons a l ih =>
    have ih' := ih (fun x hx y hy => hf x (List.mem_cons_of_mem _ hx) y (List.mem_cons_of_mem _ hy))
    simp only [List.map_cons, firstOccurrences, ih', List.filter_map, List.cons.injEq, true_and]
    congr 1
    apply List.filter_congr
    intro x hx
    have hx' : x ∈ l := (mem_firstOccurrences l x).1 hx
    by_cases hxa : x = a
    · simp [hxa]
    · have : f x ≠ f a := fun h =>
        hxa (hf x (List.mem_cons_of_mem _ hx') a (List.mem_cons_self _ _) h)
      simp [hxa, this]

theorem indexOf_map_of_inj (f : String → String) (v : String) (l : List String)
    (hf : ∀ b ∈ l, f v = f b → v = b) :
    (l.map f).indexOf (f v) = l.indexOf v := by
  induction l with
  | nil => rfl
  | cons a l ih =>
    by_cases h : a = v
    · subst h; simp
    · have hfa : f a ≠ f v := fun hh => h (hf a (List.mem_cons_self _ _) hh.symm).symm
      rw [List.map_cons, List.indexOf_cons_ne _ hfa, List.indexOf_cons_ne _ h,
        ih (fun b hb => hf b (List.mem_cons_of_mem _ hb))]

/-- Lists with the same pattern of equalities get the same placeholder numbers,
position by position. -/
theorem samePattern_numbers (l1 l2 : List String) (h : samePattern l1 l2) :
    l1.map (fun v => (firstOccurrences l1).indexOf v + 1) =
      l2.map (fun v => (firstOccurrences l2).indexOf v + 1) := by
  obtain ⟨f, rfl, hf⟩ := samePattern_map l1 l2 h
  rw [List.map_map]
  apply List.map_congr_left
  intro v hv
  simp only [Function.comp]
  rw [firstOccurrences_map f l1 hf, indexOf_map_of_inj f v]
  intro b hb
  exact hf v hv b ((mem_firstOccurrences l1 b).1 hb)

theorem leafText_same (fmt : GoFmt) (k1 k2 : String → Nat) (adv : Bool)
    (t : ExprType) (vt : ValueType) (s s2 : String) (i : Int) (f : Float) (tm : Time)
    (bv : Bool) (d : Int) (lang al : String) (ch ch2 : List Expr)
    (hs : textNodeNoWorkflow t vt = true ∨ s2 = s) :
    (leafLits (Expr.mk t vt s i f tm bv d lang al ch)).length =
        (leafLits (Expr.mk t vt s2 i f tm bv d lang al ch2)).length ∧
      ((leafLits (Expr.mk t vt s i f tm bv d lang al ch)).map k1 =
          (leafLits (Expr.mk t vt s2 i f tm bv d lang al ch2)).map k2 →
        leafText fmt k1 adv (Expr.mk t vt s i f tm bv d lang al ch) =
          leafText fmt k2 adv (Expr.mk t vt s2 i f tm bv d lang al ch2)) := by
  cases t
  case access =>
    have : s2 = s := by simpa [textNodeNoWorkflow] using hs
    subst this
    simp [leafLits, leafText, Expr.exprType, accessWhere, Expr.stringValue]
  case cnst =>
    cases vt
    case workflowType =>
      have : s2 = s := by simpa [textNodeNoWorkflow] using hs
      subst this
      simp [leafLits, leafText, Expr.exprType, Expr.valueType, cnstWhere, Expr.stringValue]
    case stringType =>
      simp only [leafLits, leafText, Expr.exprType, Expr.valueType, Expr.stringValue,
        if_true, List.length_singleton, List.map_cons, List.map_nil, List.cons.injEq,
        and_true, true_and]
      intro h; rw [h]
    all_goals
      simp [leafLits, leafText, Expr.exprType, Expr.valueType, cnstWhere, Expr.stringValue,
        Expr.intValue, Expr.floatValue, Expr.timeValue, Expr.boolValue, Expr.durationValue]
  case search =>
    simp only [leafLits, leafText, Expr.exprType, Expr.stringValue, Expr.langValue,
      List.length_singleton, List.map_cons, List.map_nil, List.cons.injEq, and_true, true_and]
    intro h; rw [h]
  case csearch =>
    simp only [leafLits, leafText, Expr.exprType, Expr.stringValue, Expr.langValue,
      List.length_singleton, List.map_cons, List.map_nil, List.cons.injEq, and_true, true_and]
    intro h; rw [h]
  case mentioned =>
    simp only [leafLits, leafText, Expr.exprType, Expr.stringValue, Expr.langValue,
      List.length_singleton, List.map_cons, List.map_nil, List.cons.injEq, and_true, true_and]
    intro h; rw [h]
  case involved =>
    simp only [leafLits, leafText, Expr.exprType, Expr.stringValue, Expr.langValue,
      List.length_singleton, List.map_cons, List.map_nil, List.cons.injEq, and_true, true_and]
    intro h; rw [h]
  all_goals simp [leafLits, leafText, Expr.exprType]

/-- Trees of identical shape whose literal positions get the same placeholder
numbers have the same text. -/
theorem sameExcept_render (fmt : GoFmt) (k1 k2 : String → Nat) (adv : Bool) :
    ∀ e1 e2 : Expr, sameExcept textNodeNoWorkflow e1 e2 →
      (lits e1).length = (lits e2).length ∧
        ((lits e1).map k1 = (lits e2).map k2 →
          renderWith fmt k1 adv e1 = renderWith fmt k2 adv e2) := by
  refine Expr.induct ?_
  intro t vt s i f tm bv d lang al ch ih e2 hsame
  obtain ⟨t2, vt2, s2, i2, f2, tm2, bv2, d2, lang2, al2, ch2⟩ := e2
  simp only [sameExcept] at hsame
  obtain ⟨rfl, rfl, rfl, rfl, rfl, rfl, rfl, rfl, rfl, hs, hch⟩ := hsame
  cases hsh : shape t2 vt2 with
  | leaf =>
    simp only [lits, leaves, hsh, List.flatMap_cons, List.flatMap_nil, List.append_nil,
      renderWith]
    obtain ⟨h1, h2⟩ := leafText_same fmt k1 k2 adv t2 vt2 s s2 i2 f2 tm2 bv2 d2 lang2 al2
      ch ch2 hs
    exact ⟨h1, fun h => by rw [h2 h]⟩
  | unary pre post =>
    match ch, ch2, hch, ih with
    | [], [], _, _ => simp [lits, leaves, leavesFirst, hsh, renderWith, renderFirst]
    | c :: rest, c2 :: rest2, hch, ih =>
      simp only [sameExceptList] at hch
      obtain ⟨h1, h2⟩ := ih c (List.mem_cons_self _ _) c2 hch.1
      simp only [lits, leaves, leavesFirst, hsh, renderWith, renderFirst] at h1 h2 ⊢
      exact ⟨h1, fun h => by rw [h2 h]⟩
    | [], _ :: _, hch, _ => simp [sameExceptList] at hch
    | _ :: _, [], hch, _ => simp [sameExceptList] at hch
  | binary op =>
    match ch, ch2, hch, ih with
    | [], [], _, _ => simp [lits, leaves, leavesPair, hsh, renderWith, renderPair]
    | [_], [_], _, _ => simp [lits, leaves, leavesPair, hsh, renderWith, renderPair]
    | l :: r :: rest, l2 :: r2 :: rest2, hch, ih =>
      simp only [sameExceptList] at hch
      obtain ⟨hl1, hl2⟩ := ih l (List.mem_cons_self _ _) l2 hch.1
      obtain ⟨hr1, hr2⟩ :=
        ih r (List.mem_cons_of_mem _ (List.mem_cons_self _ _)) r2 hch.2.1
      simp only [lits] at hl1 hl2 hr1 hr2
      simp only [lits, leaves, leavesPair, hsh, renderWith, renderPair, List.flatMap_append,
        List.length_append, List.map_append]
      refine ⟨by rw [hl1, hr1], fun h => ?_⟩
      have := List.append_inj h (by simp only [List.length_map]; exact hl1)
      rw [hl2 this.1, hr2 this.2]
    | [], _ :: _, hch, _ => simp [sameExceptList] at hch
    | _ :: _, [], hch, _ => simp [sameExceptList] at hch
    | [_], _ :: _ :: _, hch, _ => simp [sameExceptList] at hch
    | _ :: _ :: _, [_], hch, _ => simp [sameExceptList] at hch

theorem sameExcept_mono (free free' : ExprType → ValueType → Bool)
    (hf : ∀ t vt, free t vt = true → free' t vt = true) :
    ∀ e1 e2 : Expr, sameExcept free e1 e2 → sameExcept free' e1 e2 := by
  refine Expr.induct ?_
  intro t vt s i f tm bv d lang al ch ih e2 hsame
  obtain ⟨t2, vt2, s2, i2, f2, tm2, bv2, d2, lang2, al2, ch2⟩ := e2
  simp only [sameExcept] at hsame ⊢
  obtain ⟨h1, h2, h3, h4, h5, h6, h7, h8, h9, hs, hch⟩ := hsame
  refine ⟨h1, h2, h3, h4, h5, h6, h7, h8, h9, hs.imp (hf t vt) id, ?_⟩
  clear hs
  induction ch generalizing ch2 with
  | nil =>
    cases ch2 with
    | nil => simp [sameExceptList]
    | cons _ _ => simp [sameExceptList] at hch
  | cons c rest ihl =>
    cases ch2 with
    | nil => simp [sameExceptList] at hch
    | cons c2 rest2 =>
      simp only [sameExceptList] at hch ⊢
      exact ⟨ih c (List.mem_cons_self _ _) c2 hch.1,
        ihl (fun x hx => ih x (List.mem_cons_of_mem _ hx)) rest2 hch.2⟩

/-- On fresh builders, trees of identical shape whose literal values have the
same pattern of equalities are rendered with the same text. -/
theorem fresh_text_eq (fmt : GoFmt) (adv : Bool) (e1 e2 : Expr)
    (hs : sameExcept textNodeNoWorkflow e1 e2) (hp : samePattern (lits e1) (lits e2)) :
    renderWith fmt (placeholderOf (stateAfter (fresh adv) e1)) (fresh adv).Advisory e1 =
      renderWith fmt (placeholderOf (stateAfter (fresh adv) e2)) (fresh adv).Advisory e2 := by
  obtain ⟨_, hk1⟩ := stateAfter_fresh adv e1
  obtain ⟨_, hk2⟩ := stateAfter_fresh adv e2
  have hnum := samePattern_numbers (lits e1) (lits e2) hp
  refine (sameExcept_render fmt _ _ _ e1 e2 hs).2 ?_
  rw [List.map_congr_left hk1, List.map_congr_left hk2]
  exact hnum

/-- C3, as the code has it. Two well-formed trees of identical shape that
differ only in the `stringValue` of `const` nodes of a value type other than
workflow and of `search`, `csearch`, `mentioned` and `involved` nodes, and whose
literal values have the same pattern of equalities between positions, compile
on fresh builders to the identical WHERE text; the values are the entries of
`Replacements`. -/
theorem text_independent_of_values (fmt : GoFmt) (adv : Bool) (e1 e2 : Expr)
    (h1 : wellFormed e1 = true) (h2 : wellFormed e2 = true)
    (hs : sameExcept textNodeNoWorkflow e1 e2) (hp : samePattern (lits e1) (lits e2)) :
    ∃ sb1 sb2 text, CreateWhere fmt (fresh adv) e1 = some (sb1, text) ∧
      CreateWhere fmt (fresh adv) e2 = some (sb2, text) ∧
      sb1.Replacements = firstOccurrences (lits e1) ∧
      sb2.Replacements = firstOccurrences (lits e2) := by
  have ht := fresh_text_eq fmt adv e1 e2 hs hp
  refine ⟨_, { stateAfter (fresh adv) e2 with
      WhereClause :=
        renderWith fmt (placeholderOf (stateAfter (fresh adv) e2)) (fresh adv).Advisory e2 },
    _, CreateWhere_eq fmt (fresh adv) e1 h1, ?_, (stateAfter_fresh adv e1).1,
    (stateAfter_fresh adv e2).1⟩
  rw [CreateWhere_eq fmt (fresh adv) e2 h2, ht]

/-- The trees `repeatedLiteral` and `repeatedLiteral2` have the same text. -/
theorem text_independent_of_values_witness :
    ∃ sb1 sb2 text, CreateWhere zeroFmt (fresh false) repeatedLiteral = some (sb1, text) ∧
      CreateWhere zeroFmt (fresh false) repeatedLiteral2 = some (sb2, text) ∧
      sb1.Replacements = firstOccurrences (lits repeatedLiteral) ∧
      sb2.Replacements = firstOccurrences (lits repeatedLiteral2) :=
  text_independent_of_values zeroFmt false repeatedLiteral repeatedLiteral2
    (by decide) (by decide)
    (by simp [sameExcept, sameExceptList, repeatedLiteral, repeatedLiteral2, mkNode, mkLeaf,
      textNodeNoWorkflow])
    (by unfold samePattern; decide)

/-- C3, as stated, fails: two workflow-typed `const` nodes that differ only in
their `stringValue` compile on fresh builders to different WHERE texts, the
literal being written into the text. -/
theorem workflow_literal_counterexample :
    wellFormed (workflowConst "a") = true ∧ wellFormed (workflowConst "b") = true ∧
      sameExcept textNode (workflowConst "a") (workflowConst "b") ∧
      samePattern (valuesAt textNode (workflowConst "a"))
        (valuesAt textNode (workflowConst "b")) ∧
      (CreateWhere zeroFmt (fresh false) (workflowConst "a")).map Prod.snd =
        some "('a'::workflow)" ∧
      (CreateWhere zeroFmt (fresh false) (workflowConst "b")).map Prod.snd =
        some "('b'::workflow)" ∧
      "('a'::workflow)" ≠ "('b'::workflow)" := by
  refine ⟨by decide, by decide, ?_, ?_, by decide, by decide, by decide⟩
  · simp [sameExcept, sameExceptList, workflowConst, mkLeaf, textNode]
  · unfold samePattern; decide

/-- C4. A string-typed `const` node with value `s`, compiled on any builder,
writes `$` followed by the decimal index `k` that `replacementIndex` gives to
`s` plus one; the text consists of `$` and decimal digits only, and no
character of it is taken from `s`: the node writes the same text for any other
value that `replacementIndex` gives the same index, for instance any other
value that is new to the memo. Consequently two well-formed trees that differ
only in the values of string-typed `const` nodes and in the query text of
`search`, `csearch`, `mentioned` and `involved` nodes, with the same pattern of
equalities, compile on fresh builders to the identical WHERE text. -/
theorem string_const_placeholder :
    (∀ (fmt : GoFmt) (sb : SQLBuilder) (e : Expr) (b : String),
      e.valueType = .stringType →
      ∃ k, cnstWhere fmt sb e b =
          ((replacementIndex sb e.stringValue).1, b ++ ("$" ++ Itoa k)) ∧
        k = (replacementIndex sb e.stringValue).2 + 1 ∧
        ∀ c ∈ ("$" ++ Itoa k).data, c = '$' ∨ c.isDigit = true) ∧
    (∀ (fmt : GoFmt) (sb : SQLBuilder) (e e2 : Expr) (b : String),
      e.valueType = .stringType → e2.valueType = .stringType →
      ((replacementIndex sb e.stringValue).2 = (replacementIndex sb e2.stringValue).2 →
        (cnstWhere fmt sb e b).2 = (cnstWhere fmt sb e2 b).2) ∧
      (mapGet sb.replToIdx e.stringValue = none →
        mapGet sb.replToIdx e2.stringValue = none →
        (cnstWhere fmt sb e b).2 = (cnstWhere fmt sb e2 b).2)) ∧
    (∀ (fmt : GoFmt) (adv : Bool) (e1 e2 : Expr),
      wellFormed e1 = true → wellFormed e2 = true →
      sameExcept literalNode e1 e2 → samePattern (lits e1) (lits e2) →
      ∃ sb1 sb2 text, CreateWhere fmt (fresh adv) e1 = some (sb1, text) ∧
        CreateWhere fmt (fresh adv) e2 = some (sb2, text)) := by
  have htext : ∀ (fmt : GoFmt) (sb : SQLBuilder) (e : Expr) (b : String),
      e.valueType = .stringType →
      cnstWhere fmt sb e b =
        ((replacementIndex sb e.stringValue).1,
          b ++ ("$" ++ Itoa ((replacementIndex sb e.stringValue).2 + 1))) := by
    intro fmt sb e b hv
    simp [cnstWhere, hv, String.append_assoc]
  refine ⟨?_, ?_, ?_⟩
  · intro fmt sb e b hv
    refine ⟨(replacementIndex sb e.stringValue).2 + 1, htext fmt sb e b hv, rfl, ?_⟩
    intro c hc
    simp only [String.data_append, List.mem_append] at hc
    rcases hc with hc | hc
    · left; simpa using hc
    · right; exact Itoa_isDigit _ c hc
  · intro fmt sb e e2 b hv hv2
    have key : (replacementIndex sb e.stringValue).2 = (replacementIndex sb e2.stringValue).2 →
        (cnstWhere fmt sb e b).2 = (cnstWhere fmt sb e2 b).2 := by
      intro hidx
      rw [htext fmt sb e b hv, htext fmt sb e2 b hv2, hidx]
    refine ⟨key, ?_⟩
    intro hn hn2
    apply key
    simp [replacementIndex, hn, hn2]
  · intro fmt adv e1 e2 h1 h2 hs hp
    have hs' : sameExcept textNodeNoWorkflow e1 e2 := by
      refine sameExcept_mono literalNode textNodeNoWorkflow ?_ e1 e2 hs
      intro t vt h
      cases t <;> cases vt <;> revert h <;> decide
    have ht := fresh_text_eq fmt adv e1 e2 hs' hp
    refine ⟨_, { stateAfter (fresh adv) e2 with
        WhereClause :=
          renderWith fmt (placeholderOf (stateAfter (fresh adv) e2)) (fresh adv).Advisory e2 },
      _, CreateWhere_eq fmt (fresh adv) e1 h1, ?_⟩
    rw [CreateWhere_eq fmt (fresh adv) e2 h2, ht]

/-- The string constant `1` on a fresh builder, the constants `1` and
`x' OR 1=1` on a builder that holds neither, and the two trees with a repeated
literal. -/
theorem string_const_placeholder_witness :
    (∃ k, cnstWhere zeroFmt (fresh false) (mkLeaf .cnst .stringType "1" "" "") "" =
          ((replacementIndex (fresh false)
            (mkLeaf .cnst .stringType "1" "" "").stringValue).1, "" ++ ("$" ++ Itoa k)) ∧
        k = (replacementIndex (fresh false)
          (mkLeaf .cnst .stringType "1" "" "").stringValue).2 + 1 ∧
        ∀ c ∈ ("$" ++ Itoa k).data, c = '$' ∨ c.isDigit = true) ∧
    (cnstWhere zeroFmt { Replacements := ["a"], replToIdx := [("a", 0)] }
        (mkLeaf .cnst .stringType "1" "" "") "").2 =
      (cnstWhere zeroFmt { Replacements := ["a"], replToIdx := [("a", 0)] }
        (mkLeaf .cnst .stringType "x' OR 1=1" "" "") "").2 ∧
    (∃ sb1 sb2 text, CreateWhere zeroFmt (fresh false) repeatedLiteral = some (sb1, text) ∧
        CreateWhere zeroFmt (fresh false) repeatedLiteral2 = some (sb2, text)) :=
  ⟨string_const_placeholder.1 zeroFmt (fresh false) (mkLeaf .cnst .stringType "1" "" "") ""
      (by decide),
    (string_const_placeholder.2.1 zeroFmt { Replacements := ["a"], replToIdx := [("a", 0)] }
      (mkLeaf .cnst .stringType "1" "" "") (mkLeaf .cnst .stringType "x' OR 1=1" "" "") ""
      (by decide) (by decide)).2 (by decide) (by decide),
    string_const_placeholder.2.2 zeroFmt false repeatedLiteral repeatedLiteral2
      (by decide) (by decide)
      (by simp [sameExcept, sameExceptList, repeatedLiteral, repeatedLiteral2, mkNode,
        mkLeaf, literalNode])
      (by unfold samePattern; decide)⟩

/-- The from-clause as a function of the two flags. -/
theorem createFrom_eq (sb : SQLBuilder) (b : String) :
    createFrom sb b =
      b ++ ("documents" ++ (if sb.Advisory then advisoriesJoin else "") ++
        (if sb.TextTables then textTablesJoin else "")) := by
  unfold createFrom
  cases sb.Advisory <;> cases sb.TextTables <;>
    simp [advisoriesJoin, textTablesJoin, String.ext_iff]

set_option maxRecDepth 100000 in
/-- C16. The from-clause is the base table `documents`, then the join to
`advisories` when `Advisory` is set, then the join to the text tables when
`TextTables` is set. It starts with `documents`; the advisory join occurs in
it exactly when `Advisory` is set and the text-table join exactly when
`TextTables` is set; two builders have the same clause exactly when they agree
on the two flags, so there are four clauses. -/
theorem from_clause_construction :
    (∀ (sb : SQLBuilder) (b : String),
      createFrom sb b =
        b ++ ("documents" ++ (if sb.Advisory then advisoriesJoin else "") ++
          (if sb.TextTables then textTablesJoin else ""))) ∧
    (∀ sb : SQLBuilder, "documents".data <+: (createFrom sb "").data) ∧
    (∀ sb : SQLBuilder,
      advisoriesJoin.data <:+: (createFrom sb "").data ↔ sb.Advisory = true) ∧
    (∀ sb : SQLBuilder,
      textTablesJoin.data <:+: (createFrom sb "").data ↔ sb.TextTables = true) ∧
    (∀ sb1 sb2 : SQLBuilder,
      createFrom sb1 "" = createFrom sb2 "" ↔
        (sb1.Advisory = sb2.Advisory ∧ sb1.TextTables = sb2.TextTables)) := by
  have key : ∀ (P : String → Prop),
      (∀ adv tt : Bool, P ("" ++ ("documents" ++ (if adv then advisoriesJoin else "") ++
        (if tt then textTablesJoin else "")))) → ∀ sb : SQLBuilder, P (createFrom sb "") := by
    intro P h sb
    rw [createFrom_eq]
    exact h sb.Advisory sb.TextTables
  refine ⟨createFrom_eq, ?_, ?_, ?_, ?_⟩
  · refine key (fun s => "documents".data <+: s.data) ?_
    intro adv tt
    exact ⟨((if adv then advisoriesJoin else "") ++ (if tt then textTablesJoin else "")).data,
      by simp [String.data_append]⟩
  · intro sb
    rw [createFrom_eq]
    cases sb.Advisory <;> cases sb.TextTables <;> decide
  · intro sb
    rw [createFrom_eq]
    cases sb.Advisory <;> cases sb.TextTables <;> decide
  · intro sb1 sb2
    rw [createFrom_eq, createFrom_eq]
    cases sb1.Advisory <;> cases sb1.TextTables <;> cases sb2.Advisory <;>
      cases sb2.TextTables <;> decide

theorem projectionsLoop_append (sb : SQLBuilder) (proj : List String) :
    ∀ (i : Nat) (b : String),
      projectionsLoop sb i proj b = b ++ projectionsLoop sb i proj "" := by
  induction proj with
  | nil => intro i b; simp [projectionsLoop]
  | cons p rest ih =>
    intro i b
    simp only [projectionsLoop, WriteString_eq, WriteByte_eq]
    cases mapGet sb.Aliases p with
    | some a =>
      simp only []
      rw [ih (i + 1) ((if i > 0 then b ++ String.singleton ',' else b) ++ a),
        ih (i + 1) ((if i > 0 then "" ++ String.singleton ',' else "") ++ a)]
      split_ifs <;> simp [String.append_assoc]
    | none =>
      simp only []
      rw [ih (i + 1), ih (i + 1) (ite _ _ _)]
      split_ifs <;> simp [String.append_assoc]

theorem projectionsWithCasts_append (sb : SQLBuilder) (b : String) (proj : List String) :
    projectionsWithCasts sb b proj = b ++ projectionsWithCasts sb "" proj :=
  projectionsLoop_append sb proj 0 b

/-- The statement `CreateQuery` assembles. -/
theorem CreateQuery_eq (sb : SQLBuilder) (fields : List String) (order : String)
    (limit offset : Int) :
    CreateQuery sb fields order limit offset =
      "SELECT " ++ projectionsWithCasts sb "" fields ++ " FROM " ++ createFrom sb "" ++
        " WHERE " ++ sb.WhereClause ++
        (if order ≠ "" then " ORDER BY " ++ order else "") ++
        (if limit ≥ 0 then " LIMIT " ++ FormatInt limit else "") ++
        (if offset > 0 then " OFFSET " ++ FormatInt offset else "") := by
  unfold CreateQuery
  simp only [WriteString_eq]
  rw [projectionsWithCasts_append, createFrom_eq sb (_ ++ _), createFrom_eq sb ""]
  split_ifs <;> simp [String.append_assoc]

/-- C14. `CreateQuery` returns `SELECT`, the projections, ` FROM `, the
from-clause, ` WHERE `, the `WhereClause`, then ` ORDER BY ` and the order text
exactly when it is not empty, then ` LIMIT ` and the decimal limit exactly when
the limit is not negative, then ` OFFSET ` and the decimal offset exactly when
the offset is positive. With order `""`, limit `-1` and offset `0` the statement
ends with the `WhereClause`; with limit `10` it ends with ` LIMIT 10`; with
limit `0` it ends with ` LIMIT 0`. -/
theorem create_query_assembly (sb : SQLBuilder) (fields : List String) :
    (∀ (order : String) (limit offset : Int),
      CreateQuery sb fields order limit offset =
        "SELECT " ++ projectionsWithCasts sb "" fields ++ " FROM " ++ createFrom sb "" ++
          " WHERE " ++ sb.WhereClause ++
          (if order ≠ "" then " ORDER BY " ++ order else "") ++
          (if limit ≥ 0 then " LIMIT " ++ FormatInt limit else "") ++
          (if offset > 0 then " OFFSET " ++ FormatInt offset else "")) ∧
    CreateQuery sb fields "" (-1) 0 =
      "SELECT " ++ projectionsWithCasts sb "" fields ++ " FROM " ++ createFrom sb "" ++
        " WHERE " ++ sb.WhereClause ∧
    CreateQuery sb fields "" 10 0 =
      "SELECT " ++ projectionsWithCasts sb "" fields ++ " FROM " ++ createFrom sb "" ++
        " WHERE " ++ sb.WhereClause ++ " LIMIT 10" ∧
    CreateQuery sb fields "" 0 0 =
      "SELECT " ++ projectionsWithCasts sb "" fields ++ " FROM " ++ createFrom sb "" ++
        " WHERE " ++ sb.WhereClause ++ " LIMIT 0" := by
  refine ⟨CreateQuery_eq sb fields, ?_, ?_, ?_⟩
  · rw [CreateQuery_eq]; simp
  · rw [CreateQuery_eq]
    have : FormatInt 10 = "10" := by decide
    simp [this]
  · rw [CreateQuery_eq]
    have : FormatInt 0 = "0" := by decide
    simp [this]

/-- C15. For every builder there is one text `S`, ` FROM ` with the from-clause
and ` WHERE ` with the `WhereClause`, such that `CreateCountSQL` is
`SELECT count(*)` followed by `S` and `CreateQuery` is `SELECT `, the
projections, `S` and the order, limit and offset clauses; with order `""`, limit
`-1` and offset `0` the two statements differ only between `SELECT ` and
` FROM `. -/
theorem count_and_data_share_from_where (sb : SQLBuilder) :
    ∃ S : String, S = " FROM " ++ createFrom sb "" ++ " WHERE " ++ sb.WhereClause ∧
      CreateCountSQL sb = "SELECT count(*)" ++ S ∧
      (∀ (fields : List String) (order : String) (limit offset : Int),
        CreateQuery sb fields order limit offset =
          "SELECT " ++ projectionsWithCasts sb "" fields ++ S ++
            ((if order ≠ "" then " ORDER BY " ++ order else "") ++
             (if limit ≥ 0 then " LIMIT " ++ FormatInt limit else "") ++
             (if offset > 0 then " OFFSET " ++ FormatInt offset else ""))) ∧
      (∀ fields : List String,
        CreateQuery sb fields "" (-1) 0 =
          "SELECT " ++ projectionsWithCasts sb "" fields ++ S) ∧
      CreateCountSQL sb = "SELECT " ++ "count(*)" ++ S := by
  refine ⟨_, rfl, ?_, ?_, ?_, ?_⟩
  · unfold CreateCountSQL
    simp only [WriteString_eq]
    rw [createFrom_eq sb (_ ++ _), createFrom_eq sb ""]
    simp [String.ext_iff]
  · intro fields order limit offset
    rw [CreateQuery_eq]
    simp [String.append_assoc]
  · intro fields
    rw [CreateQuery_eq]
    simp [String.append_assoc]
  · unfold CreateCountSQL
    simp only [WriteString_eq]
    rw [createFrom_eq sb (_ ++ _), createFrom_eq sb ""]
    simp [String.ext_iff]

/-- What `CheckProjections` returns: the error for the first unknown field. -/
theorem CheckProjections_eq (q : GoQuote) (E : String → Bool → Bool) (sb : SQLBuilder)
    (proj : List String) :
    CheckProjections q E sb proj =
      (proj.find? (fun p => unknownField E sb p)).map
        (fun p => "column " ++ q.Quote p ++ " does not exists") := by
  induction proj with
  | nil => rfl
  | cons p rest ih =>
    rw [CheckProjections, List.find?_cons]
    cases hm : mapGet sb.Aliases p with
    | some a => simp [unknownField, hm, ih]
    | none =>
      cases he : E p sb.Advisory with
      | true => simp [unknownField, hm, he, ih]
      | false => simp [unknownField, hm, he]

/-- C11. `CheckProjections` returns an error exactly when some requested field
is neither a key of `Aliases` nor accepted by the allow-list lookup; the error
is `column`, the first such field as `%q` writes it (for a plain name, the name
between double quotes), and `does not exists`; otherwise the result is `nil`.
The list `["not_a_real_column"]` fails naming that field when it is unknown, the
list `["versions"]` succeeds when it is allow-listed. -/
theorem check_projections (q : GoQuote) (E : String → Bool → Bool) (sb : SQLBuilder) :
    (∀ proj : List String,
      ((CheckProjections q E sb proj).isSome = true ↔
        ∃ p ∈ proj, mapGet sb.Aliases p = none ∧ E p sb.Advisory = false) ∧
      CheckProjections q E sb proj =
        (proj.find? (fun p => unknownField E sb p)).map
          (fun p => "column " ++ q.Quote p ++ " does not exists")) ∧
    (mapGet sb.Aliases "not_a_real_column" = none →
      E "not_a_real_column" sb.Advisory = false →
      CheckProjections q E sb ["not_a_real_column"] =
        some ("column " ++ doubleQuote ++ "not_a_real_column" ++ doubleQuote ++
          " does not exists")) ∧
    (E "versions" sb.Advisory = true → CheckProjections q E sb ["versions"] = none) := by
  refine ⟨?_, ?_, ?_⟩
  · intro proj
    refine ⟨?_, CheckProjections_eq q E sb proj⟩
    rw [CheckProjections_eq]
    cases hfind : proj.find? (fun p => unknownField E sb p) with
    | some g =>
      simp only [Option.map_some', Option.isSome_some, true_iff]
      have hg := List.find?_some hfind
      have hmem := List.mem_of_find?_eq_some hfind
      simp only [unknownField, Bool.and_eq_true, Option.isNone_iff_eq_none,
        Bool.not_eq_true'] at hg
      exact ⟨g, hmem, hg.1, hg.2⟩
    | none =>
      simp only [Option.map_none', Option.isSome_none, Bool.false_eq_true, false_iff]
      rintro ⟨f, hf, h1, h2⟩
      rw [List.find?_eq_none] at hfind
      have := hfind f hf
      simp [unknownField, h1, h2] at this
  · intro h1 h2
    rw [CheckProjections_eq]
    have hq : q.Quote "not_a_real_column" =
        doubleQuote ++ "not_a_real_column" ++ doubleQuote :=
      q.Quote_plain _ (by decide)
    simp [unknownField, h1, h2, hq, String.append_assoc]
  · intro h
    rw [CheckProjections_eq]
    simp [unknownField, h]

/-- The projection check with `versions` as the only allow-listed column. -/
theorem check_projections_witness :
    CheckProjections plainQuote (fun f _ => f == "versions") (fresh false)
        ["not_a_real_column"] =
      some ("column " ++ doubleQuote ++ "not_a_real_column" ++ doubleQuote ++
        " does not exists") ∧
    CheckProjections plainQuote (fun f _ => f == "versions") (fresh false) ["versions"] =
      none :=
  ⟨(check_projections plainQuote (fun f _ => f == "versions") (fresh false)).2.1
      (by decide) (by decide),
    (check_projections plainQuote (fun f _ => f == "versions") (fresh false)).2.2
      (by decide)⟩

theorem orderItem_length_pos (f : String) : 0 < (orderItem f).length := by
  unfold orderItem
  rw [String.length_append]
  have h1 : " DESC".length = 5 := by decide
  have h2 : " ASC".length = 4 := by decide
  split_ifs <;> omega

theorem joinComma_cons (x : String) (l : List String) :
    joinComma (x :: l) = x ++ (if l = [] then "" else "," ++ joinComma l) := by
  cases l with
  | nil => simp [joinComma]
  | cons y rest => simp [joinComma, String.append_assoc]

/-- One round of the loop of `CreateOrder`. -/
theorem CreateOrderLoop_cons (q : GoQuote) (E : String → Bool → Bool) (sb : SQLBuilder)
    (f : String) (rest : List String) (b : String) :
    CreateOrderLoop q E sb (f :: rest) b =
      if unknownField E sb (orderField f) = true then
        ("", some ("order field " ++ q.Quote (orderField f) ++ " does not exists"))
      else
        CreateOrderLoop q E sb rest
          ((if 0 < b.length then b ++ "," else b) ++ orderItem f) := by
  rw [CreateOrderLoop]
  simp only [unknownField, orderField, orderItem, orderKey, WriteString_eq, WriteByte_eq]
  split_ifs <;> first
    | rfl
    | (congr 1; simp [String.ext_iff])

/-- The loop of `CreateOrder`: the error for the first unknown field, or the
builder with the sort keys appended. -/
theorem CreateOrderLoop_eq (q : GoQuote) (E : String → Bool → Bool) (sb : SQLBuilder)
    (fields : List String) : ∀ b : String,
    CreateOrderLoop q E sb fields b =
      match fields.find? (fun f => unknownField E sb (orderField f)) with
      | some f => ("", some ("order field " ++ q.Quote (orderField f) ++ " does not exists"))
      | none =>
        (b ++ ((if 0 < b.length ∧ fields ≠ [] then "," else "") ++
          joinComma (fields.map orderItem)), none) := by
  induction fields with
  | nil => intro b; simp [CreateOrderLoop, joinComma]
  | cons f rest ih =>
    intro b
    rw [CreateOrderLoop_cons]
    by_cases hu : unknownField E sb (orderField f) = true
    · simp only [hu, if_true, List.find?_cons]
    · simp only [hu, if_false, List.find?_cons]
      rw [ih]
      cases hfind : rest.find? (fun f => unknownField E sb (orderField f)) with
      | some g => rfl
      | none =>
        simp only [Prod.mk.injEq, and_true, List.map_cons]
        rw [joinComma_cons]
        have hpos : 0 < ((if 0 < b.length then b ++ "," else b) ++ orderItem f).length := by
          rw [String.length_append]
          have := orderItem_length_pos f
          omega
        simp only [hpos, true_and, ne_eq, List.cons_ne_nil, not_false_eq_true, and_true]
        by_cases hb : 0 < b.length <;> by_cases hr : rest = [] <;>
          simp [hb, hr, joinComma, String.append_assoc]

/-- What `CreateOrder` returns. -/
theorem CreateOrder_eq (q : GoQuote) (E : String → Bool → Bool) (sb : SQLBuilder)
    (fields : List String) :
    CreateOrder q E sb fields =
      match fields.find? (fun f => unknownField E sb (orderField f)) with
      | some f => ("", some ("order field " ++ q.Quote (orderField f) ++ " does not exists"))
      | none => (joinComma (fields.map orderItem), none) := by
  unfold CreateOrder
  rw [CreateOrderLoop_eq]
  cases fields.find? (fun f => unknownField E sb (orderField f)) with
  | some g => rfl
  | none =>
    have : ¬ 0 < "".length := by decide
    simp [this]

/-- C12. When every field, after removing one leading `-`, is a key of `Aliases`
or accepted by the allow-list lookup, `CreateOrder` returns without error the
sort keys in input order joined by `,`, each the key of the field name followed
by ` DESC` for a field with the leading `-` and by ` ASC` otherwise. In
particular `["-tracking_id"]` gives `documents.tracking_id DESC` and
`["tracking_id"]` gives `documents.tracking_id ASC`. -/
theorem create_order_rendering (q : GoQuote) (E : String → Bool → Bool)
    (sb : SQLBuilder) :
    (∀ fields : List String,
      (∀ f ∈ fields, (mapGet sb.Aliases (orderField f)).isSome = true ∨
        E (orderField f) sb.Advisory = true) →
      CreateOrder q E sb fields = (joinComma (fields.map orderItem), none)) ∧
    ((mapGet sb.Aliases "tracking_id").isSome = true ∨ E "tracking_id" sb.Advisory = true →
      CreateOrder q E sb ["-tracking_id"] = ("documents.tracking_id DESC", none) ∧
      CreateOrder q E sb ["tracking_id"] = ("documents.tracking_id ASC", none)) := by
  have main : ∀ fields : List String,
      (∀ f ∈ fields, (mapGet sb.Aliases (orderField f)).isSome = true ∨
        E (orderField f) sb.Advisory = true) →
      CreateOrder q E sb fields = (joinComma (fields.map orderItem), none) := by
    intro fields h
    rw [CreateOrder_eq]
    have hnone : fields.find? (fun f => unknownField E sb (orderField f)) = none := by
      rw [List.find?_eq_none]
      intro f hf
      rcases h f hf with h1 | h1
      · cases hm : mapGet sb.Aliases (orderField f) with
        | none => rw [hm] at h1; cases h1
        | some a => simp [unknownField, hm]
      · simp [unknownField, h1]
    rw [hnone]
  refine ⟨main, ?_⟩
  intro h
  have e1 : orderField "-tracking_id" = "tracking_id" := by decide
  have e2 : orderField "tracking_id" = "tracking_id" := by decide
  constructor
  · rw [main ["-tracking_id"] (by intro f hf; rw [List.mem_singleton] at hf; subst hf; rw [e1]; exact h)]
    decide
  · rw [main ["tracking_id"] (by intro f hf; rw [List.mem_singleton] at hf; subst hf; rw [e2]; exact h)]
    decide

/-- The order theorem with every column allow-listed. -/
theorem create_order_rendering_witness :
    CreateOrder plainQuote (fun _ _ => true) (fresh false)
        ["-tracking_id", "cvss_v3_score", "-version", "title"] =
      (joinComma (["-tracking_id", "cvss_v3_score", "-version", "title"].map orderItem),
        none) ∧
    CreateOrder plainQuote (fun _ _ => true) (fresh false) ["-tracking_id"] =
      ("documents.tracking_id DESC", none) ∧
    CreateOrder plainQuote (fun _ _ => true) (fresh false) ["tracking_id"] =
      ("documents.tracking_id ASC", none) :=
  ⟨(create_order_rendering plainQuote (fun _ _ => true) (fresh false)).1 _
      (fun _ _ => Or.inr rfl),
    (create_order_rendering plainQuote (fun _ _ => true) (fresh false)).2 (Or.inr rfl)⟩

/-- C13. `CreateOrder` returns an error exactly when some field, after removing
one leading `-`, is neither a key of `Aliases` nor accepted by the allow-list
lookup; the error then names the first such field without its `-`, and the
returned text is empty. -/
theorem create_order_failure (q : GoQuote) (E : String → Bool → Bool)
    (sb : SQLBuilder) (fields : List String) :
    ((CreateOrder q E sb fields).2.isSome = true ↔
      ∃ f ∈ fields, mapGet sb.Aliases (orderField f) = none ∧
        E (orderField f) sb.Advisory = false) ∧
    (∀ f, fields.find? (fun f => unknownField E sb (orderField f)) = some f →
      CreateOrder q E sb fields =
        ("", some ("order field " ++ q.Quote (orderField f) ++ " does not exists"))) ∧
    ((CreateOrder q E sb fields).2.isSome = true → (CreateOrder q E sb fields).1 = "") := by
  rw [CreateOrder_eq]
  cases hfind : fields.find? (fun f => unknownField E sb (orderField f)) with
  | some g =>
    refine ⟨?_, ?_, ?_⟩
    · simp only [Option.isSome_some, true_iff]
      have hg := List.find?_some hfind
      have hmem := List.mem_of_find?_eq_some hfind
      simp only [unknownField, Bool.and_eq_true, Option.isNone_iff_eq_none,
        Bool.not_eq_true'] at hg
      exact ⟨g, hmem, hg.1, hg.2⟩
    · intro f hf
      cases hf; rfl
    · intro _; rfl
  | none =>
    refine ⟨?_, ?_, ?_⟩
    · simp only [Option.isSome_none, Bool.false_eq_true, false_iff]
      rintro ⟨f, hf, h1, h2⟩
      rw [List.find?_eq_none] at hfind
      have := hfind f hf
      simp [unknownField, h1, h2] at this
    · intro f hf; cases hf
    · intro h; simp at h

/-- The failure theorem on a list whose second field is unknown. -/
theorem create_order_failure_witness :
    CreateOrder plainQuote (fun f _ => f != "bad") (fresh false)
        ["tracking_id", "-bad", "worse"] =
      ("", some ("order field " ++ plainQuote.Quote (orderField "-bad") ++
        " does not exists")) :=
  (create_order_failure plainQuote (fun f _ => f != "bad") (fresh false)
    ["tracking_id", "-bad", "worse"]).2.1 "-bad" (by decide)

theorem leafState_TextTables (sb : SQLBuilder) (x : Expr) :
    (leafState sb x).TextTables = (sb.TextTables || isSearch x) := by
  unfold leafState isSearch
  cases ht : x.exprType <;> simp
  · split_ifs <;> simp
  · split_ifs <;> simp

theorem foldl_leafState_TextTables (l : List Expr) : ∀ sb : SQLBuilder,
    (l.foldl leafState sb).TextTables = (sb.TextTables || l.any isSearch) := by
  induction l with
  | nil => intro sb; simp
  | cons x l ih =>
    intro sb
    simp only [List.foldl_cons, List.any_cons]
    rw [ih, leafState_TextTables, Bool.or_assoc]

theorem isSearch_of_shape (t : ExprType) (vt : ValueType) (s : String) (i : Int)
    (f : Float) (tm : Time) (bv : Bool) (d : Int) (lang al : String) (ch : List Expr)
    (h : shape t vt ≠ .leaf) :
    isSearch (Expr.mk t vt s i f tm bv d lang al ch) = false := by
  cases t <;> simp [isSearch, Expr.exprType]
  simp [shape] at h

/-- The search nodes the compiler visits are leaves. -/
theorem nodes_any_isSearch : ∀ e : Expr, (nodes e).any isSearch = (leaves e).any isSearch := by
  refine Expr.induct ?_
  intro t vt s i f tm bv d lang al ch ih
  cases hs : shape t vt with
  | leaf => simp [nodes, leaves, hs]
  | unary pre post =>
    have hn := isSearch_of_shape t vt s i f tm bv d lang al ch (by rw [hs]; simp)
    cases ch with
    | nil => simp [nodes, leaves, hs, nodesFirst, leavesFirst, hn]
    | cons c rest =>
      simp only [nodes, leaves, hs, nodesFirst, leavesFirst, List.any_cons, hn,
        Bool.false_or]
      exact ih c (List.mem_cons_self _ _)
  | binary op =>
    have hn := isSearch_of_shape t vt s i f tm bv d lang al ch (by rw [hs]; simp)
    match ch, ih with
    | [], _ => simp [nodes, leaves, hs, nodesPair, leavesPair, hn]
    | [_], _ => simp [nodes, leaves, hs, nodesPair, leavesPair, hn]
    | l :: r :: rest, ih =>
      simp only [nodes, leaves, hs, nodesPair, leavesPair, List.any_cons, hn,
        Bool.false_or, List.any_append]
      rw [ih l (List.mem_cons_self _ _),
        ih r (List.mem_cons_of_mem _ (List.mem_cons_self _ _))]

/-- C17. After `CreateWhere` on a well-formed tree the flag `TextTables` is its
value before or-ed with "the compiler visits a node of kind `search`". So from
`false` it becomes `true` exactly when the tree has a `search` node, no other
kind sets it, and from `true` it stays `true`. -/
theorem text_tables_set_by_search (fmt : GoFmt) (sb : SQLBuilder) (e : Expr)
    (h : wellFormed e = true) :
    ∃ sb' text, CreateWhere fmt sb e = some (sb', text) ∧
      sb'.TextTables = (sb.TextTables || (nodes e).any isSearch) ∧
      (sb.TextTables = false →
        (sb'.TextTables = true ↔ ∃ n ∈ nodes e, n.exprType = .search)) ∧
      (sb.TextTables = true → sb'.TextTables = true) := by
  have hT : (stateAfter sb e).TextTables = (sb.TextTables || (nodes e).any isSearch) := by
    rw [nodes_any_isSearch]
    exact foldl_leafState_TextTables (leaves e) sb
  refine ⟨_, _, CreateWhere_eq fmt sb e h, hT, ?_, ?_⟩
  · intro h0
    show (stateAfter sb e).TextTables = true ↔ _
    rw [hT, h0]
    simp [isSearch]
  · intro h1
    show (stateAfter sb e).TextTables = true
    rw [hT, h1]
    rfl

/-- The flag on the search scenario and on a tree without `search` nodes. -/
theorem text_tables_set_by_search_witness :
    (∃ sb' text, CreateWhere zeroFmt (fresh false) searchWithAlias = some (sb', text) ∧
      sb'.TextTables = ((fresh false).TextTables || (nodes searchWithAlias).any isSearch) ∧
      ((fresh false).TextTables = false →
        (sb'.TextTables = true ↔ ∃ n ∈ nodes searchWithAlias, n.exprType = .search)) ∧
      ((fresh false).TextTables = true → sb'.TextTables = true)) :=
  text_tables_set_by_search zeroFmt (fresh false) searchWithAlias (by decide)

set_option maxRecDepth 100000 in
/-- C18 on the code: an `involved` node compiled in document mode writes a
subquery over `events_log` that correlates through `comments.documents_id`, a
table outside its own FROM; in advisory mode the same node joins through
`events_log.documents_id`, and a `csearch` node in document mode correlates
through the key of its own table. -/
theorem involved_document_mode_text :
    (CreateWhere zeroFmt (fresh false) involvedAlice).map Prod.snd =
      some ("(EXISTS(SELECT 1 FROM events_log WHERE actor = $1 " ++
        "AND comments.documents_id = documents.id))") ∧
    (CreateWhere zeroFmt (fresh true) involvedAlice).map Prod.snd =
      some ("(EXISTS(SELECT 1 FROM events_log JOIN documents docs " ++
        "ON events_log.documents_id = docs.id WHERE actor = $1 " ++
        "AND docs.publisher = documents.publisher " ++
        "AND docs.tracking_id = documents.tracking_id))") ∧
    (CreateWhere zeroFmt (fresh false)
        (mkLeaf .csearch .stringType "alice" "english" "")).map Prod.snd =
      some ("(EXISTS(SELECT 1 FROM comments WHERE ts @@ " ++
        "websearch_to_tsquery('english', $1) " ++
        "AND comments.documents_id = documents.id))") ∧
    (CreateWhere zeroFmt (fresh false)
        (mkLeaf .mentioned .stringType "alice" "" "")).map Prod.snd =
      some ("(EXISTS(SELECT 1 FROM comments WHERE ts @@ phraseto_tsquery($1) " ++
        "AND comments.documents_id = documents.id))") := by
  decide

/-- C19. An `access` node with column name `c`, compiled on any builder, leaves
the builder as it is and writes, inside the parentheses of the node,
`documents.` and `c` for `tracking_id` and `publisher`, the count of the
documents with the same publisher and tracking id for `versions`, for
`comments` the bare name in advisory mode and the count of the comments of the
document otherwise, and `c` itself for every other name. -/
theorem access_rendering (fmt : GoFmt) (sb : SQLBuilder) (e : Expr) (b : String)
    (h : e.exprType = .access) :
    whereRecurse fmt sb e b =
      some (sb, b ++ "(" ++
        (if e.stringValue = "tracking_id" ∨ e.stringValue = "publisher" then
          "documents." ++ e.stringValue
        else if e.stringValue = "versions" then
          "(SELECT count(*) FROM documents WHERE documents.publisher = " ++
            "advisories.publisher AND documents.tracking_id = advisories.tracking_id)"
        else if e.stringValue = "comments" then
          (if sb.Advisory = true then "comments"
           else "(SELECT count(*) FROM comments WHERE comments.documents_id = documents.id)")
        else e.stringValue) ++ ")") := by
  obtain ⟨t, vt, s, i, f, tm, bv, d, lang, al, ch⟩ := e
  simp only [Expr.exprType] at h
  subst h
  simp only [whereRecurse, accessWhere, Expr.stringValue, WriteString_eq, WriteByte_eq,
    singleton_lparen, singleton_rparen, versionsCount, commentsCount]
  split_ifs with h1 h2 h3 h4 <;> simp_all [String.ext_iff]

/-- The access theorem on the column `comments` in document mode. -/
theorem access_rendering_witness :
    whereRecurse zeroFmt (fresh false) (mkLeaf .access .stringType "comments" "" "") "" =
      some (fresh false, "" ++ "(" ++
        (if (mkLeaf .access .stringType "comments" "" "").stringValue = "tracking_id" ∨
            (mkLeaf .access .stringType "comments" "" "").stringValue = "publisher" then
          "documents." ++ (mkLeaf .access .stringType "comments" "" "").stringValue
        else if (mkLeaf .access .stringType "comments" "" "").stringValue = "versions" then
          "(SELECT count(*) FROM documents WHERE documents.publisher = " ++
            "advisories.publisher AND documents.tracking_id = advisories.tracking_id)"
        else if (mkLeaf .access .stringType "comments" "" "").stringValue = "comments" then
          (if (fresh false).Advisory = true then "comments"
           else "(SELECT count(*) FROM comments WHERE comments.documents_id = documents.id)")
        else (mkLeaf .access .stringType "comments" "" "").stringValue) ++ ")") :=
  access_rendering zeroFmt (fresh false) (mkLeaf .access .stringType "comments" "" "") ""
    rfl

theorem shape_of_operatorToken (t : ExprType) (vt : ValueType) (op : String)
    (h : operatorToken t = some op) : shape t vt = .binary op := by
  cases t <;> simp [operatorToken] at h <;> subst h <;> rfl

/-- A node with two well-formed children around an operator: the children are
compiled left to right and their texts written around the operator. -/
theorem whereRecurse_pair (fmt : GoFmt) (sb : SQLBuilder) (b : String)
    (t : ExprType) (vt : ValueType) (s : String) (i : Int) (f : Float) (tm : Time)
    (bv : Bool) (d : Int) (lang al : String) (l r : Expr) (rest : List Expr)
    (op : String) (hs : shape t vt = .binary op)
    (hl : wellFormed l = true) (hr : wellFormed r = true) :
    ∃ sb1 tl sb2 tr, whereRecurse fmt sb l "" = some (sb1, tl) ∧
      whereRecurse fmt sb1 r "" = some (sb2, tr) ∧
      whereRecurse fmt sb (Expr.mk t vt s i f tm bv d lang al (l :: r :: rest)) b =
        some (sb2, b ++ "(" ++ ("(" ++ tl ++ op ++ tr ++ ")") ++ ")") := by
  refine ⟨_, _, _, _, whereRecurse_eq fmt l sb "" hl,
    whereRecurse_eq fmt r (stateAfter sb l) "" hr, ?_⟩
  rw [whereRecurse_binary fmt sb b t vt s i f tm bv d lang al l r rest op hs,
    whereRecurse_eq fmt l sb _ hl]
  simp only [Option.some_bind]
  rw [whereRecurse_eq fmt r (stateAfter sb l) _ hr]
  simp [String.ext_iff]

/-- C20. A comparison, boolean or arithmetic node with children `l` and `r`
writes, inside the parentheses of the node, `(`, the text of `l`, the operator
token of its kind, the text of `r` and `)`; a `not` node writes `(NOT `, the text
of its child and `)`; an `ilike` node writes `(`, the text of its first child,
` ILIKE `, the text of its second child and `)`. The text of a child is what
`whereRecurse` writes for it; the right child is compiled on the builder the
left child leaves. -/
theorem binary_not_ilike_rendering (fmt : GoFmt) (sb : SQLBuilder) (b : String) :
    (∀ (e l r : Expr) (rest : List Expr) (op : String),
      operatorToken e.exprType = some op → e.children = l :: r :: rest →
      wellFormed l = true → wellFormed r = true →
      ∃ sb1 tl sb2 tr, whereRecurse fmt sb l "" = some (sb1, tl) ∧
        whereRecurse fmt sb1 r "" = some (sb2, tr) ∧
        whereRecurse fmt sb e b =
          some (sb2, b ++ "(" ++ ("(" ++ tl ++ op ++ tr ++ ")") ++ ")")) ∧
    (∀ (e c : Expr) (rest : List Expr),
      e.exprType = .not → e.children = c :: rest → wellFormed c = true →
      ∃ sb1 tc, whereRecurse fmt sb c "" = some (sb1, tc) ∧
        whereRecurse fmt sb e b = some (sb1, b ++ "(" ++ ("(NOT " ++ tc ++ ")") ++ ")")) ∧
    (∀ (e l r : Expr) (rest : List Expr),
      e.exprType = .ilike → e.children = l :: r :: rest →
      wellFormed l = true → wellFormed r = true →
      ∃ sb1 tl sb2 tr, whereRecurse fmt sb l "" = some (sb1, tl) ∧
        whereRecurse fmt sb1 r "" = some (sb2, tr) ∧
        whereRecurse fmt sb e b =
          some (sb2, b ++ "(" ++ ("(" ++ tl ++ " ILIKE " ++ tr ++ ")") ++ ")")) := by
  refine ⟨?_, ?_, ?_⟩
  · intro e l r rest op hop hch hl hr
    obtain ⟨t, vt, s, i, f, tm, bv, d, lang, al, ch⟩ := e
    simp only [Expr.exprType, Expr.children] at hop hch
    subst hch
    exact whereRecurse_pair fmt sb b t vt s i f tm bv d lang al l r rest op
      (shape_of_operatorToken t vt op hop) hl hr
  · intro e c rest ht hch hc
    obtain ⟨t, vt, s, i, f, tm, bv, d, lang, al, ch⟩ := e
    simp only [Expr.exprType, Expr.children] at ht hch
    subst ht hch
    refine ⟨_, _, whereRecurse_eq fmt c sb "" hc, ?_⟩
    rw [whereRecurse_unary fmt sb b .not vt s i f tm bv d lang al c rest "(NOT " ")" rfl,
      whereRecurse_eq fmt c sb _ hc]
    simp [String.ext_iff]
  · intro e l r rest ht hch hl hr
    obtain ⟨t, vt, s, i, f, tm, bv, d, lang, al, ch⟩ := e
    simp only [Expr.exprType, Expr.children] at ht hch
    subst ht hch
    exact whereRecurse_pair fmt sb b .ilike vt s i f tm bv d lang al l r rest " ILIKE "
      rfl hl hr

/-- The rendering theorem on `a = b`, `NOT a` and `a ILIKE b` over two column
references. -/
theorem binary_not_ilike_rendering_witness :
    (∃ sb1 tl sb2 tr,
      whereRecurse zeroFmt (fresh false) (mkLeaf .access .stringType "a" "" "") "" =
        some (sb1, tl) ∧
      whereRecurse zeroFmt sb1 (mkLeaf .access .stringType "b" "" "") "" = some (sb2, tr) ∧
      whereRecurse zeroFmt (fresh false)
          (mkNode .eq [mkLeaf .access .stringType "a" "" "",
            mkLeaf .access .stringType "b" "" ""]) "" =
        some (sb2, "" ++ "(" ++ ("(" ++ tl ++ "=" ++ tr ++ ")") ++ ")")) ∧
    (∃ sb1 tc,
      whereRecurse zeroFmt (fresh false) (mkLeaf .access .stringType "a" "" "") "" =
        some (sb1, tc) ∧
      whereRecurse zeroFmt (fresh false)
          (mkNode .not [mkLeaf .access .stringType "a" "" ""]) "" =
        some (sb1, "" ++ "(" ++ ("(NOT " ++ tc ++ ")") ++ ")")) ∧
    (∃ sb1 tl sb2 tr,
      whereRecurse zeroFmt (fresh false) (mkLeaf .access .stringType "a" "" "") "" =
        some (sb1, tl) ∧
      whereRecurse zeroFmt sb1 (mkLeaf .access .stringType "b" "" "") "" = some (sb2, tr) ∧
      whereRecurse zeroFmt (fresh false)
          (mkNode .ilike [mkLeaf .access .stringType "a" "" "",
            mkLeaf .access .stringType "b" "" ""]) "" =
        some (sb2, "" ++ "(" ++ ("(" ++ tl ++ " ILIKE " ++ tr ++ ")") ++ ")")) :=
  ⟨(binary_not_ilike_rendering zeroFmt (fresh false) "").1 _ _ _ [] "=" rfl rfl
      (by decide) (by decide),
    (binary_not_ilike_rendering zeroFmt (fresh false) "").2.1 _ _ [] rfl rfl (by decide),
    (binary_not_ilike_rendering zeroFmt (fresh false) "").2.2 _ _ _ [] rfl rfl
      (by decide) (by decide)⟩

/-- C21. A `const` node of value type int, bool or workflow and a `now` node,
compiled on any builder, leave the builder as it is (no entry is added to
`Replacements`, no field changes) and write, inside the parentheses of the
node: the decimal text of the integer, with a leading `-` when it is negative;
`TRUE` or `FALSE`; `'`, the string value and `'::workflow`;
`current_timestamp`. -/
theorem nonstring_const_and_now (fmt : GoFmt) (sb : SQLBuilder) (b : String) :
    (∀ e : Expr, e.exprType = .cnst → e.valueType = .intType →
      whereRecurse fmt sb e b =
        some (sb, b ++ "(" ++
          (if e.intValue < 0 then "-" ++ Nat.repr e.intValue.natAbs
           else Nat.repr e.intValue.natAbs) ++ ")")) ∧
    (∀ e : Expr, e.exprType = .cnst → e.valueType = .boolType →
      whereRecurse fmt sb e b =
        some (sb, b ++ "(" ++ (if e.boolValue = true then "TRUE" else "FALSE") ++ ")")) ∧
    (∀ e : Expr, e.exprType = .cnst → e.valueType = .workflowType →
      whereRecurse fmt sb e b =
        some (sb, b ++ "(" ++ ("'" ++ e.stringValue ++ "'::workflow") ++ ")")) ∧
    (∀ e : Expr, e.exprType = .now →
      whereRecurse fmt sb e b = some (sb, b ++ "(" ++ "current_timestamp" ++ ")")) := by
  refine ⟨?_, ?_, ?_, ?_⟩
  · intro e ht hv
    obtain ⟨t, vt, s, i, f, tm, bv, d, lang, al, ch⟩ := e
    simp only [Expr.exprType, Expr.valueType] at ht hv
    subst ht hv
    simp only [whereRecurse, cnstWhere, Expr.valueType, Expr.intValue, WriteString_eq,
      WriteByte_eq, singleton_lparen, singleton_rparen]
    cases i with
    | ofNat n =>
      have h : ¬ ((n : Int) < 0) := by omega
      simp [FormatInt, h, String.append_assoc]
    | negSucc n =>
      have h : Int.negSucc n < 0 := Int.negSucc_lt_zero n
      simp [FormatInt, h, String.append_assoc, Int.natAbs]
  · intro e ht hv
    obtain ⟨t, vt, s, i, f, tm, bv, d, lang, al, ch⟩ := e
    simp only [Expr.exprType, Expr.valueType] at ht hv
    subst ht hv
    simp only [whereRecurse, cnstWhere, Expr.valueType, Expr.boolValue, WriteString_eq,
      WriteByte_eq, singleton_lparen, singleton_rparen]
    cases bv <;> simp [String.append_assoc]
  · intro e ht hv
    obtain ⟨t, vt, s, i, f, tm, bv, d, lang, al, ch⟩ := e
    simp only [Expr.exprType, Expr.valueType] at ht hv
    subst ht hv
    simp [whereRecurse, cnstWhere, Expr.valueType, Expr.stringValue, String.append_assoc]
    simp [String.ext_iff]
  · intro e ht
    obtain ⟨t, vt, s, i, f, tm, bv, d, lang, al, ch⟩ := e
    simp only [Expr.exprType] at ht
    subst ht
    simp [whereRecurse, nowWhere, String.append_assoc]

/-- The constants `-42`, `TRUE` and `'review'::workflow` and a `now` node on a
builder that already holds a value. -/
theorem nonstring_const_and_now_witness :
    whereRecurse zeroFmt { Replacements := ["x"], replToIdx := [("x", 0)] }
        (Expr.mk .cnst .intType "" (-42) 0 ⟨0, 0, 0⟩ false 0 "" "" []) "" =
      some ({ Replacements := ["x"], replToIdx := [("x", 0)] }, "(-42)") ∧
    whereRecurse zeroFmt { Replacements := ["x"], replToIdx := [("x", 0)] }
        (Expr.mk .cnst .boolType "" 0 0 ⟨0, 0, 0⟩ true 0 "" "" []) "" =
      some ({ Replacements := ["x"], replToIdx := [("x", 0)] }, "(TRUE)") ∧
    whereRecurse zeroFmt { Replacements := ["x"], replToIdx := [("x", 0)] }
        (mkLeaf .cnst .workflowType "review" "" "") "" =
      some ({ Replacements := ["x"], replToIdx := [("x", 0)] }, "('review'::workflow)") ∧
    whereRecurse zeroFmt { Replacements := ["x"], replToIdx := [("x", 0)] }
        (mkLeaf .now .stringType "" "" "") "" =
      some ({ Replacements := ["x"], replToIdx := [("x", 0)] }, "(current_timestamp)") :=
  ⟨(nonstring_const_and_now zeroFmt _ "").1 _ rfl rfl,
   (nonstring_const_and_now zeroFmt _ "").2.1 _ rfl rfl,
   (nonstring_const_and_now zeroFmt _ "").2.2.1 _ rfl rfl,
   (nonstring_const_and_now zeroFmt _ "").2.2.2 _ rfl⟩

/-- C23. A `cast` node with first child `c` hands the builder to one call of the
compiler on `c`, after `(CAST(` and before ` AS `, the type name and `))`; when
`c` is well-formed the text is, inside the parentheses of the node, `CAST(`, the
text of `c`, ` AS `, the name of the target type and `)`, and the builder is the
one that compiling `c` leaves. The type name is `text` for string, `int` for
int, `float` for float, `timestamptz` for time, `boolean` for bool, `workflow`
for workflow and `interval` for duration. -/
theorem cast_rendering (fmt : GoFmt) (sb : SQLBuilder) (b : String) (e c : Expr)
    (rest : List Expr) (ht : e.exprType = .cast) (hch : e.children = c :: rest) :
    whereRecurse fmt sb e b =
      (whereRecurse fmt sb c (b ++ "(" ++ "CAST(")).map (fun p =>
        (p.1, p.2 ++ " AS " ++
          (match e.valueType with
            | .stringType => "text"
            | .intType => "int"
            | .floatType => "float"
            | .timeType => "timestamptz"
            | .boolType => "boolean"
            | .workflowType => "workflow"
            | .durationType => "interval") ++ ")" ++ ")")) ∧
    (wellFormed c = true →
      ∃ sb1 tc, whereRecurse fmt sb c "" = some (sb1, tc) ∧
        whereRecurse fmt sb e b =
          some (sb1, b ++ "(" ++ ("CAST(" ++ tc ++ " AS " ++
            (match e.valueType with
              | .stringType => "text"
              | .intType => "int"
              | .floatType => "float"
              | .timeType => "timestamptz"
              | .boolType => "boolean"
              | .workflowType => "workflow"
              | .durationType => "interval") ++ ")") ++ ")")) := by
  obtain ⟨t, vt, s, i, f, tm, bv, d, lang, al, ch⟩ := e
  simp only [Expr.exprType, Expr.children] at ht hch
  subst ht hch
  have hname : (match vt with
      | .stringType => "text"
      | .intType => "int"
      | .floatType => "float"
      | .timeType => "timestamptz"
      | .boolType => "boolean"
      | .workflowType => "workflow"
      | .durationType => "interval") = castTypeName vt := by
    cases vt <;> rfl
  simp only [Expr.valueType, hname]
  have hu := whereRecurse_unary fmt sb b .cast vt s i f tm bv d lang al c rest "CAST("
    (" AS " ++ castTypeName vt ++ ")") rfl
  refine ⟨?_, ?_⟩
  · rw [hu, show b ++ "(" ++ "CAST(" = b ++ ("(" ++ "CAST(") from String.append_assoc _ _ _]
    congr 1
    funext p
    simp [String.ext_iff]
  · intro hc
    refine ⟨_, _, whereRecurse_eq fmt c sb "" hc, ?_⟩
    rw [hu, whereRecurse_eq fmt c sb _ hc]
    simp [String.ext_iff]

/-- The cast theorem on `CAST(x AS int)` with an unused second child. -/
theorem cast_rendering_witness :
    whereRecurse zeroFmt (fresh false)
        (Expr.mk .cast .intType "" 0 0 ⟨0, 0, 0⟩ false 0 "" ""
          [mkLeaf .access .stringType "x" "" "", mkLeaf .now .stringType "" "" ""]) "" =
      some (fresh false, "(CAST((x) AS int))") ∧
    ∃ sb1 tc,
      whereRecurse zeroFmt (fresh false) (mkLeaf .access .stringType "x" "" "") "" =
        some (sb1, tc) ∧
      whereRecurse zeroFmt (fresh false)
          (Expr.mk .cast .intType "" 0 0 ⟨0, 0, 0⟩ false 0 "" ""
            [mkLeaf .access .stringType "x" "" "", mkLeaf .now .stringType "" "" ""]) "" =
        some (sb1, "" ++ "(" ++ ("CAST(" ++ tc ++ " AS " ++ "int" ++ ")") ++ ")") := by
  have h := cast_rendering zeroFmt (fresh false) ""
    (Expr.mk .cast .intType "" 0 0 ⟨0, 0, 0⟩ false 0 "" ""
      [mkLeaf .access .stringType "x" "" "", mkLeaf .now .stringType "" "" ""])
    (mkLeaf .access .stringType "x" "" "") [mkLeaf .now .stringType "" "" ""] rfl rfl
  refine ⟨?_, h.2 (by decide)⟩
  rw [h.1]
  decide

set_option maxRecDepth 100000 in
/-- C24. An `ilikePID` node with first child `c` hands the builder to one call
of the compiler on `c`, after `(` and the fixed text of the subquery and before
`))`; the children after the first are not read: a node with other such
children compiles to the same result. When `c` is well-formed the text is,
inside the parentheses of the node, the fixed text, the text of `c` and `)`,
and the builder is the one that compiling `c` leaves. The fixed text is the
`EXISTS` subquery of the source: it contains `ds.id = documents.id` and
`dts.documents_id = documents.id` and ends with `unique_texts.txt ILIKE `, so
the text of `c` stands right after that operator. -/
theorem ilikePID_rendering (fmt : GoFmt) (sb : SQLBuilder) (b : String) (e c : Expr)
    (rest : List Expr) (ht : e.exprType = .ilikePID) (hch : e.children = c :: rest) :
    whereRecurse fmt sb e b =
      (whereRecurse fmt sb c (b ++ "(" ++ ilikePIDText)).map (fun p =>
        (p.1, p.2 ++ ")" ++ ")")) ∧
    (∀ (e2 : Expr) (rest2 : List Expr), e2.exprType = .ilikePID →
      e2.children = c :: rest2 → whereRecurse fmt sb e2 b = whereRecurse fmt sb e b) ∧
    (wellFormed c = true →
      ∃ sb1 tc, whereRecurse fmt sb c "" = some (sb1, tc) ∧
        whereRecurse fmt sb e b =
          some (sb1, b ++ "(" ++ (ilikePIDText ++ tc ++ ")") ++ ")")) ∧
    ilikePIDText =
      "EXISTS (WITH product_ids AS (SELECT jsonb_path_query(document, " ++
      "'$.product_tree.**.product.product_id')::int num FROM documents ds " ++
      "WHERE ds.id = documents.id)SELECT * FROM documents_texts dts " ++
      "JOIN product_ids ON product_ids.num = dts.num JOIN unique_texts " ++
      "ON dts.txt_id = unique_texts.id WHERE dts.documents_id = documents.id " ++
      "AND unique_texts.txt ILIKE " ∧
    "FROM documents ds WHERE ds.id = documents.id)".data <:+: ilikePIDText.data ∧
    "WHERE dts.documents_id = documents.id AND ".data <:+: ilikePIDText.data ∧
    "unique_texts.txt ILIKE ".data <:+ ilikePIDText.data := by
  have hun : ∀ (e2 : Expr) (rest2 : List Expr), e2.exprType = .ilikePID →
      e2.children = c :: rest2 → whereRecurse fmt sb e2 b =
        (whereRecurse fmt sb c (b ++ "(" ++ ilikePIDText)).map (fun p =>
          (p.1, p.2 ++ ")" ++ ")")) := by
    intro e2 rest2 ht2 hch2
    obtain ⟨t, vt, s, i, f, tm, bv, d, lang, al, ch⟩ := e2
    simp only [Expr.exprType, Expr.children] at ht2 hch2
    subst ht2 hch2
    rw [whereRecurse_unary fmt sb b .ilikePID vt s i f tm bv d lang al c rest2
      ilikePIDText ")" rfl, String.append_assoc]
    congr 1
    funext p
    simp [String.ext_iff]
  refine ⟨hun e rest ht hch, ?_, ?_, by decide, by decide, by decide, by decide⟩
  · intro e2 rest2 ht2 hch2
    rw [hun e2 rest2 ht2 hch2, hun e rest ht hch]
  · intro hc
    refine ⟨_, _, whereRecurse_eq fmt c sb "" hc, ?_⟩
    rw [hun e rest ht hch, whereRecurse_eq fmt c sb _ hc]
    simp [String.ext_iff]

set_option maxRecDepth 100000 in
/-- The `ilikePID` theorem on a string pattern with an unused second child: the
text ends with the placeholder of the pattern and the closing parentheses. -/
theorem ilikePID_rendering_witness :
    (whereRecurse zeroFmt (fresh false)
        (mkNode .ilikePID [mkLeaf .cnst .stringType "%7%" "" "",
          mkLeaf .now .stringType "" "" ""]) "").map
      (fun p => (p.1.Replacements, String.mk (p.2.data.drop 330))) =
      some (["%7%"], "unique_texts.txt ILIKE ($1)))") ∧
    whereRecurse zeroFmt (fresh false)
        (mkNode .ilikePID [mkLeaf .cnst .stringType "%7%" "" ""]) "" =
      whereRecurse zeroFmt (fresh false)
        (mkNode .ilikePID [mkLeaf .cnst .stringType "%7%" "" "",
          mkLeaf .now .stringType "" "" ""]) "" ∧
    ∃ sb1 tc,
      whereRecurse zeroFmt (fresh false) (mkLeaf .cnst .stringType "%7%" "" "") "" =
        some (sb1, tc) ∧
      whereRecurse zeroFmt (fresh false)
          (mkNode .ilikePID [mkLeaf .cnst .stringType "%7%" "" "",
            mkLeaf .now .stringType "" "" ""]) "" =
        some (sb1, "" ++ "(" ++ (ilikePIDText ++ tc ++ ")") ++ ")") := by
  have h := ilikePID_rendering zeroFmt (fresh false) ""
    (mkNode .ilikePID [mkLeaf .cnst .stringType "%7%" "" "",
      mkLeaf .now .stringType "" "" ""])
    (mkLeaf .cnst .stringType "%7%" "" "") [mkLeaf .now .stringType "" "" ""] rfl rfl
  refine ⟨?_, h.2.1 _ [] rfl rfl, h.2.2.1 (by decide)⟩
  rw [h.1]
  decide

/-- One round of the loop of `projectionsWithCasts`. -/
theorem projectionsLoop_cons (sb : SQLBuilder) (i : Nat) (p : String) (rest : List String)
    (b : String) :
    projectionsLoop sb i (p :: rest) b =
      projectionsLoop sb (i + 1) rest
        (b ++ ((if i > 0 then "," else "") ++ projectionText sb p)) := by
  rw [projectionsLoop]
  simp only [projectionText, WriteString_eq, WriteByte_eq]
  cases mapGet sb.Aliases p with
  | some a =>
    simp only []
    split_ifs <;> first | rfl | (congr 1; simp [String.ext_iff])
  | none =>
    simp only []
    split_ifs <;> first | rfl | (congr 1; simp_all [String.ext_iff])

/-- The loop of `projectionsWithCasts` writes the texts of the fields, a comma
before each but the first of the list. -/
theorem projectionsLoop_eq (sb : SQLBuilder) (proj : List String) :
    ∀ i : Nat, projectionsLoop sb i proj "" =
      (if i > 0 ∧ proj ≠ [] then "," else "") ++
        joinComma (proj.map (projectionText sb)) := by
  induction proj with
  | nil => intro i; simp [projectionsLoop, joinComma]
  | cons p rest ih =>
    intro i
    rw [projectionsLoop_cons, projectionsLoop_append, ih (i + 1), List.map_cons,
      joinComma_cons]
    cases rest with
    | nil => split_ifs <;> simp_all [joinComma]
    | cons q rest2 => split_ifs <;> simp_all [String.append_assoc]

/-- C25. The projection list that `CreateQuery` writes between `SELECT ` and
` FROM ` is the texts of the fields in input order joined by `,`. The text of a
field that is a key of `Aliases` is the registered fragment, whatever its name;
the text of any other field is `documents.` and the name for `id`,
`tracking_id` and `publisher`, `state::text` for `state`, the versions count
followed by `AS versions` for `versions`, for `comments` the bare name in
advisory mode and the comments count followed by `AS comments` otherwise, and
the name itself in every other case. -/
theorem projection_rendering (sb : SQLBuilder) (fields : List String) :
    projectionsWithCasts sb "" fields = joinComma (fields.map (projectionText sb)) ∧
    (∀ (order : String) (limit offset : Int),
      CreateQuery sb fields order limit offset =
        "SELECT " ++ joinComma (fields.map (projectionText sb)) ++ " FROM " ++
          createFrom sb "" ++ " WHERE " ++ sb.WhereClause ++
          (if order ≠ "" then " ORDER BY " ++ order else "") ++
          (if limit ≥ 0 then " LIMIT " ++ FormatInt limit else "") ++
          (if offset > 0 then " OFFSET " ++ FormatInt offset else "")) ∧
    (∀ p a : String, mapGet sb.Aliases p = some a → projectionText sb p = a) ∧
    (∀ p : String, mapGet sb.Aliases p = none →
      projectionText sb p =
        if p = "id" ∨ p = "tracking_id" ∨ p = "publisher" then "documents." ++ p
        else if p = "state" then "state::text"
        else if p = "versions" then
          "(SELECT count(*) FROM documents WHERE documents.publisher = " ++
            "advisories.publisher AND documents.tracking_id = advisories.tracking_id)" ++
            "AS versions"
        else if p = "comments" then
          (if sb.Advisory = true then "comments"
           else "(SELECT count(*) FROM comments WHERE comments.documents_id = documents.id)" ++
            "AS comments")
        else p) := by
  have h : projectionsWithCasts sb "" fields = joinComma (fields.map (projectionText sb)) := by
    unfold projectionsWithCasts
    rw [projectionsLoop_eq]
    simp
  refine ⟨h, ?_, ?_, ?_⟩
  · intro order limit offset
    rw [CreateQuery_eq, h]
  · intro p a hp
    simp [projectionText, hp]
  · intro p hp
    simp only [projectionText, hp, versionsCount, commentsCount]
    split_ifs <;> rfl

/-- The projection theorem on a builder in document mode with the alias
`state` registered, for the fields `id`, `state`, `comments` and `title`. -/
theorem projection_rendering_witness :
    projectionsWithCasts { Aliases := [("state", "ts_headline(x)")] } ""
        ["id", "state", "comments", "title"] =
      "documents.id,ts_headline(x)," ++
        "(SELECT count(*) FROM comments WHERE comments.documents_id = documents.id)" ++
        "AS comments,title" ∧
    projectionText { Aliases := [("state", "ts_headline(x)")] } "state" = "ts_headline(x)" ∧
    projectionText { Aliases := [("state", "ts_headline(x)")] } "versions" =
      "(SELECT count(*) FROM documents WHERE documents.publisher = " ++
        "advisories.publisher AND documents.tracking_id = advisories.tracking_id)" ++
        "AS versions" :=
  ⟨(projection_rendering { Aliases := [("state", "ts_headline(x)")] }
      ["id", "state", "comments", "title"]).1.trans (by decide),
   (projection_rendering { Aliases := [("state", "ts_headline(x)")] } []).2.2.1
      "state" "ts_headline(x)" (by decide),
   ((projection_rendering { Aliases := [("state", "ts_headline(x)")] } []).2.2.2
      "versions" (by decide)).trans (by decide)⟩

theorem replacementIndex_new (sb : SQLBuilder) (s : String)
    (h : mapGet sb.replToIdx s = none) :
    replacementIndex sb s =
      ({ sb with
          Replacements := sb.Replacements ++ [s]
          replToIdx := mapSet sb.replToIdx s sb.replToIdx.length },
        sb.replToIdx.length) := by
  simp [replacementIndex, h]

theorem replacementIndex_old (sb : SQLBuilder) (s : String) (i : Nat)
    (h : mapGet sb.replToIdx s = some i) : replacementIndex sb s = (sb, i) := by
  simp [replacementIndex, h]

/-- With as many values as memo entries, a step of the memo keeps the
correspondence of placeholders and slots and the equality of the two sizes. -/
theorem memoStep_slots (p : List String × List (String × Nat)) (s : String)
    (hlen : p.1.length = p.2.length)
    (hs : ∀ (v : String) (i : Nat), mapGet p.2 v = some i → p.1[i]? = some v) :
    (memoStep p s).1.length = (memoStep p s).2.length ∧
      ∀ (v : String) (i : Nat), mapGet (memoStep p s).2 v = some i →
        (memoStep p s).1[i]? = some v := by
  unfold memoStep
  cases h : mapGet p.2 s with
  | some i => exact ⟨hlen, hs⟩
  | none =>
    refine ⟨?_, ?_⟩
    · simp [length_mapSet_of_none _ _ _ h, hlen]
    · intro v i hv
      simp only at hv ⊢
      by_cases hvs : v = s
      · subst hvs
        rw [mapGet_mapSet_self] at hv
        cases hv
        rw [← hlen]
        simp
      · rw [mapGet_mapSet_ne _ _ _ _ (Ne.symm hvs)] at hv
        have := hs v i hv
        have hi : i < p.1.length := by
          by_contra hc
          rw [List.getElem?_eq_none (by omega)] at this
          cases this
        rw [List.getElem?_append_left hi]
        exact this

theorem foldl_memoStep_slots (l : List String) :
    ∀ p : List String × List (String × Nat), p.1.length = p.2.length →
      (∀ (v : String) (i : Nat), mapGet p.2 v = some i → p.1[i]? = some v) →
      (l.foldl memoStep p).1.length = (l.foldl memoStep p).2.length ∧
        ∀ (v : String) (i : Nat), mapGet (l.foldl memoStep p).2 v = some i →
          (l.foldl memoStep p).1[i]? = some v := by
  induction l with
  | nil => intro p hlen hs; exact ⟨hlen, hs⟩
  | cons a l ih =>
    intro p hlen hs
    simp only [List.foldl_cons]
    exact ih _ (memoStep_slots p a hlen hs).1 (memoStep_slots p a hlen hs).2

theorem exists_fresh_string (L : List String) : ∃ s : String, s ∉ L := by
  obtain ⟨s, hs⟩ := Infinite.exists_not_mem_finset L.toFinset
  exact ⟨s, by simpa using hs⟩

theorem mapGet_none_of_not_mem {β : Type} (m : List (String × β)) (k : String)
    (h : k ∉ m.map Prod.fst) : mapGet m k = none := by
  induction m with
  | nil => rfl
  | cons p rest ih =>
    obtain ⟨k', v'⟩ := p
    simp only [List.map_cons, List.mem_cons, not_or] at h
    simp [mapGet, Ne.symm h.1, ih h.2]

/-- C27. `replacementIndex` gives a value that is not in the memo the number of
memo entries as index and appends it to `Replacements`. On a builder whose
placeholders refer to their slots (`slotsAgree`), every call of
`replacementIndex` keeps that correspondence exactly when `Replacements` has as
many values as the memo has entries; with equal sizes the compilation of a
well-formed tree keeps both the correspondence and the equality. On a builder
with an empty memo whose `Replacements` holds `n > 0` values, a string `const`
compiles to `($1)`, its value is stored at `Replacements[n]`, and
`Replacements[0]` is the value that was there before. -/
theorem new_literal_numbering (fmt : GoFmt) (sb : SQLBuilder) :
    (∀ s : String, mapGet sb.replToIdx s = none →
      replacementIndex sb s =
        ({ sb with
            Replacements := sb.Replacements ++ [s]
            replToIdx := mapSet sb.replToIdx s sb.replToIdx.length },
          sb.replToIdx.length)) ∧
    (slotsAgree sb →
      ((∀ s : String, slotsAgree (replacementIndex sb s).1) ↔
        sb.Replacements.length = sb.replToIdx.length)) ∧
    (∀ e : Expr, wellFormed e = true →
      sb.Replacements.length = sb.replToIdx.length → slotsAgree sb →
      ∃ sb' t, CreateWhere fmt sb e = some (sb', t) ∧ slotsAgree sb' ∧
        sb'.Replacements.length = sb'.replToIdx.length) ∧
    (∀ (e : Expr) (n : Nat), sb.replToIdx = [] → sb.Replacements.length = n → 0 < n →
      e.exprType = .cnst → e.valueType = .stringType →
      ∃ sb', CreateWhere fmt sb e = some (sb', "($1)") ∧
        sb'.Replacements[n]? = some e.stringValue ∧
        sb'.Replacements[0]? = sb.Replacements[0]?) := by
  refine ⟨replacementIndex_new sb, ?_, ?_, ?_⟩
  · intro hs
    constructor
    · intro hall
      obtain ⟨s, hfresh⟩ := exists_fresh_string (sb.Replacements ++ sb.replToIdx.map Prod.fst)
      simp only [List.mem_append, not_or] at hfresh
      have hnone := mapGet_none_of_not_mem _ _ hfresh.2
      have h := hall s
      rw [replacementIndex_new sb s hnone] at h
      have h2 := h s sb.replToIdx.length (by simp [mapGet_mapSet_self])
      simp only at h2
      rcases Nat.lt_trichotomy sb.replToIdx.length sb.Replacements.length with hlt | heq | hgt
      · rw [List.getElem?_append_left hlt] at h2
        exact absurd (List.getElem?_mem h2) hfresh.1
      · exact heq.symm
      · rw [List.getElem?_eq_none (by simp; omega)] at h2
        cases h2
    · intro hlen s
      have hm := replacementIndex_memo sb s
      have := (memoStep_slots (memoOf sb) s hlen hs).2
      rw [← hm] at this
      exact this
  · intro e hwf hlen hs
    refine ⟨_, _, CreateWhere_eq fmt sb e hwf, ?_⟩
    have hm := stateAfter_memo sb e
    have := foldl_memoStep_slots (lits e) (memoOf sb) hlen hs
    rw [← hm] at this
    exact ⟨this.2, this.1⟩
  · intro e n hmemo hn hpos ht hv
    obtain ⟨t, vt, s, i, f, tm, bv, d, lang, al, ch⟩ := e
    simp only [Expr.exprType, Expr.valueType] at ht hv
    subst ht hv
    refine ⟨{ sb with
        Replacements := sb.Replacements ++ [s]
        replToIdx := mapSet sb.replToIdx s sb.replToIdx.length
        WhereClause := "($1)" }, ?_, ?_, ?_⟩
    · have hnone : mapGet sb.replToIdx s = none := by rw [hmemo]; rfl
      simp only [CreateWhere, whereRecurse, cnstWhere, Expr.valueType, Expr.stringValue,
        replacementIndex_new sb s hnone, hmemo]
      simp [Itoa]
      decide
    · simp only [Expr.stringValue]
      rw [← hn]
      simp
    · simp only
      rw [List.getElem?_append_left (by omega)]

/-- The numbering theorem on a builder that holds the value `old` and no memo:
the literal `new` is written as `$1` and stored in the second slot. -/
theorem new_literal_numbering_witness :
    (∃ sb', CreateWhere zeroFmt { Replacements := ["old"] }
        (mkLeaf .cnst .stringType "new" "" "") = some (sb', "($1)") ∧
      sb'.Replacements[1]? = some (mkLeaf .cnst .stringType "new" "" "").stringValue ∧
      sb'.Replacements[0]? = ({ Replacements := ["old"] } : SQLBuilder).Replacements[0]?) ∧
    replacementIndex { Replacements := ["a"], replToIdx := [("a", 0)] } "b" =
      ({ Replacements := ["a"] ++ ["b"], replToIdx := mapSet [("a", 0)] "b" 1 }, 1) ∧
    ((∀ s : String,
        slotsAgree (replacementIndex { Replacements := ["a"], replToIdx := [("a", 0)] } s).1) ↔
      (["a"] : List String).length = ([("a", 0)] : List (String × Nat)).length) ∧
    (∃ sb' t, CreateWhere zeroFmt { Replacements := ["a"], replToIdx := [("a", 0)] }
        equalityConjunction = some (sb', t) ∧ slotsAgree sb' ∧
      sb'.Replacements.length = sb'.replToIdx.length) := by
  have hs : slotsAgree { Replacements := ["a"], replToIdx := [("a", 0)] } := by
    intro v i h
    simp only [mapGet] at h
    split_ifs at h with hv
    · cases h
      subst hv
      rfl
  exact ⟨(new_literal_numbering zeroFmt { Replacements := ["old"] }).2.2.2
      (mkLeaf .cnst .stringType "new" "" "") 1 rfl rfl (by decide) rfl rfl,
    (new_literal_numbering zeroFmt { Replacements := ["a"], replToIdx := [("a", 0)] }).1
      "b" (by decide),
    (new_literal_numbering zeroFmt { Replacements := ["a"], replToIdx := [("a", 0)] }).2.1 hs,
    (new_literal_numbering zeroFmt { Replacements := ["a"], replToIdx := [("a", 0)] }).2.2.1
      equalityConjunction (by decide) rfl hs⟩

theorem requiredChildren_of_shape (t : ExprType) (vt : ValueType) :
    requiredChildren t =
      match shape t vt with
      | .leaf => 0
      | .unary _ _ => 1
      | .binary _ => 2 := by
  cases t <;> rfl

theorem whereRecurse_unary_nil (fmt : GoFmt) (sb : SQLBuilder) (b : String)
    (t : ExprType) (vt : ValueType) (s : String) (i : Int) (f : Float) (tm : Time)
    (bv : Bool) (d : Int) (lang al : String)
    (pre post : String) (h : shape t vt = .unary pre post) :
    whereRecurse fmt sb (Expr.mk t vt s i f tm bv d lang al []) b = none := by
  cases t <;> simp [shape] at h <;>
    simp [whereRecurse, castWhere, notWhere, ilikePIDWhere]

theorem whereRecurse_binary_nil (fmt : GoFmt) (sb : SQLBuilder) (b : String)
    (t : ExprType) (vt : ValueType) (s : String) (i : Int) (f : Float) (tm : Time)
    (bv : Bool) (d : Int) (lang al : String)
    (op : String) (h : shape t vt = .binary op) :
    whereRecurse fmt sb (Expr.mk t vt s i f tm bv d lang al []) b = none := by
  cases t <;> simp [shape] at h <;>
    simp [whereRecurse, binaryWhere, ilikeWhere]

theorem whereRecurse_binary_one (fmt : GoFmt) (sb : SQLBuilder) (b : String)
    (t : ExprType) (vt : ValueType) (s : String) (i : Int) (f : Float) (tm : Time)
    (bv : Bool) (d : Int) (lang al : String) (c : Expr)
    (op : String) (h : shape t vt = .binary op) :
    whereRecurse fmt sb (Expr.mk t vt s i f tm bv d lang al [c]) b = none := by
  cases t <;> simp [shape] at h <;>
    simp [whereRecurse, binaryWhere, ilikeWhere]

/-- The compiler fails on a tree that is not well-formed. -/
theorem whereRecurse_none (fmt : GoFmt) :
    ∀ (e : Expr) (sb : SQLBuilder) (b : String), wellFormed e = false →
      whereRecurse fmt sb e b = none := by
  refine Expr.induct ?_
  intro t vt s i f tm bv d lang al ch ih sb b hwf
  cases hs : shape t vt with
  | leaf => simp [wellFormed, hs] at hwf
  | unary pre post =>
    cases ch with
    | nil => exact whereRecurse_unary_nil fmt sb b t vt s i f tm bv d lang al pre post hs
    | cons c rest =>
      simp only [wellFormed, wellFormedFirst, hs] at hwf
      rw [whereRecurse_unary fmt sb b t vt s i f tm bv d lang al c rest pre post hs,
        ih c (List.mem_cons_self _ _) sb _ hwf]
      rfl
  | binary op =>
    match ch, hwf, ih with
    | [], _, _ => exact whereRecurse_binary_nil fmt sb b t vt s i f tm bv d lang al op hs
    | [c], _, _ => exact whereRecurse_binary_one fmt sb b t vt s i f tm bv d lang al c op hs
    | l :: r :: rest, hwf, ih =>
      simp only [wellFormed, wellFormedPair, hs, Bool.and_eq_false_iff] at hwf
      rw [whereRecurse_binary fmt sb b t vt s i f tm bv d lang al l r rest op hs]
      cases hl : wellFormed l with
      | false =>
        rw [ih l (List.mem_cons_self _ _) sb _ hl]
        rfl
      | true =>
        have hr : wellFormed r = false := by
          rcases hwf with h | h
          · rw [hl] at h; cases h
          · exact h
        rw [whereRecurse_eq fmt l sb _ hl]
        simp only [Option.some_bind]
        rw [ih r (List.mem_cons_of_mem _ (List.mem_cons_self _ _)) _ _ hr]
        rfl

/-- A tree is well-formed exactly when every node the compiler visits has the
children its kind requires. -/
theorem wellFormed_iff_nodes : ∀ e : Expr,
    wellFormed e = true ↔
      ∀ n ∈ nodes e, requiredChildren n.exprType ≤ n.children.length := by
  refine Expr.induct ?_
  intro t vt s i f tm bv d lang al ch ih
  have hreq := requiredChildren_of_shape t vt
  cases hs : shape t vt with
  | leaf =>
    rw [hs] at hreq
    simp [wellFormed, nodes, hs, Expr.exprType, Expr.children, hreq]
  | unary pre post =>
    rw [hs] at hreq
    cases ch with
    | nil => simp [wellFormed, wellFormedFirst, nodes, nodesFirst, hs, Expr.exprType,
        Expr.children, hreq]
    | cons c rest =>
      simp only [wellFormed, wellFormedFirst, nodes, nodesFirst, hs, List.mem_cons,
        forall_eq_or_imp, Expr.exprType, Expr.children, hreq, List.length_cons]
      rw [ih c (List.mem_cons_self _ _)]
      constructor
      · intro h; exact ⟨by omega, h⟩
      · intro h; exact h.2
  | binary op =>
    rw [hs] at hreq
    match ch, ih with
    | [], _ => simp [wellFormed, wellFormedPair, nodes, nodesPair, hs, Expr.exprType,
        Expr.children, hreq]
    | [c], _ => simp [wellFormed, wellFormedPair, nodes, nodesPair, hs, Expr.exprType,
        Expr.children, hreq]
    | l :: r :: rest, ih =>
      simp only [wellFormed, wellFormedPair, nodes, nodesPair, hs, List.mem_cons,
        List.mem_append, forall_eq_or_imp, Expr.exprType, Expr.children, hreq,
        List.length_cons, Bool.and_eq_true]
      rw [ih l (List.mem_cons_self _ _), ih r (List.mem_cons_of_mem _ (List.mem_cons_self _ _))]
      constructor
      · intro h
        refine ⟨by omega, ?_⟩
        intro n hn
        rcases hn with hn | hn
        · exact h.1 n hn
        · exact h.2 n hn
      · intro h
        exact ⟨fun n hn => h.2 n (Or.inl hn), fun n hn => h.2 n (Or.inr hn)⟩

/-- The arity invariant on the whole tree makes it well-formed. -/
theorem wellFormed_of_arityInv : ∀ e : Expr, arityInv e = true → wellFormed e = true := by
  refine Expr.induct ?_
  intro t vt s i f tm bv d lang al ch ih h
  have hreq := requiredChildren_of_shape t vt
  simp only [arityInv, Bool.and_eq_true, decide_eq_true_eq] at h
  cases hs : shape t vt with
  | leaf => simp [wellFormed, hs]
  | unary pre post =>
    rw [hs] at hreq
    cases ch with
    | nil => simp [hreq] at h
    | cons c rest =>
      simp only [arityInvList, Bool.and_eq_true] at h
      simp only [wellFormed, wellFormedFirst, hs]
      exact ih c (List.mem_cons_self _ _) h.2.1
  | binary op =>
    rw [hs] at hreq
    match ch, h, ih with
    | [], h, _ => simp [hreq] at h
    | [c], h, _ => simp [hreq] at h
    | l :: r :: rest, h, ih =>
      simp only [arityInvList, Bool.and_eq_true] at h
      simp only [wellFormed, wellFormedPair, hs, Bool.and_eq_true]
      exact ⟨ih l (List.mem_cons_self _ _) h.2.1,
        ih r (List.mem_cons_of_mem _ (List.mem_cons_self _ _)) h.2.2.1⟩

/-- C28. `CreateWhere` is a total function, defined by structural recursion on
the tree; the result `none` stands for the read of a child that the node does
not have. On a tree in which every `cast`, `not` and `ilikePID` node has at
least one child and every comparison, boolean, arithmetic and `ilike` node at
least two, `CreateWhere` returns a builder and a text on every builder. It
fails exactly when one of the nodes the compiler visits has fewer children than
its kind requires. -/
theorem compile_total_under_arity (fmt : GoFmt) (sb : SQLBuilder) (e : Expr) :
    (arityInv e = true → ∃ sb' t, CreateWhere fmt sb e = some (sb', t)) ∧
    (CreateWhere fmt sb e = none ↔
      ∃ n ∈ nodes e, n.children.length < requiredChildren n.exprType) := by
  constructor
  · intro h
    exact ⟨_, _, CreateWhere_eq fmt sb e (wellFormed_of_arityInv e h)⟩
  · cases hwf : wellFormed e with
    | true =>
      have hall := (wellFormed_iff_nodes e).1 hwf
      rw [CreateWhere_eq fmt sb e hwf]
      constructor
      · intro h; cases h
      · rintro ⟨n, hn, hlt⟩
        have := hall n hn
        omega
    | false =>
      have hnone : CreateWhere fmt sb e = none := by
        simp only [CreateWhere, whereRecurse_none fmt e sb "" hwf]
      constructor
      · intro _
        by_contra hc
        have hall : ∀ n ∈ nodes e, requiredChildren n.exprType ≤ n.children.length := by
          intro n hn
          by_contra hlt
          exact hc ⟨n, hn, by omega⟩
        have := (wellFormed_iff_nodes e).2 hall
        rw [hwf] at this
        cases this
      · intro _
        exact hnone

/-- The totality theorem on a conjunction of two equalities, and its failure
case on a `not` node without a child below an `and` node. -/
theorem compile_total_under_arity_witness :
    (∃ sb' t, CreateWhere zeroFmt (fresh false) equalityConjunction = some (sb', t)) ∧
    CreateWhere zeroFmt (fresh false)
      (mkNode .and [mkLeaf .now .stringType "" "" "", mkNode .not []]) = none :=
  ⟨(compile_total_under_arity zeroFmt (fresh false) equalityConjunction).1 (by decide),
   (compile_total_under_arity zeroFmt (fresh false)
      (mkNode .and [mkLeaf .now .stringType "" "" "", mkNode .not []])).2.2
      ⟨mkNode .not [], by simp [nodes, nodesPair, mkNode, mkLeaf, shape], by decide⟩⟩

theorem mapSet_mapSet_same {β : Type} (m : List (String × β)) (k : String) (v w : β) :
    mapSet (mapSet m k v) k w = mapSet m k w := by
  induction m with
  | nil => simp [mapSet]
  | cons p rest ih =>
    obtain ⟨k', v'⟩ := p
    by_cases h : k' = k
    · simp [mapSet, h]
    · simp [mapSet, h, ih]

theorem mapSet_comm {β : Type} (m : List (String × β)) (k k1 : String) (v v1 : β)
    (hne : k ≠ k1) (h1 : (mapGet m k1).isSome = true) :
    mapSet (mapSet m k v) k1 v1 = mapSet (mapSet m k1 v1) k v := by
  induction m with
  | nil => simp [mapGet] at h1
  | cons p rest ih =>
    obtain ⟨k0, v0⟩ := p
    by_cases h0 : k0 = k
    · subst h0
      simp [mapSet, hne]
    · by_cases h01 : k0 = k1
      · subst h01
        simp [mapSet, h0]
      · simp only [mapGet, h01, if_false] at h1
        simp [mapSet, h0, h01, ih h1]

theorem mapGet_mapSet_isSome {β : Type} (m : List (String × β)) (k k2 : String) (v : β)
    (h : (mapGet m k2).isSome = true) : (mapGet (mapSet m k v) k2).isSome = true := by
  by_cases hk : k = k2
  · subst hk; rw [mapGet_mapSet_self]; rfl
  · rw [mapGet_mapSet_ne _ _ _ _ hk]; exact h

theorem applyOps_cons (m : List (String × String)) (p : String × String)
    (ops : List (String × String)) :
    applyOps m (p :: ops) = applyOps (mapSet m p.1 p.2) ops := rfl

theorem applyOps_append (m : List (String × String)) (ops1 ops2 : List (String × String)) :
    applyOps m (ops1 ++ ops2) = applyOps (applyOps m ops1) ops2 := by
  simp [applyOps, List.foldl_append]

theorem applyOps_isSome (ops : List (String × String)) :
    ∀ (m : List (String × String)) (k : String), (mapGet m k).isSome = true →
      (mapGet (applyOps m ops) k).isSome = true := by
  induction ops with
  | nil => intro m k h; exact h
  | cons p ops ih =>
    intro m k h
    rw [applyOps_cons]
    exact ih _ k (mapGet_mapSet_isSome m p.1 k p.2 h)

theorem applyOps_present (ops : List (String × String)) :
    ∀ (m : List (String × String)), ∀ p ∈ ops,
      (mapGet (applyOps m ops) p.1).isSome = true := by
  induction ops with
  | nil => intro m p hp; cases hp
  | cons q ops ih =>
    intro m p hp
    rw [applyOps_cons]
    rcases List.mem_cons.1 hp with rfl | hp
    · apply applyOps_isSome
      rw [mapGet_mapSet_self]; rfl
    · exact ih _ p hp

/-- An assignment to a key before a list of assignments to present keys is
hidden by a later assignment to the same key. -/
theorem applyOps_mapSet (ops : List (String × String)) :
    ∀ (m : List (String × String)) (k v w : String),
      (∀ p ∈ ops, (mapGet m p.1).isSome = true) →
      mapSet (applyOps (mapSet m k v) ops) k w = mapSet (applyOps m ops) k w := by
  induction ops with
  | nil => intro m k v w _; exact mapSet_mapSet_same m k v w
  | cons q ops ih =>
    intro m k v w hpres
    rw [applyOps_cons, applyOps_cons]
    have hq := hpres q (List.mem_cons_self _ _)
    have hrest : ∀ p ∈ ops, (mapGet (mapSet m q.1 q.2) p.1).isSome = true :=
      fun p hp => mapGet_mapSet_isSome m q.1 p.1 q.2 (hpres p (List.mem_cons_of_mem _ hp))
    by_cases hk : k = q.1
    · subst hk
      rw [mapSet_mapSet_same]
    · rw [mapSet_comm m k q.1 v q.2 hk hq]
      exact ih _ k v w hrest

/-- Carrying out a list of assignments a second time changes nothing. -/
theorem applyOps_idem (ops : List (String × String)) :
    ∀ m : List (String × String), applyOps (applyOps m ops) ops = applyOps m ops := by
  induction ops using List.reverseRecOn with
  | nil => intro m; rfl
  | append_singleton init q ih =>
    intro m
    have h1 : applyOps m (init ++ [q]) = mapSet (applyOps m init) q.1 q.2 := by
      rw [applyOps_append]; rfl
    rw [h1, applyOps_append]
    show mapSet (applyOps (mapSet (applyOps m init) q.1 q.2) init) q.1 q.2 = _
    rw [applyOps_mapSet init (applyOps m init) q.1 q.2 q.2 (applyOps_present init m), ih m]

theorem foldl_memoStep_id (l : List String) :
    ∀ p : List String × List (String × Nat),
      (∀ v ∈ l, ∃ i, mapGet p.2 v = some i) → l.foldl memoStep p = p := by
  induction l with
  | nil => intro p _; rfl
  | cons a l ih =>
    intro p h
    obtain ⟨i, hi⟩ := h a (List.mem_cons_self _ _)
    have hstep : memoStep p a = p := by simp [memoStep, hi]
    simp only [List.foldl_cons, hstep]
    exact ih p (fun v hv => h v (List.mem_cons_of_mem _ hv))

theorem leafState_WhereClause (sb : SQLBuilder) (x : Expr) :
    (leafState sb x).WhereClause = sb.WhereClause := by
  unfold leafState
  cases x.exprType <;> simp
  · split_ifs <;> simp
  · split_ifs <;> simp

theorem foldl_leafState_WhereClause (l : List Expr) : ∀ sb : SQLBuilder,
    (l.foldl leafState sb).WhereClause = sb.WhereClause := by
  induction l with
  | nil => intro sb; rfl
  | cons a l ih => intro sb; simp only [List.foldl_cons]; rw [ih, leafState_WhereClause]

theorem aliasOps_cons (k : String → Nat) (x : Expr) (l : List Expr) :
    aliasOps k (x :: l) = aliasOps k [x] ++ aliasOps k l := by
  simp only [aliasOps, List.filterMap_cons, List.filterMap_nil]
  split <;> simp

/-- The aliases after a leaf: the assignment of the leaf, with the placeholder
number of any later memo. -/
theorem leafState_Aliases (sb : SQLBuilder) (x : Expr) (k : String → Nat)
    (hk : ∀ v ∈ leafLits x, k v = placeholderOf (leafState sb x) v) :
    (leafState sb x).Aliases = applyOps sb.Aliases (aliasOps k [x]) := by
  by_cases hx : x.exprType = .search ∧ x.alias_ ≠ ""
  · have hkx : k x.stringValue = (replacementIndex sb x.stringValue).2 + 1 := by
      rw [hk _ (by simp [leafLits, hx.1])]
      simp only [leafState, hx.1, hx.2, if_false, placeholderOf]
      rw [replacementIndex_get]
      rfl
    simp only [aliasOps, List.filterMap_cons, List.filterMap_nil, hx, and_self, if_true,
      applyOps, List.foldl_cons, List.foldl_nil, hkx]
    simp [leafState, hx.1, hx.2]
  · have hops : aliasOps k [x] = [] := by
      simp only [aliasOps, List.filterMap_cons, List.filterMap_nil, hx, if_false]
    rw [hops]
    show _ = sb.Aliases
    unfold leafState
    cases ht : x.exprType <;> simp
    · split_ifs <;> simp
    · have ha : x.alias_ = "" := by
        by_contra ha
        exact hx ⟨ht, ha⟩
      simp [ha]

theorem foldl_leafState_Aliases (l : List Expr) : ∀ (sb : SQLBuilder),
    (l.foldl leafState sb).Aliases =
      applyOps sb.Aliases (aliasOps (placeholderOf (l.foldl leafState sb)) l) := by
  induction l with
  | nil => intro sb; rfl
  | cons x l ih =>
    intro sb
    simp only [List.foldl_cons]
    rw [ih (leafState sb x), aliasOps_cons, applyOps_append]
    congr 1
    apply leafState_Aliases
    intro v hv
    have hm := leafState_memo sb x
    obtain ⟨i, hi⟩ := foldl_memoStep_get (leafLits x) (memoOf sb) v hv
    rw [← hm] at hi
    have hi2 := foldl_memoStep_keeps (l.flatMap leafLits) (memoOf (leafState sb x)) v i hi
    rw [← foldl_leafState_memo] at hi2
    rw [placeholderOf_eq_of_get _ _ _ hi, placeholderOf_eq_of_get _ _ _ hi2]

theorem SQLBuilder.eq_of_fields (a b : SQLBuilder)
    (h1 : a.WhereClause = b.WhereClause) (h2 : a.Replacements = b.Replacements)
    (h3 : a.replToIdx = b.replToIdx) (h4 : a.Aliases = b.Aliases)
    (h5 : a.Advisory = b.Advisory) (h6 : a.TextTables = b.TextTables) : a = b := by
  cases a; cases b; simp_all

theorem placeholderOf_congr (a b : SQLBuilder) (h : a.replToIdx = b.replToIdx) :
    placeholderOf a = placeholderOf b := by
  funext v
  simp [placeholderOf, h]

/-- Compiling the leaves of a tree again, on the builder the first compilation
leaves, changes no field of the builder. -/
theorem stateAfter_idem (sb : SQLBuilder) (e : Expr) (w : String) :
    stateAfter { stateAfter sb e with WhereClause := w } e =
      { stateAfter sb e with WhereClause := w } := by
  have hmemo : memoOf (stateAfter { stateAfter sb e with WhereClause := w } e) =
      memoOf (stateAfter sb e) := by
    rw [stateAfter_memo]
    apply foldl_memoStep_id
    intro v hv
    obtain ⟨i, hi⟩ := foldl_memoStep_get (lits e) (memoOf sb) v hv
    rw [← stateAfter_memo] at hi
    exact ⟨i, hi⟩
  have hR := congrArg Prod.fst hmemo
  have hI := congrArg Prod.snd hmemo
  simp only [memoOf] at hR hI
  apply SQLBuilder.eq_of_fields
  · exact foldl_leafState_WhereClause (leaves e) _
  · exact hR
  · exact hI
  · show ((leaves e).foldl leafState _).Aliases = (stateAfter sb e).Aliases
    rw [foldl_leafState_Aliases]
    have hk : placeholderOf ((leaves e).foldl leafState
        { stateAfter sb e with WhereClause := w }) = placeholderOf (stateAfter sb e) :=
      placeholderOf_congr _ _ hI
    rw [hk]
    show applyOps (stateAfter sb e).Aliases _ = _
    have h1 : (stateAfter sb e).Aliases =
        applyOps sb.Aliases (aliasOps (placeholderOf (stateAfter sb e)) (leaves e)) :=
      foldl_leafState_Aliases (leaves e) sb
    rw [h1, applyOps_idem]
  · exact foldl_leafState_Advisory (leaves e) _
  · show ((leaves e).foldl leafState _).TextTables = (stateAfter sb e).TextTables
    rw [foldl_leafState_TextTables]
    show ((stateAfter sb e).TextTables || _) = _
    have h1 : (stateAfter sb e).TextTables = (sb.TextTables || (leaves e).any isSearch) :=
      foldl_leafState_TextTables (leaves e) sb
    rw [h1]
    cases sb.TextTables <;> cases (leaves e).any isSearch <;> rfl

/-- On a builder that compiling the leaves does not change and whose
`WhereClause` is the text of the tree, `CreateWhere` returns the builder
itself. -/
theorem CreateWhere_fixed (fmt : GoFmt) (sb1 : SQLBuilder) (e : Expr)
    (h : wellFormed e = true) (hst : stateAfter sb1 e = sb1) (t : String)
    (hw : sb1.WhereClause = t)
    (ht : t = renderWith fmt (placeholderOf sb1) sb1.Advisory e) :
    CreateWhere fmt sb1 e = some (sb1, t) := by
  rw [CreateWhere_eq fmt sb1 e h, hst, ← ht]
  subst hw
  rfl

/-- C26. For a well-formed tree and every builder, `CreateWhere` returns a
builder and a text, and `CreateWhere` on the returned builder returns the same
text and the same builder: `Replacements`, the memo, `Aliases`, `TextTables`,
`WhereClause` and the mode flag are as the first call left them. -/
theorem recompilation_idempotent (fmt : GoFmt) (sb : SQLBuilder) (e : Expr)
    (h : wellFormed e = true) :
    ∃ sb1 t1, CreateWhere fmt sb e = some (sb1, t1) ∧
      CreateWhere fmt sb1 e = some (sb1, t1) := by
  refine ⟨_, _, CreateWhere_eq fmt sb e h, ?_⟩
  apply CreateWhere_fixed fmt _ e h (stateAfter_idem sb e _) _ rfl
  show _ = renderWith fmt _ (stateAfter sb e).Advisory e
  rw [stateAfter_Advisory]
  rfl

/-- The idempotence theorem on a tree with a repeated literal, compiled on a
builder that already holds a value outside its memo. -/
theorem recompilation_idempotent_witness :
    ∃ sb1 t1, CreateWhere zeroFmt { Replacements := ["old"] } repeatedLiteral =
        some (sb1, t1) ∧
      CreateWhere zeroFmt sb1 repeatedLiteral = some (sb1, t1) :=
  recompilation_idempotent zeroFmt { Replacements := ["old"] } repeatedLiteral (by decide)

/-- Replacing the one-character pattern `'` by `''` doubles every single
quote. -/
theorem replaceAllAux_quote (l : List Char) :
    replaceAllAux [singleQuote] [singleQuote, singleQuote] 0 l = doubleQuotes l := by
  induction l with
  | nil => rfl
  | cons c rest ih =>
    by_cases h : c = singleQuote
    · subst h
      simp [replaceAllAux, doubleQuotes, ih]
    · have h2 : ¬ singleQuote = c := fun hc => h hc.symm
      simp [replaceAllAux, doubleQuotes, ih, h, h2]

theorem sqlQuote_data (s : String) :
    (sqlQuote s).data = singleQuote :: (doubleQuotes s.data ++ [singleQuote]) := by
  have hq := replaceAllAux_quote s.data
  simp only [singleQuote] at hq
  simp only [sqlQuote, ReplaceAll, String.data_append]
  rw [if_neg (by simp), hq]
  rfl

theorem doubleQuotes_eq_flatMap (l : List Char) :
    doubleQuotes l =
      l.flatMap (fun c => if c = singleQuote then [singleQuote, singleQuote] else [c]) := by
  induction l with
  | nil => rfl
  | cons c rest ih =>
    by_cases h : c = singleQuote
    · simp [doubleQuotes, h, ih]
    · simp [doubleQuotes, h, ih]

theorem halveQuotes_cons_ne (c : Char) (l : List Char) (h : c ≠ singleQuote) :
    halveQuotes (c :: l) = c :: halveQuotes l := by
  cases l with
  | nil => simp [halveQuotes]
  | cons d rest => simp [halveQuotes, h]

theorem halveQuotes_doubleQuotes (l : List Char) : halveQuotes (doubleQuotes l) = l := by
  induction l with
  | nil => rfl
  | cons c rest ih =>
    by_cases h : c = singleQuote
    · subst h
      simp [doubleQuotes, halveQuotes, ih]
    · simp only [doubleQuotes, h, if_false]
      rw [halveQuotes_cons_ne _ _ h, ih]

theorem sqlUnquote_sqlQuote (s : String) : sqlUnquote (sqlQuote s) = s := by
  simp only [sqlUnquote, sqlQuote_data, List.drop_succ_cons, List.drop_zero,
    List.dropLast_concat, halveQuotes_doubleQuotes]

theorem quoteRunsAux_doubleQuotes (l : List Char) :
    ∀ cur : Nat, quoteRunsAux (2 * cur) (doubleQuotes l) =
      (quoteRunsAux cur l).map (fun n => 2 * n) := by
  induction l with
  | nil =>
    intro cur
    by_cases h : cur = 0
    · simp [quoteRunsAux, doubleQuotes, h]
    · simp [quoteRunsAux, doubleQuotes, h]
  | cons c rest ih =>
    intro cur
    by_cases h : c = singleQuote
    · subst h
      simp only [doubleQuotes, quoteRunsAux, if_true]
      exact ih (cur + 1)
    · simp only [doubleQuotes, quoteRunsAux, h, if_false, List.map_append]
      have := ih 0
      simp only [Nat.mul_zero] at this
      rw [this]
      by_cases hc : cur = 0
      · simp [hc]
      · simp [hc]

/-- Whatever stands before a character other than the single quote, the runs
after it are counted from zero. -/
theorem quoteRunsAux_append (c : Char) (h : c ≠ singleQuote) (rest : List Char)
    (pre : List Char) : ∀ cur : Nat,
    quoteRunsAux cur (pre ++ c :: rest) =
      quoteRunsAux cur (pre ++ [c]) ++ quoteRunsAux 0 rest := by
  induction pre with
  | nil =>
    intro cur
    simp [quoteRunsAux, h]
  | cons a pre ih =>
    intro cur
    by_cases ha : a = singleQuote
    · simp only [List.cons_append, quoteRunsAux, ha, if_true, List.append_eq]
      exact ih (cur + 1)
    · simp only [List.cons_append, quoteRunsAux, ha, if_false, List.append_eq]
      rw [ih 0, List.append_assoc]

/-- A run of `n` single quotes that no single quote follows is counted with
what is open before it. -/
theorem quoteRunsAux_replicate (post : List Char) (hpost : post.head? ≠ some singleQuote)
    (n : Nat) : ∀ cur : Nat,
    quoteRunsAux cur (List.replicate n singleQuote ++ post) =
      (if cur + n = 0 then [] else [cur + n]) ++ quoteRunsAux 0 post := by
  induction n with
  | zero =>
    intro cur
    cases post with
    | nil => simp [quoteRunsAux]
    | cons c r =>
      have hc : c ≠ singleQuote := by
        intro hc; apply hpost; simp [hc]
      simp [quoteRunsAux, hc]
  | succ n ih =>
    intro cur
    simp only [List.replicate_succ, List.cons_append, quoteRunsAux, if_true, List.append_eq]
    rw [ih (cur + 1)]
    have : cur + 1 + n = cur + (n + 1) := by omega
    rw [this]

/-- A maximal run of single quotes is counted by `quoteRuns`. -/
theorem maximal_run_mem (pre post : List Char) (n : Nat) (hn : 0 < n)
    (hpre : pre.getLast? ≠ some singleQuote) (hpost : post.head? ≠ some singleQuote) :
    n ∈ quoteRuns (pre ++ List.replicate n singleQuote ++ post) := by
  unfold quoteRuns
  rw [List.append_assoc]
  rcases List.eq_nil_or_concat pre with rfl | ⟨p, c, rfl⟩
  · rw [List.nil_append, quoteRunsAux_replicate post hpost n 0]
    have : ¬ (0 + n = 0) := by omega
    rw [if_neg this]
    exact List.mem_append_left _ (by simp)
  · have hc : c ≠ singleQuote := by
      intro hc; apply hpre; simp [hc]
    rw [List.concat_eq_append, List.append_assoc, List.singleton_append,
      quoteRunsAux_append c hc _ p 0, quoteRunsAux_replicate post hpost n 0]
    have : ¬ (0 + n = 0) := by omega
    rw [if_neg this]
    exact List.mem_append_right _ (List.mem_append_left _ (by simp))

theorem quoteRuns_doubleQuotes_even (l : List Char) :
    ∀ n ∈ quoteRuns (doubleQuotes l), Even n := by
  intro n hn
  have h := quoteRunsAux_doubleQuotes l 0
  simp only [Nat.mul_zero] at h
  unfold quoteRuns at hn
  rw [h, List.mem_map] at hn
  obtain ⟨m, _, rfl⟩ := hn
  exact even_two_mul m

/-- C30. `sqlQuote s` is `'`, then `s` with every single quote written twice,
then `'`. Between its first and its last character every maximal run of single
quotes (a run of `n` single quotes with no single quote right before it and
none right after it) has even length. Removing the first and the last
character and halving every doubled quote returns `s`, so two texts with the
same quoting are equal. -/
theorem sqlQuote_escapes (s : String) :
    sqlQuote s =
      "'" ++ String.mk (s.data.flatMap (fun c =>
        if c = singleQuote then [singleQuote, singleQuote] else [c])) ++ "'" ∧
    (∀ (pre post : List Char) (n : Nat),
      ((sqlQuote s).data.drop 1).dropLast = pre ++ List.replicate n singleQuote ++ post →
      pre.getLast? ≠ some singleQuote → post.head? ≠ some singleQuote → Even n) ∧
    (∀ n ∈ quoteRuns ((sqlQuote s).data.drop 1).dropLast, Even n) ∧
    sqlUnquote (sqlQuote s) = s ∧
    (∀ s2 : String, sqlQuote s2 = sqlQuote s → s2 = s) := by
  have hin : ((sqlQuote s).data.drop 1).dropLast = doubleQuotes s.data := by
    simp only [sqlQuote_data, List.drop_succ_cons, List.drop_zero, List.dropLast_concat]
  refine ⟨?_, ?_, ?_, sqlUnquote_sqlQuote s, ?_⟩
  · apply String.ext
    rw [sqlQuote_data, doubleQuotes_eq_flatMap]
    have h1 : "'".data = [singleQuote] := by decide
    rw [String.data_append, String.data_append, h1]
    rfl
  · intro pre post n hdec hpre hpost
    rcases Nat.eq_zero_or_pos n with rfl | hn
    · exact even_zero
    · apply quoteRuns_doubleQuotes_even s.data
      rw [← hin, hdec]
      exact maximal_run_mem pre post n hn hpre hpost
  · rw [hin]
    exact quoteRuns_doubleQuotes_even s.data
  · intro s2 h
    rw [← sqlUnquote_sqlQuote s2, h, sqlUnquote_sqlQuote]

/-- The quoting theorem on the password `it's`: the quoted text is `'it''s'`,
its run of two single quotes is even, and unquoting returns the password. -/
theorem sqlQuote_escapes_witness :
    sqlQuote "it's" = "'it''s'" ∧ Even 2 ∧ sqlUnquote (sqlQuote "it's") = "it's" :=
  ⟨(sqlQuote_escapes "it's").1.trans (by decide),
   (sqlQuote_escapes "it's").2.1 ['i', 't'] ['s'] 2 (by decide) (by decide) (by decide),
   (sqlQuote_escapes "it's").2.2.2.1⟩

theorem Time.eq_of_Equal (t u : Time) (ht : t.zone = 0) (hu : u.zone = 0)
    (h : Time.Equal t u = true) : t = u := by
  obtain ⟨ts, tn, tz⟩ := t
  obtain ⟨us, un, uz⟩ := u
  simp only [Time.Equal, decide_eq_true_eq] at h
  simp only at ht hu
  obtain ⟨h1, h2⟩ := h
  subst h1 h2 ht hu
  rfl

theorem Time.Equal_comm (t u : Time) : Time.Equal t u = Time.Equal u t := by
  simp only [Time.Equal]
  rw [decide_eq_decide]
  constructor
  · rintro ⟨h1, h2⟩; exact ⟨h1.symm, h2.symm⟩
  · rintro ⟨h1, h2⟩; exact ⟨h1.symm, h2.symm⟩

theorem groupRows_append (a b : List Group) : groupRows (a ++ b) = groupRows a ++ groupRows b := by
  simp [groupRows]

theorem groupRows_singleton (t : Time) (bins : List Bin) :
    groupRows [(t, bins)] = bins.map (fun p => (t, p)) := by
  simp [groupRows]

theorem groupRows_snd (gs : List Group) :
    (groupRows gs).map Prod.snd = gs.flatMap (fun g => g.2) := by
  induction gs with
  | nil => rfl
  | cons g gs ih =>
    simp only [groupRows, List.flatMap_cons, List.map_append, List.map_map] at ih ⊢
    rw [ih]
    congr 1
    simp [Function.comp_def]

/-- The invariant of the loop of `collectCritcalBuckets` after the rows `pre`:
the groups of the state hold the rows read so far in order, each with the
bucket of its row in UTC, adjacent groups have different buckets and no group
is empty. -/
theorem add_inv (pre : List CritRow) (st : BucketState) (r : CritRow)
    (h1 : groupRows (groupsOf st) = pre.map (fun r => (r.bucket.UTC, (r.critical, r.count))))
    (h2 : List.Chain' (fun a b => Time.Equal a b = false) ((groupsOf st).map Prod.fst))
    (h3 : ∀ g ∈ groupsOf st, g.2 ≠ [])
    (h4 : st.bins = [] → st.list = [])
    (h5 : st.bins ≠ [] → st.last.zone = 0) :
    groupRows (groupsOf (add st r.bucket.UTC r.critical r.count)) =
        (pre ++ [r]).map (fun r => (r.bucket.UTC, (r.critical, r.count))) ∧
      List.Chain' (fun a b => Time.Equal a b = false)
        ((groupsOf (add st r.bucket.UTC r.critical r.count)).map Prod.fst) ∧
      (∀ g ∈ groupsOf (add st r.bucket.UTC r.critical r.count), g.2 ≠ []) ∧
      ((add st r.bucket.UTC r.critical r.count).bins = [] →
        (add st r.bucket.UTC r.critical r.count).list = []) ∧
      ((add st r.bucket.UTC r.critical r.count).bins ≠ [] →
        (add st r.bucket.UTC r.critical r.count).last.zone = 0) := by
  obtain ⟨list, bins, last⟩ := st
  cases bins with
  | nil =>
    have hl : list = [] := h4 rfl
    subst hl
    simp only [groupsOf, List.length_nil, Nat.lt_irrefl, if_false, groupRows,
      List.flatMap_nil] at h1
    have hpre : pre = [] := by
      cases pre with
      | nil => rfl
      | cons a l => simp at h1
    subst hpre
    simp [add, groupsOf, groupRows, Time.UTC]
  | cons b bs =>
    have hz : last.zone = 0 := h5 (by simp)
    simp only [groupsOf, List.length_cons, Nat.succ_pos, if_true] at h1 h2 h3
    rw [groupRows_append, groupRows_singleton] at h1
    by_cases he : Time.Equal r.bucket.UTC last = true
    · have hlast : r.bucket.UTC = last := Time.eq_of_Equal _ _ rfl hz he
      have hst : add ⟨list, b :: bs, last⟩ r.bucket.UTC r.critical r.count =
          ⟨list, (b :: bs) ++ [(r.critical, r.count)], last⟩ := by
        simp only [add, he, or_true, if_true]
        rw [hlast]
      rw [hst]
      simp only [groupsOf, List.cons_append, List.length_cons, Nat.succ_pos, if_true]
      refine ⟨?_, ?_, ?_, ?_, ?_⟩
      · rw [groupRows_append, groupRows_singleton, List.map_append, ← h1]
        simp [hlast]
      · simpa using h2
      · intro g hg
        rcases List.mem_append.1 hg with hg | hg
        · exact h3 g (List.mem_append_left _ hg)
        · simp only [List.mem_singleton] at hg
          subst hg
          simp
      · intro h; cases h
      · intro _; exact hz
    · have hst : add ⟨list, b :: bs, last⟩ r.bucket.UTC r.critical r.count =
          ⟨list ++ [(last, b :: bs)], [(r.critical, r.count)], r.bucket.UTC⟩ := by
        simp [add, he]
      rw [hst]
      simp only [groupsOf, List.length_cons, List.length_nil, Nat.succ_pos, if_true]
      refine ⟨?_, ?_, ?_, ?_, ?_⟩
      · rw [groupRows_append, groupRows_append, groupRows_singleton, groupRows_singleton,
          List.map_append, ← h1]
        simp
      · rw [List.map_append]
        apply List.Chain'.append h2 (List.chain'_singleton _)
        intro x hx y hy
        simp only [List.map_append, List.map_cons, List.map_nil, List.getLast?_concat,
          Option.mem_def, Option.some.injEq] at hx
        simp only [List.map_cons, List.map_nil, List.head?_cons, Option.mem_def,
          Option.some.injEq] at hy
        subst hx hy
        rw [Time.Equal_comm]
        simpa using he
      · intro g hg
        rcases List.mem_append.1 hg with hg | hg
        · exact h3 g hg
        · simp only [List.mem_singleton] at hg
          subst hg
          simp
      · intro h; cases h
      · intro _; rfl

/-- When every scan succeeds the loop returns the state after `add` on every
row in order. -/
theorem collectLoop_some (rows : List CritRow) : ∀ st : BucketState,
    collectLoop (rows.map some) st =
      some (rows.foldl (fun st r => add st r.bucket.UTC r.critical r.count) st) := by
  induction rows with
  | nil => intro st; rfl
  | cons r rows ih =>
    intro st
    simp only [List.map_cons, collectLoop, List.foldl_cons]
    exact ih _

theorem foldl_add_inv (rows : List CritRow) : ∀ (pre : List CritRow) (st : BucketState),
    groupRows (groupsOf st) = pre.map (fun r => (r.bucket.UTC, (r.critical, r.count))) →
    List.Chain' (fun a b => Time.Equal a b = false) ((groupsOf st).map Prod.fst) →
    (∀ g ∈ groupsOf st, g.2 ≠ []) →
    (st.bins = [] → st.list = []) →
    (st.bins ≠ [] → st.last.zone = 0) →
    groupRows (groupsOf (rows.foldl (fun st r => add st r.bucket.UTC r.critical r.count) st)) =
        (pre ++ rows).map (fun r => (r.bucket.UTC, (r.critical, r.count))) ∧
      List.Chain' (fun a b => Time.Equal a b = false)
        ((groupsOf (rows.foldl (fun st r => add st r.bucket.UTC r.critical r.count) st)).map
          Prod.fst) ∧
      (∀ g ∈ groupsOf (rows.foldl (fun st r => add st r.bucket.UTC r.critical r.count) st),
        g.2 ≠ []) := by
  induction rows with
  | nil =>
    intro pre st h1 h2 h3 _ _
    simp only [List.foldl_nil, List.append_nil]
    exact ⟨h1, h2, h3⟩
  | cons r rows ih =>
    intro pre st h1 h2 h3 h4 h5
    obtain ⟨k1, k2, k3, k4, k5⟩ := add_inv pre st r h1 h2 h3 h4 h5
    have := ih (pre ++ [r]) _ k1 k2 k3 k4 k5
    simpa only [List.foldl_cons, List.append_assoc, List.singleton_append] using this

/-- C29. When every row of the result set is scanned, `collectCritcalBuckets`
returns a list of groups such that: the bins of the groups, concatenated in
order, are the pairs of critical and count of the rows in input order; every
row stands in a group with the bucket of the row (in UTC); the buckets of
adjacent groups are different instants; no group has an empty list of bins.
On no rows the result is the empty list. -/
theorem collect_groups_consecutive (rows : List CritRow) :
    (∃ groups : List Group, collectCritcalBuckets (rows.map some) = some groups ∧
      groups.flatMap (fun g => g.2) = rows.map (fun r => (r.critical, r.count)) ∧
      groups.flatMap (fun g => g.2.map (fun p => (g.1, p))) =
        rows.map (fun r => (r.bucket.UTC, (r.critical, r.count))) ∧
      List.Chain' (fun g h : Group => Time.Equal g.1 h.1 = false) groups ∧
      (∀ g ∈ groups, g.2 ≠ [])) ∧
    collectCritcalBuckets [] = some [] := by
  refine ⟨?_, rfl⟩
  have hst := collectLoop_some rows ⟨[], [], zeroTime⟩
  obtain ⟨k1, k2, k3⟩ := foldl_add_inv rows [] ⟨[], [], zeroTime⟩ rfl
    (by simp [groupsOf]) (by simp [groupsOf]) (fun _ => rfl) (fun h => absurd rfl h)
  refine ⟨groupsOf (rows.foldl (fun st r => add st r.bucket.UTC r.critical r.count)
    ⟨[], [], zeroTime⟩), ?_, ?_, ?_, ?_, k3⟩
  · simp only [collectCritcalBuckets, hst, groupsOf]
    split_ifs <;> rfl
  · rw [← groupRows_snd, k1]
    simp
  · exact k1
  · exact (List.chain'_map _).1 k2

/-- The grouping theorem on three rows: two of the bucket `1`, read in two
locations, and one of the bucket `2`. -/
theorem collect_groups_consecutive_witness :
    collectCritcalBuckets [some ⟨⟨1, 0, 3600⟩, none, 2⟩, some ⟨⟨1, 0, 0⟩, none, 3⟩,
        some ⟨⟨2, 0, 0⟩, none, 4⟩] =
      some [(⟨1, 0, 0⟩, [(none, 2), (none, 3)]), (⟨2, 0, 0⟩, [(none, 4)])] ∧
    ∃ groups : List Group,
      collectCritcalBuckets
        (([⟨⟨1, 0, 3600⟩, none, 2⟩, ⟨⟨1, 0, 0⟩, none, 3⟩, ⟨⟨2, 0, 0⟩, none, 4⟩] :
          List CritRow).map some) = some groups ∧
      ∀ g ∈ groups, g.2 ≠ [] :=
  ⟨rfl, (collect_groups_consecutive
      [⟨⟨1, 0, 3600⟩, none, 2⟩, ⟨⟨1, 0, 0⟩, none, 3⟩, ⟨⟨2, 0, 0⟩, none, 4⟩]).1.imp
    (fun _ h => ⟨h.1, h.2.2.2.2⟩)⟩

/-- The steps of `normalize` keep the number `p / q * 2 ^ e`. -/
theorem normalize_val : ∀ (fuel p q : Nat) (e : Int), 0 < q →
    0 < (normalize fuel p q e).2.1 ∧
      ((normalize fuel p q e).1 : ℚ) / ((normalize fuel p q e).2.1 : ℚ) *
          (2 : ℚ) ^ (normalize fuel p q e).2.2 =
        (p : ℚ) / (q : ℚ) * (2 : ℚ) ^ e := by
  intro fuel
  induction fuel with
  | zero => intro p q e hq; exact ⟨hq, rfl⟩
  | succ fuel ih =>
    intro p q e hq
    have hq' : (q : ℚ) ≠ 0 := by exact_mod_cast hq.ne'
    unfold normalize
    split_ifs with h1 h2
    · obtain ⟨k1, k2⟩ := ih p (2 * q) (e + 1) (by omega)
      refine ⟨k1, ?_⟩
      rw [k2, zpow_add_one₀ (by norm_num : (2 : ℚ) ≠ 0)]
      push_cast
      field_simp
      ring
    · obtain ⟨k1, k2⟩ := ih (2 * p) q (e - 1) hq
      refine ⟨k1, ?_⟩
      rw [k2, zpow_sub_one₀ (by norm_num : (2 : ℚ) ≠ 0)]
      push_cast
      field_simp
      ring
    · exact ⟨hq, rfl⟩

/-- Doubling `p` at most `k` times ends the steps of `normalize`. -/
theorem normalize_stop_up : ∀ (k fuel p q : Nat) (e : Int), k ≤ fuel →
    p < q * 2 ^ 53 → q * 2 ^ 52 < p * 2 ^ k →
    (normalize fuel p q e).1 < (normalize fuel p q e).2.1 * 2 ^ 53 ∧
      ((normalize fuel p q e).2.1 * 2 ^ 52 ≤ (normalize fuel p q e).1 ∨
        (normalize fuel p q e).2.2 ≤ -1074) := by
  intro k
  induction k with
  | zero =>
    intro fuel p q e _ h1 h2
    have h3 : q * 2 ^ 52 ≤ p := by omega
    cases fuel with
    | zero => exact ⟨h1, Or.inl h3⟩
    | succ fuel =>
      unfold normalize
      have hn1 : ¬ (q * 2 ^ 53 ≤ p) := by omega
      have hn2 : ¬ (p < q * 2 ^ 52 ∧ -1074 < e) := fun h => by omega
      simp only [hn1, hn2, if_false]
      exact ⟨h1, Or.inl h3⟩
  | succ k ih =>
    intro fuel p q e hk h1 h2
    cases fuel with
    | zero => omega
    | succ fuel =>
      unfold normalize
      have hn1 : ¬ (q * 2 ^ 53 ≤ p) := by omega
      simp only [hn1, if_false]
      by_cases h3 : p < q * 2 ^ 52 ∧ -1074 < e
      · simp only [h3, and_self, if_true]
        apply ih fuel (2 * p) q (e - 1) (by omega)
        · omega
        · have : p * 2 ^ (k + 1) = 2 * p * 2 ^ k := by ring
          omega
      · simp only [h3, if_false]
        refine ⟨h1, ?_⟩
        by_cases h4 : p < q * 2 ^ 52
        · right
          by_contra h5
          exact h3 ⟨h4, by omega⟩
        · left; omega

/-- Doubling `q` at most `k` times ends the steps of `normalize`. -/
theorem normalize_stop_down : ∀ (k fuel p q : Nat) (e : Int), k ≤ fuel →
    p < q * 2 ^ 53 * 2 ^ k → q * 2 ^ 52 ≤ p →
    (normalize fuel p q e).1 < (normalize fuel p q e).2.1 * 2 ^ 53 ∧
      ((normalize fuel p q e).2.1 * 2 ^ 52 ≤ (normalize fuel p q e).1 ∨
        (normalize fuel p q e).2.2 ≤ -1074) := by
  intro k
  induction k with
  | zero =>
    intro fuel p q e _ h1 h2
    have h3 : p < q * 2 ^ 53 := by omega
    cases fuel with
    | zero => exact ⟨h3, Or.inl h2⟩
    | succ fuel =>
      unfold normalize
      have hn1 : ¬ (q * 2 ^ 53 ≤ p) := by omega
      have hn2 : ¬ (p < q * 2 ^ 52 ∧ -1074 < e) := fun h => by omega
      simp only [hn1, hn2, if_false]
      exact ⟨h3, Or.inl h2⟩
  | succ k ih =>
    intro fuel p q e hk h1 h2
    cases fuel with
    | zero => omega
    | succ fuel =>
      unfold normalize
      by_cases h3 : q * 2 ^ 53 ≤ p
      · simp only [h3, if_true]
        apply ih fuel p (2 * q) (e + 1) (by omega)
        · have : q * 2 ^ 53 * 2 ^ (k + 1) = 2 * q * 2 ^ 53 * 2 ^ k := by ring
          omega
        · omega
      · have hn2 : ¬ (p < q * 2 ^ 52 ∧ -1074 < e) := fun h => by omega
        simp only [h3, hn2, if_false]
        exact ⟨by omega, Or.inl h2⟩

/-- The bound `p + q + 53` on the steps suffices: `roundF64` rounds a quotient
that has 53 bits, or less at the least exponent, and that stands for the
number given. -/
theorem roundF64_spec (neg : Bool) (p q : Nat) (e : Int) (hp : 0 < p) (hq : 0 < q) :
    ∃ (p' q' : Nat) (e' : Int), 0 < q' ∧
      (p' : ℚ) / (q' : ℚ) * (2 : ℚ) ^ e' = (p : ℚ) / (q : ℚ) * (2 : ℚ) ^ e ∧
      p' < q' * 2 ^ 53 ∧ (q' * 2 ^ 52 ≤ p' ∨ e' ≤ -1074) ∧
      roundF64 neg p q e = ⟨neg, roundHalfEven p' q', e'⟩ := by
  obtain ⟨k1, k2⟩ := normalize_val (p + q + 53) p q e hq
  refine ⟨_, _, _, k1, k2, ?_, ?_, rfl⟩
  · by_cases h : q * 2 ^ 53 ≤ p
    · have hpow : p < 2 ^ p := Nat.lt_two_pow p
      have h1 : p < q * 2 ^ 53 * 2 ^ p := by
        calc p < 2 ^ p := hpow
          _ ≤ q * 2 ^ 53 * 2 ^ p := Nat.le_mul_of_pos_left _ (by positivity)
      exact (normalize_stop_down p (p + q + 53) p q e (by omega) h1 (by omega)).1
    · have hpow : q < 2 ^ q := Nat.lt_two_pow q
      have h1 : q * 2 ^ 52 < p * 2 ^ (q + 53) := by
        calc q * 2 ^ 52 < 2 ^ q * 2 ^ 53 := by
              have : q * 2 ^ 52 < 2 ^ q * 2 ^ 52 := Nat.mul_lt_mul_of_pos_right hpow (by positivity)
              have : 2 ^ q * 2 ^ 52 ≤ 2 ^ q * 2 ^ 53 :=
                Nat.mul_le_mul_left _ (Nat.pow_le_pow_right (by decide) (by decide))
              omega
          _ = 2 ^ (q + 53) := by rw [pow_add]
          _ ≤ p * 2 ^ (q + 53) := Nat.le_mul_of_pos_left _ hp
      exact (normalize_stop_up (q + 53) (p + q + 53) p q e (by omega) (by omega) h1).1
  · by_cases h : q * 2 ^ 53 ≤ p
    · have hpow : p < 2 ^ p := Nat.lt_two_pow p
      have h1 : p < q * 2 ^ 53 * 2 ^ p := by
        calc p < 2 ^ p := hpow
          _ ≤ q * 2 ^ 53 * 2 ^ p := Nat.le_mul_of_pos_left _ (by positivity)
      exact (normalize_stop_down p (p + q + 53) p q e (by omega) h1 (by omega)).2
    · have hpow : q < 2 ^ q := Nat.lt_two_pow q
      have h1 : q * 2 ^ 52 < p * 2 ^ (q + 53) := by
        calc q * 2 ^ 52 < 2 ^ q * 2 ^ 53 := by
              have : q * 2 ^ 52 < 2 ^ q * 2 ^ 52 := Nat.mul_lt_mul_of_pos_right hpow (by positivity)
              have : 2 ^ q * 2 ^ 52 ≤ 2 ^ q * 2 ^ 53 :=
                Nat.mul_le_mul_left _ (Nat.pow_le_pow_right (by decide) (by decide))
              omega
          _ = 2 ^ (q + 53) := by rw [pow_add]
          _ ≤ p * 2 ^ (q + 53) := Nat.le_mul_of_pos_left _ hp
      exact (normalize_stop_up (q + 53) (p + q + 53) p q e (by omega) (by omega) h1).2

/-- The rounding `roundHalfEven p q` is within one half of the quotient. -/
theorem roundHalfEven_bound (p q : Nat) (hq : 0 < q) :
    |(roundHalfEven p q : ℚ) - (p : ℚ) / (q : ℚ)| ≤ 1 / 2 := by
  have hq' : (0 : ℚ) < (q : ℚ) := by exact_mod_cast hq
  have hdiv : (p : ℚ) / (q : ℚ) = ((p / q : Nat) : ℚ) + ((p % q : Nat) : ℚ) / (q : ℚ) := by
    have h := Nat.div_add_mod p q
    have h2 : (p : ℚ) = (q : ℚ) * ((p / q : Nat) : ℚ) + ((p % q : Nat) : ℚ) := by
      exact_mod_cast h.symm
    field_simp
    linarith
  have hr : ((p % q : Nat) : ℚ) < (q : ℚ) := by exact_mod_cast Nat.mod_lt p hq
  have hr0 : (0 : ℚ) ≤ ((p % q : Nat) : ℚ) := by positivity
  have hfrac0 : (0 : ℚ) ≤ ((p % q : Nat) : ℚ) / (q : ℚ) := div_nonneg hr0 hq'.le
  have hfrac1 : ((p % q : Nat) : ℚ) / (q : ℚ) < 1 := (div_lt_one hq').2 hr
  rw [hdiv, abs_le]
  unfold roundHalfEven
  by_cases h1 : 2 * (p % q) < q
  · have : ((p % q : Nat) : ℚ) / (q : ℚ) < 1 / 2 := by
      rw [div_lt_iff₀ hq']
      have : (2 : ℚ) * ((p % q : Nat) : ℚ) < (q : ℚ) := by exact_mod_cast h1
      linarith
    simp only [h1, if_true]
    constructor <;> linarith
  · by_cases h2 : q < 2 * (p % q)
    · have : 1 / 2 < ((p % q : Nat) : ℚ) / (q : ℚ) := by
        rw [lt_div_iff₀ hq']
        have : (q : ℚ) < (2 : ℚ) * ((p % q : Nat) : ℚ) := by exact_mod_cast h2
        linarith
      simp only [h1, h2, if_true, if_false, Nat.cast_add, Nat.cast_one]
      constructor <;> linarith
    · have heq : 2 * (p % q) = q := by omega
      have : ((p % q : Nat) : ℚ) / (q : ℚ) = 1 / 2 := by
        rw [div_eq_iff hq'.ne']
        have : (2 : ℚ) * ((p % q : Nat) : ℚ) = (q : ℚ) := by exact_mod_cast heq
        linarith
      simp only [h1, h2, if_false]
      split_ifs
      · constructor <;> linarith
      · simp only [Nat.cast_add, Nat.cast_one]
        constructor <;> linarith

/-- The hundredths that `%.2f` writes are the nearest to the value of the
`float64`. -/
theorem hundredths_bound (x : F64) :
    |(hundredths x : ℚ) - |x.val| * 100| ≤ 1 / 2 := by
  have habs : |x.val| = (x.mant : ℚ) * (2 : ℚ) ^ x.exp := by
    have h2 : (0 : ℚ) < (2 : ℚ) ^ x.exp := by positivity
    have hm : (0 : ℚ) ≤ (x.mant : ℚ) := by positivity
    unfold F64.val
    cases x.neg
    · simp [abs_of_nonneg (mul_nonneg hm h2.le)]
    · simp [abs_of_nonneg (mul_nonneg hm h2.le)]
  rw [habs]
  unfold hundredths
  by_cases he : 0 ≤ x.exp
  · simp only [he, if_true]
    have hexp : (2 : ℚ) ^ x.exp = ((2 ^ x.exp.toNat : Nat) : ℚ) := by
      conv_lhs => rw [← Int.toNat_of_nonneg he]
      rw [zpow_natCast]
      push_cast
      rfl
    rw [hexp]
    push_cast
    have : (x.mant : ℚ) * 100 * 2 ^ x.exp.toNat - (x.mant : ℚ) * 2 ^ x.exp.toNat * 100 = 0 := by
      ring
    rw [this]
    simp
  · simp only [he, if_false]
    have hneg : x.exp = -(((-x.exp).toNat : Nat) : Int) := by
      rw [Int.toNat_of_nonneg (by omega)]
      omega
    have hexp : (2 : ℚ) ^ x.exp = 1 / ((2 ^ (-x.exp).toNat : Nat) : ℚ) := by
      conv_lhs => rw [hneg]
      rw [zpow_neg, zpow_natCast]
      push_cast
      rw [one_div]
    have hpos : 0 < 2 ^ (-x.exp).toNat := Nat.pow_pos (by decide)
    have hb := roundHalfEven_bound (x.mant * 100) (2 ^ (-x.exp).toNat) hpos
    have hval : (x.mant : ℚ) * (2 : ℚ) ^ x.exp * 100 =
        ((x.mant * 100 : Nat) : ℚ) / ((2 ^ (-x.exp).toNat : Nat) : ℚ) := by
      rw [hexp]
      push_cast
      ring
    rw [hval]
    exact hb

theorem repr_digit_length : ∀ k : Nat, k < 10 → (Nat.repr k).length = 1 := by
  decide

theorem roundHalfEven_zero (q : Nat) (hq : 0 < q) : roundHalfEven 0 q = 0 := by
  unfold roundHalfEven
  simp [hq]

theorem roundHalfEven_one (p : Nat) : roundHalfEven p 1 = p := by
  unfold roundHalfEven
  simp [Nat.mod_one]

/-- The sign factor of a `float64`. -/
theorem F64.val_eq (neg : Bool) (m : Nat) (e : Int) :
    (F64.mk neg m e).val = (if neg then -1 else 1) * ((m : ℚ) * (2 : ℚ) ^ e) := by
  simp only [F64.val]
  ring

theorem roundF64_neg (neg : Bool) (p q : Nat) (e : Int) : (roundF64 neg p q e).neg = neg := rfl

/-- Rounding zero gives zero. -/
theorem roundF64_zero (neg : Bool) (q : Nat) (e : Int) (hq : 0 < q) :
    (roundF64 neg 0 q e).mant = 0 := by
  obtain ⟨k1, k2⟩ := normalize_val (0 + q + 53) 0 q e hq
  have h0 : (normalize (0 + q + 53) 0 q e).1 = 0 := by
    have hq' : ((normalize (0 + q + 53) 0 q e).2.1 : ℚ) ≠ 0 := by exact_mod_cast k1.ne'
    have h2 : (2 : ℚ) ^ (normalize (0 + q + 53) 0 q e).2.2 ≠ 0 := by positivity
    simp only [Nat.cast_zero, zero_div, zero_mul] at k2
    rcases mul_eq_zero.1 k2 with h | h
    · rcases div_eq_zero_iff.1 h with h | h
      · exact_mod_cast h
      · exact absurd h hq'
    · exact absurd h h2
  show roundHalfEven _ _ = 0
  rw [h0]
  exact roundHalfEven_zero _ k1

/-- The relative error of the rounding of `float64` arithmetic: the magnitude
of `roundF64 neg p q e` is within `2 ^ (-53)` times the number `p / q * 2 ^ e`
of that number, when the number is not below the least normal `float64`. -/
theorem roundF64_err (neg : Bool) (p q : Nat) (e : Int) (hp : 0 < p) (hq : 0 < q)
    (hX : (2 : ℚ) ^ (-1022 : Int) ≤ (p : ℚ) / (q : ℚ) * (2 : ℚ) ^ e) :
    |((roundF64 neg p q e).mant : ℚ) * (2 : ℚ) ^ (roundF64 neg p q e).exp -
        (p : ℚ) / (q : ℚ) * (2 : ℚ) ^ e| ≤
      (p : ℚ) / (q : ℚ) * (2 : ℚ) ^ e * (2 : ℚ) ^ (-53 : Int) := by
  obtain ⟨p', q', e', hq', hval, hlt, hor, hR⟩ := roundF64_spec neg p q e hp hq
  rw [hR]
  simp only
  rw [← hval] at hX ⊢
  have hqq : (0 : ℚ) < (q' : ℚ) := by exact_mod_cast hq'
  have h2 : (0 : ℚ) < (2 : ℚ) ^ e' := by positivity
  have hb := roundHalfEven_bound p' q' hq'
  have hnorm : q' * 2 ^ 52 ≤ p' := by
    rcases hor with h | h
    · exact h
    · by_contra hc
      have hc' : p' < q' * 2 ^ 52 := by omega
      have h1 : (p' : ℚ) / (q' : ℚ) < (2 : ℚ) ^ (52 : Int) := by
        rw [div_lt_iff₀ hqq]
        have : (p' : ℚ) < (q' : ℚ) * 2 ^ 52 := by exact_mod_cast hc'
        calc (p' : ℚ) < (q' : ℚ) * 2 ^ 52 := this
          _ = (2 : ℚ) ^ (52 : Int) * (q' : ℚ) := by norm_num; ring
      have h3 : (2 : ℚ) ^ e' ≤ (2 : ℚ) ^ (-1074 : Int) :=
        zpow_le_zpow_right₀ (by norm_num) h
      have h4 : (p' : ℚ) / (q' : ℚ) * (2 : ℚ) ^ e' <
          (2 : ℚ) ^ (52 : Int) * (2 : ℚ) ^ (-1074 : Int) := by
        calc (p' : ℚ) / (q' : ℚ) * (2 : ℚ) ^ e' < (2 : ℚ) ^ (52 : Int) * (2 : ℚ) ^ e' :=
              mul_lt_mul_of_pos_right h1 h2
          _ ≤ (2 : ℚ) ^ (52 : Int) * (2 : ℚ) ^ (-1074 : Int) :=
              mul_le_mul_of_nonneg_left h3 (by positivity)
      have h5 : (2 : ℚ) ^ (52 : Int) * (2 : ℚ) ^ (-1074 : Int) = (2 : ℚ) ^ (-1022 : Int) := by
        rw [← zpow_add₀ (by norm_num : (2 : ℚ) ≠ 0)]
        norm_num
      rw [h5] at h4
      exact absurd hX (not_le.2 h4)
  have hge : (2 : ℚ) ^ (52 : Int) ≤ (p' : ℚ) / (q' : ℚ) := by
    rw [le_div_iff₀ hqq]
    have : ((q' * 2 ^ 52 : Nat) : ℚ) ≤ (p' : ℚ) := by exact_mod_cast hnorm
    calc (2 : ℚ) ^ (52 : Int) * (q' : ℚ) = ((q' * 2 ^ 52 : Nat) : ℚ) := by push_cast; norm_num; ring
      _ ≤ (p' : ℚ) := this
  have hfac : (roundHalfEven p' q' : ℚ) * (2 : ℚ) ^ e' - (p' : ℚ) / (q' : ℚ) * (2 : ℚ) ^ e' =
      ((roundHalfEven p' q' : ℚ) - (p' : ℚ) / (q' : ℚ)) * (2 : ℚ) ^ e' := by ring
  rw [hfac, abs_mul, abs_of_pos h2]
  have h53 : (2 : ℚ) ^ (-53 : Int) * (2 : ℚ) ^ (52 : Int) = 1 / 2 := by
    rw [← zpow_add₀ (by norm_num : (2 : ℚ) ≠ 0)]
    norm_num
  calc |(roundHalfEven p' q' : ℚ) - (p' : ℚ) / (q' : ℚ)| * (2 : ℚ) ^ e'
      ≤ 1 / 2 * (2 : ℚ) ^ e' := mul_le_mul_of_nonneg_right hb h2.le
    _ = (2 : ℚ) ^ (52 : Int) * (2 : ℚ) ^ e' * (2 : ℚ) ^ (-53 : Int) := by
        rw [← h53]; ring
    _ ≤ (p' : ℚ) / (q' : ℚ) * (2 : ℚ) ^ e' * (2 : ℚ) ^ (-53 : Int) := by
        apply mul_le_mul_of_nonneg_right _ (by positivity)
        exact mul_le_mul_of_nonneg_right hge h2.le

/-- An integer below `2 ^ 53` is not rounded: the divisor stays `1`. -/
theorem normalize_q_one : ∀ (fuel p : Nat) (e : Int), p < 2 ^ 53 →
    (normalize fuel p 1 e).2.1 = 1 := by
  intro fuel
  induction fuel with
  | zero => intro p e _; rfl
  | succ fuel ih =>
    intro p e hp
    unfold normalize
    have h1 : ¬ (1 * 2 ^ 53 ≤ p) := by omega
    simp only [h1, if_false]
    split_ifs with h2
    · exact ih (2 * p) (e - 1) (by omega)
    · rfl

/-- The conversion of an integer below `2 ^ 53` in absolute value is exact. -/
theorem F64.ofInt_val (i : Int) (h : i.natAbs < 2 ^ 53) :
    (F64.ofInt i).val = (i : ℚ) ∧ (F64.ofInt i).neg = decide (i < 0) := by
  refine ⟨?_, rfl⟩
  obtain ⟨_, k2⟩ := normalize_val (i.natAbs + 1 + 53) i.natAbs 1 0 (by decide)
  have hq := normalize_q_one (i.natAbs + 1 + 53) i.natAbs 0 h
  rw [hq] at k2
  simp only [Nat.cast_one, div_one, zpow_zero, mul_one] at k2
  have hm : (F64.ofInt i).mant = (normalize (i.natAbs + 1 + 53) i.natAbs 1 0).1 := by
    show roundHalfEven _ _ = _
    rw [hq, roundHalfEven_one]
  have hv : (F64.ofInt i).val =
      (if decide (i < 0) = true then -1 else 1) *
        (((F64.ofInt i).mant : ℚ) * (2 : ℚ) ^ (F64.ofInt i).exp) := by
    simp only [F64.val]
    have : (F64.ofInt i).neg = decide (i < 0) := rfl
    rw [this]
    ring
  rw [hv, hm]
  have he : (F64.ofInt i).exp = (normalize (i.natAbs + 1 + 53) i.natAbs 1 0).2.2 := rfl
  rw [he, k2]
  have h2 : ((i.natAbs : Nat) : ℚ) = |(i : ℚ)| := by
    rw [Nat.cast_natAbs]
    push_cast
    rfl
  rw [h2]
  by_cases hi : i < 0
  · simp only [hi, decide_True, if_true]
    rw [abs_of_neg (by exact_mod_cast hi)]
    ring
  · simp only [hi, decide_False, if_false, Bool.false_eq_true]
    rw [abs_of_nonneg (by exact_mod_cast (not_lt.1 hi))]
    ring

/-- The value of a `float64` as its sign times its magnitude. -/
theorem F64.val_sign (x : F64) :
    x.val = (if x.neg = true then -1 else 1) * ((x.mant : ℚ) * (2 : ℚ) ^ x.exp) := by
  simp only [F64.val]
  ring

theorem F64.abs_val (x : F64) : |x.val| = (x.mant : ℚ) * (2 : ℚ) ^ x.exp := by
  have h2 : (0 : ℚ) ≤ (x.mant : ℚ) * (2 : ℚ) ^ x.exp := by positivity
  rw [F64.val_sign]
  cases x.neg
  · simp [abs_of_nonneg h2]
  · simp [abs_of_nonneg h2]

/-- The sum that `F64.add` rounds is the sum of the two values. -/
theorem F64.add_exact (x y : F64) :
    ((((if x.neg then -1 else 1) *
          ((x.mant * 2 ^ (x.exp - min x.exp y.exp).toNat : Nat) : Int) +
        (if y.neg then -1 else 1) *
          ((y.mant * 2 ^ (y.exp - min x.exp y.exp).toNat : Nat) : Int) : Int) : ℚ)) *
      (2 : ℚ) ^ (min x.exp y.exp) = x.val + y.val := by
  have hx : ((2 ^ (x.exp - min x.exp y.exp).toNat : Nat) : ℚ) * (2 : ℚ) ^ (min x.exp y.exp) =
      (2 : ℚ) ^ x.exp := by
    have h : ((x.exp - min x.exp y.exp).toNat : Int) = x.exp - min x.exp y.exp :=
      Int.toNat_of_nonneg (by omega)
    push_cast
    rw [← zpow_natCast, h, ← zpow_add₀ (by norm_num : (2 : ℚ) ≠ 0)]
    congr 1
    omega
  have hy : ((2 ^ (y.exp - min x.exp y.exp).toNat : Nat) : ℚ) * (2 : ℚ) ^ (min x.exp y.exp) =
      (2 : ℚ) ^ y.exp := by
    have h : ((y.exp - min x.exp y.exp).toNat : Int) = y.exp - min x.exp y.exp :=
      Int.toNat_of_nonneg (by omega)
    push_cast
    rw [← zpow_natCast, h, ← zpow_add₀ (by norm_num : (2 : ℚ) ≠ 0)]
    congr 1
    omega
  rw [F64.val_sign x, F64.val_sign y, ← hx, ← hy]
  cases x.neg <;> cases y.neg <;> (push_cast; simp; ring)

/-- The quotient of two `float64` is the rounding of the quotient of their
magnitudes, with the sign of the quotient. -/
theorem F64.div_err (x y : F64) (hy : 0 < y.mant)
    (hX : x.mant = 0 ∨ (2 : ℚ) ^ (-1022 : Int) ≤ |x.val| / |y.val|) :
    (F64.div x y).neg = (x.neg != y.neg) ∧
      |(|(F64.div x y).val| - |x.val| / |y.val|)| ≤
        |x.val| / |y.val| * (2 : ℚ) ^ (-53 : Int) := by
  refine ⟨rfl, ?_⟩
  have hym : (0 : ℚ) < (y.mant : ℚ) := by exact_mod_cast hy
  have hquot : |x.val| / |y.val| =
      (x.mant : ℚ) / (y.mant : ℚ) * (2 : ℚ) ^ (x.exp - y.exp) := by
    rw [F64.abs_val, F64.abs_val, zpow_sub₀ (by norm_num : (2 : ℚ) ≠ 0)]
    have h2 : (2 : ℚ) ^ y.exp ≠ 0 := by positivity
    field_simp
  rw [F64.abs_val]
  rcases Nat.eq_zero_or_pos x.mant with h0 | hpos
  · have hm : (F64.div x y).mant = 0 := by
      show (roundF64 _ x.mant y.mant _).mant = 0
      rw [h0]
      exact roundF64_zero _ _ _ hy
    have hx0 : |x.val| = 0 := by rw [F64.abs_val, h0]; simp
    rw [hm, hx0]
    simp
  · have hX' : (2 : ℚ) ^ (-1022 : Int) ≤ |x.val| / |y.val| := by
      rcases hX with h | h
      · omega
      · exact h
    rw [hquot] at hX' ⊢
    exact roundF64_err (x.neg != y.neg) x.mant y.mant (x.exp - y.exp) hpos hy hX'

/-- The sum of two `float64` is the rounding of the sum of their values; it has
the sign of that sum, and a sum that is zero is negative only when both terms
are. -/
theorem F64.add_err (x y : F64)
    (hT : x.val + y.val = 0 ∨ (2 : ℚ) ^ (-1022 : Int) ≤ |x.val + y.val|) :
    |(F64.add x y).val - (x.val + y.val)| ≤ |x.val + y.val| * (2 : ℚ) ^ (-53 : Int) ∧
      ((F64.add x y).neg = true ↔
        (x.val + y.val < 0 ∨ (x.val + y.val = 0 ∧ x.neg = true ∧ y.neg = true))) := by
  have hex := F64.add_exact x y
  have hadd : F64.add x y =
      roundF64
        (if (if x.neg then -1 else 1) *
              ((x.mant * 2 ^ (x.exp - min x.exp y.exp).toNat : Nat) : Int) +
            (if y.neg then -1 else 1) *
              ((y.mant * 2 ^ (y.exp - min x.exp y.exp).toNat : Nat) : Int) = 0
          then x.neg && y.neg
          else decide ((if x.neg then -1 else 1) *
              ((x.mant * 2 ^ (x.exp - min x.exp y.exp).toNat : Nat) : Int) +
            (if y.neg then -1 else 1) *
              ((y.mant * 2 ^ (y.exp - min x.exp y.exp).toNat : Nat) : Int) < 0))
        ((if x.neg then -1 else 1) *
              ((x.mant * 2 ^ (x.exp - min x.exp y.exp).toNat : Nat) : Int) +
            (if y.neg then -1 else 1) *
              ((y.mant * 2 ^ (y.exp - min x.exp y.exp).toNat : Nat) : Int)).natAbs
        1 (min x.exp y.exp) := rfl
  rw [hadd]
  generalize (if x.neg then (-1 : Int) else 1) *
      ((x.mant * 2 ^ (x.exp - min x.exp y.exp).toNat : Nat) : Int) +
    (if y.neg then -1 else 1) *
      ((y.mant * 2 ^ (y.exp - min x.exp y.exp).toNat : Nat) : Int) = s at hex ⊢
  generalize min x.exp y.exp = e at hex ⊢
  generalize x.val + y.val = T at hex hT ⊢
  have h2 : (0 : ℚ) < (2 : ℚ) ^ e := by positivity
  by_cases hs : s = 0
  · subst hs
    have hT0 : T = 0 := by rw [← hex]; simp
    subst hT0
    simp only [if_true, Int.natAbs_zero]
    have hm : (roundF64 (x.neg && y.neg) 0 1 e).mant = 0 := roundF64_zero _ _ _ (by decide)
    constructor
    · rw [F64.val_sign, hm]
      simp
    · rw [roundF64_neg]
      simp
  · simp only [hs, if_false]
    have hpos : 0 < s.natAbs := Int.natAbs_pos.2 hs
    have hsq : ((s.natAbs : Nat) : ℚ) = |(s : ℚ)| := by
      rw [Nat.cast_natAbs]
      push_cast
      rfl
    have habsT : |T| = ((s.natAbs : Nat) : ℚ) / ((1 : Nat) : ℚ) * (2 : ℚ) ^ e := by
      rw [← hex, abs_mul, abs_of_pos h2, hsq]
      simp
    have hTne : T ≠ 0 := by
      rw [← hex]
      have : (s : ℚ) ≠ 0 := by exact_mod_cast hs
      exact mul_ne_zero this h2.ne'
    have hT' : (2 : ℚ) ^ (-1022 : Int) ≤ |T| := by
      rcases hT with h | h
      · exact absurd h hTne
      · exact h
    have herr := roundF64_err (decide (s < 0)) s.natAbs 1 e hpos (by decide)
      (by rw [← habsT]; exact hT')
    rw [← habsT] at herr
    have hsign : (s < 0) ↔ T < 0 := by
      rw [← hex]
      constructor
      · intro h
        have : (s : ℚ) < 0 := by exact_mod_cast h
        exact mul_neg_of_neg_of_pos this h2
      · intro h
        by_contra hc
        have : (0 : ℚ) ≤ (s : ℚ) := by exact_mod_cast (not_lt.1 hc)
        have := mul_nonneg this h2.le
        linarith
    constructor
    · rw [F64.val_sign, roundF64_neg]
      by_cases hneg : s < 0
      · have hTneg : T < 0 := hsign.1 hneg
        rw [show decide (s < 0) = true from decide_eq_true hneg] at herr ⊢
        simp only [if_true]
        rw [abs_of_neg hTneg] at herr ⊢
        rw [abs_le] at herr ⊢
        constructor <;> linarith [herr.1, herr.2]
      · have hTpos : 0 ≤ T := not_lt.1 (fun h => hneg (hsign.2 h))
        rw [show decide (s < 0) = false from decide_eq_false hneg] at herr ⊢
        simp only [if_false, Bool.false_eq_true]
        rw [abs_of_nonneg hTpos] at herr ⊢
        rw [abs_le] at herr ⊢
        constructor <;> linarith [herr.1, herr.2]
    · rw [roundF64_neg]
      simp only [decide_eq_true_eq]
      constructor
      · intro h; exact Or.inl (hsign.1 h)
      · rintro (h | ⟨h, _⟩)
        · exact hsign.2 h
        · exact absurd h hTne

/-- Go integer division and remainder by `Second`: the quotient and the
remainder have the sign of the duration. -/
theorem tdiv_tmod_sign (d : Int) :
    1000000000 * Int.tdiv d 1000000000 + Int.tmod d 1000000000 = d ∧
    (0 ≤ d → 0 ≤ Int.tdiv d 1000000000 ∧ 0 ≤ Int.tmod d 1000000000 ∧
      Int.tmod d 1000000000 < 1000000000 ∧ Int.tdiv d 1000000000 ≤ d) ∧
    (d ≤ 0 → Int.tdiv d 1000000000 ≤ 0 ∧ Int.tmod d 1000000000 ≤ 0 ∧
      -1000000000 < Int.tmod d 1000000000 ∧ d ≤ Int.tdiv d 1000000000) := by
  refine ⟨Int.tdiv_add_tmod d 1000000000, ?_, ?_⟩
  · intro h
    rw [Int.tdiv_eq_ediv h (by decide), Int.tmod_eq_emod h (by decide)]
    omega
  · intro h
    have hd : d = -(-d) := by omega
    have h1 : Int.tdiv d 1000000000 = -((-d) / 1000000000) := by
      conv_lhs => rw [hd]
      rw [Int.neg_tdiv, Int.tdiv_eq_ediv (by omega) (by decide)]
    have h2 : Int.tmod d 1000000000 = d - 1000000000 * Int.tdiv d 1000000000 :=
      Int.tmod_def d 1000000000
    rw [h2, h1]
    omega

theorem F64.ofInt_second :
    F64.ofInt 1000000000 = ⟨false, 8388608000000000, -23⟩ := by decide

/-- The quotient `float64(nsec) / 1e9` of `Duration.Seconds`. -/
theorem nsec_quotient (n : Int) (h1 : -1000000000 < n) (h2 : n < 1000000000) :
    |(F64.div (F64.ofInt n) (F64.ofInt 1000000000)).val - (n : ℚ) / 1000000000| ≤
        (2 : ℚ) ^ (-53 : Int) ∧
      (F64.div (F64.ofInt n) (F64.ofInt 1000000000)).neg = decide (n < 0) ∧
      (0 ≤ n → 0 ≤ (F64.div (F64.ofInt n) (F64.ofInt 1000000000)).val) ∧
      (n ≤ 0 → (F64.div (F64.ofInt n) (F64.ofInt 1000000000)).val ≤ 0) ∧
      (n = 0 → (F64.div (F64.ofInt n) (F64.ofInt 1000000000)).val = 0) ∧
      (n ≠ 0 → (2 : ℚ) ^ (-40 : Int) ≤
        |(F64.div (F64.ofInt n) (F64.ofInt 1000000000)).val|) ∧
      |(F64.div (F64.ofInt n) (F64.ofInt 1000000000)).val| ≤ 1 := by
  have hn : n.natAbs < 2 ^ 53 := by omega
  obtain ⟨hNv, hNn⟩ := F64.ofInt_val n hn
  have hC : (F64.ofInt 1000000000).val = 1000000000 := by
    rw [F64.ofInt_second]
    norm_num [F64.val]
  have hCm : 0 < (F64.ofInt 1000000000).mant := by
    rw [F64.ofInt_second]; decide
  have hCn : (F64.ofInt 1000000000).neg = false := by
    rw [F64.ofInt_second]
  have habsn : |(n : ℚ)| < 1000000000 := by
    rw [abs_lt]
    constructor
    · exact_mod_cast h1
    · exact_mod_cast h2
  have hquot : |(F64.ofInt n).val| / |(F64.ofInt 1000000000).val| = |(n : ℚ)| / 1000000000 := by
    rw [hNv, hC]
    norm_num
  have hsmall : (2 : ℚ) ^ (-1022 : Int) ≤ (2 : ℚ) ^ (-40 : Int) :=
    zpow_le_zpow_right₀ (by norm_num) (by norm_num)
  have hX : (F64.ofInt n).mant = 0 ∨
      (2 : ℚ) ^ (-1022 : Int) ≤ |(F64.ofInt n).val| / |(F64.ofInt 1000000000).val| := by
    by_cases h0 : n = 0
    · left
      subst h0
      decide
    · right
      rw [hquot]
      have : (1 : ℚ) ≤ |(n : ℚ)| := by
        have : (1 : Int) ≤ |n| := Int.one_le_abs h0
        exact_mod_cast this
      calc (2 : ℚ) ^ (-1022 : Int) ≤ (2 : ℚ) ^ (-40 : Int) := hsmall
        _ ≤ 1 / 1000000000 := by norm_num
        _ ≤ |(n : ℚ)| / 1000000000 := by
            apply div_le_div_of_nonneg_right this (by norm_num)
  obtain ⟨hneg, herr⟩ := F64.div_err (F64.ofInt n) (F64.ofInt 1000000000) hCm hX
  rw [hquot] at herr
  rw [hNn, hCn] at hneg
  have hneg' : (F64.div (F64.ofInt n) (F64.ofInt 1000000000)).neg = decide (n < 0) := by
    rw [hneg]; simp
  have hu : (2 : ℚ) ^ (-53 : Int) ≤ 1 / 10000000000 := by norm_num
  have hu0 : (0 : ℚ) < (2 : ℚ) ^ (-53 : Int) := by positivity
  have hq0 : (0 : ℚ) ≤ |(n : ℚ)| / 1000000000 := by positivity
  have hq1 : |(n : ℚ)| / 1000000000 < 1 := by
    rw [div_lt_one (by norm_num)]
    exact habsn
  have hmag := abs_le.1 herr
  have hmagle : |(F64.div (F64.ofInt n) (F64.ofInt 1000000000)).val| ≤
      |(n : ℚ)| / 1000000000 * (1 + (2 : ℚ) ^ (-53 : Int)) := by linarith [hmag.2]
  have hmagge : |(n : ℚ)| / 1000000000 * (1 - (2 : ℚ) ^ (-53 : Int)) ≤
      |(F64.div (F64.ofInt n) (F64.ofInt 1000000000)).val| := by linarith [hmag.1]
  have hval := F64.val_sign (F64.div (F64.ofInt n) (F64.ofInt 1000000000))
  have habs := F64.abs_val (F64.div (F64.ofInt n) (F64.ofInt 1000000000))
  have hbound : |(n : ℚ)| / 1000000000 * (2 : ℚ) ^ (-53 : Int) ≤ (2 : ℚ) ^ (-53 : Int) := by
    calc |(n : ℚ)| / 1000000000 * (2 : ℚ) ^ (-53 : Int) ≤ 1 * (2 : ℚ) ^ (-53 : Int) :=
          mul_le_mul_of_nonneg_right hq1.le hu0.le
      _ = (2 : ℚ) ^ (-53 : Int) := one_mul _
  by_cases hlt : n < 0
  · have hnq : (n : ℚ) < 0 := by exact_mod_cast hlt
    have hv : (F64.div (F64.ofInt n) (F64.ofInt 1000000000)).val =
        -|(F64.div (F64.ofInt n) (F64.ofInt 1000000000)).val| := by
      rw [habs, hval, hneg']
      simp [hlt]
    have habsn' : |(n : ℚ)| = -(n : ℚ) := abs_of_neg hnq
    have hpos : 0 ≤ |(F64.div (F64.ofInt n) (F64.ofInt 1000000000)).val| := abs_nonneg _
    refine ⟨?_, hneg', ?_, ?_, ?_, ?_, ?_⟩
    · rw [hv, abs_le]
      rw [habsn'] at hmag hbound
      constructor <;> linarith [hmag.1, hmag.2]
    · intro h; omega
    · intro _; rw [hv]; linarith
    · intro h; omega
    · intro _
      have h1' : (1 : ℚ) ≤ |(n : ℚ)| := by
        have : (1 : Int) ≤ |n| := Int.one_le_abs (by omega)
        exact_mod_cast this
      calc (2 : ℚ) ^ (-40 : Int) ≤ 1 / 1000000000 * (1 - 1 / 10000000000) := by norm_num
        _ ≤ |(n : ℚ)| / 1000000000 * (1 - (2 : ℚ) ^ (-53 : Int)) := by
            apply mul_le_mul
            · exact div_le_div_of_nonneg_right h1' (by norm_num)
            · linarith
            · norm_num
            · positivity
        _ ≤ _ := hmagge
    · calc |(F64.div (F64.ofInt n) (F64.ofInt 1000000000)).val|
          ≤ |(n : ℚ)| / 1000000000 * (1 + (2 : ℚ) ^ (-53 : Int)) := hmagle
        _ ≤ (999999999 / 1000000000) * (1 + 1 / 10000000000) := by
            apply mul_le_mul
            · rw [habsn']
              have : -(n : ℚ) ≤ 999999999 := by
                have : -n ≤ 999999999 := by omega
                exact_mod_cast this
              exact div_le_div_of_nonneg_right this (by norm_num)
            · linarith
            · positivity
            · norm_num
        _ ≤ 1 := by norm_num
  · have hnq : (0 : ℚ) ≤ (n : ℚ) := by exact_mod_cast (not_lt.1 hlt)
    have hv : (F64.div (F64.ofInt n) (F64.ofInt 1000000000)).val =
        |(F64.div (F64.ofInt n) (F64.ofInt 1000000000)).val| := by
      rw [habs, hval, hneg']
      simp [hlt]
    have habsn' : |(n : ℚ)| = (n : ℚ) := abs_of_nonneg hnq
    have hpos : 0 ≤ |(F64.div (F64.ofInt n) (F64.ofInt 1000000000)).val| := abs_nonneg _
    refine ⟨?_, hneg', ?_, ?_, ?_, ?_, ?_⟩
    · rw [hv, abs_le]
      rw [habsn'] at hmag hbound
      constructor <;> linarith [hmag.1, hmag.2]
    · intro _; rw [hv]; exact hpos
    · intro h
      have h0 : n = 0 := by omega
      subst h0
      simp only [Int.cast_zero, abs_zero, zero_div, zero_mul] at hmagle
      have : |(F64.div (F64.ofInt 0) (F64.ofInt 1000000000)).val| = 0 :=
        le_antisymm hmagle (abs_nonneg _)
      rw [abs_eq_zero] at this
      rw [this]
    · intro h0
      subst h0
      simp only [Int.cast_zero, abs_zero, zero_div, zero_mul] at hmagle
      have : |(F64.div (F64.ofInt 0) (F64.ofInt 1000000000)).val| = 0 :=
        le_antisymm hmagle (abs_nonneg _)
      rwa [abs_eq_zero] at this
    · intro hne
      have h1' : (1 : ℚ) ≤ |(n : ℚ)| := by
        have : (1 : Int) ≤ |n| := Int.one_le_abs hne
        exact_mod_cast this
      calc (2 : ℚ) ^ (-40 : Int) ≤ 1 / 1000000000 * (1 - 1 / 10000000000) := by norm_num
        _ ≤ |(n : ℚ)| / 1000000000 * (1 - (2 : ℚ) ^ (-53 : Int)) := by
            apply mul_le_mul
            · exact div_le_div_of_nonneg_right h1' (by norm_num)
            · linarith
            · norm_num
            · positivity
        _ ≤ _ := hmagge
    · calc |(F64.div (F64.ofInt n) (F64.ofInt 1000000000)).val|
          ≤ |(n : ℚ)| / 1000000000 * (1 + (2 : ℚ) ^ (-53 : Int)) := hmagle
        _ ≤ (999999999 / 1000000000) * (1 + 1 / 10000000000) := by
            apply mul_le_mul
            · rw [habsn']
              have : (n : ℚ) ≤ 999999999 := by
                have : n ≤ 999999999 := by omega
                exact_mod_cast this
              exact div_le_div_of_nonneg_right this (by norm_num)
            · linarith
            · positivity
            · norm_num
        _ ≤ 1 := by norm_num

/-- The `float64` of `Duration.Seconds` for an `int64` duration: it is within
`1/500000` of the exact number of seconds, and its sign bit is set exactly for
a negative duration. -/
theorem Seconds_err (d : Int) (h1 : -9223372036854775808 ≤ d)
    (h2 : d < 9223372036854775808) :
    |(Seconds d).val - (d : ℚ) / 1000000000| ≤ 1 / 500000 ∧
      ((Seconds d).neg = true ↔ d < 0) := by
  obtain ⟨hsum, hge, hle⟩ := tdiv_tmod_sign d
  have hS : Seconds d =
      F64.add (F64.ofInt (Int.tdiv d 1000000000))
        (F64.div (F64.ofInt (Int.tmod d 1000000000)) (F64.ofInt 1000000000)) := rfl
  rw [hS]
  generalize Int.tdiv d 1000000000 = sec at hsum hge hle ⊢
  generalize Int.tmod d 1000000000 = nsec at hsum hge hle ⊢
  have hnb : -1000000000 < nsec ∧ nsec < 1000000000 := by
    rcases le_total 0 d with h | h
    · have := hge h; omega
    · have := hle h; omega
  have hsb : -9223372036 ≤ sec ∧ sec ≤ 9223372036 := by
    rcases le_total 0 d with h | h
    · have := hge h; omega
    · have := hle h; omega
  obtain ⟨hXv, hXn⟩ := F64.ofInt_val sec (by omega)
  obtain ⟨hYe, hYn, hY0, hY1, hYz, hYlow, hYle⟩ := nsec_quotient nsec hnb.1 hnb.2
  generalize F64.div (F64.ofInt nsec) (F64.ofInt 1000000000) = Y at hYe hYn hY0 hY1 hYz hYlow hYle ⊢
  generalize F64.ofInt sec = X at hXv hXn ⊢
  have hsmall : (2 : ℚ) ^ (-1022 : Int) ≤ (2 : ℚ) ^ (-40 : Int) :=
    zpow_le_zpow_right₀ (by norm_num) (by norm_num)
  have h40 : (2 : ℚ) ^ (-40 : Int) ≤ 1 := by norm_num
  have h40pos : (0 : ℚ) < (2 : ℚ) ^ (-40 : Int) := by positivity
  have hdq : (d : ℚ) / 1000000000 = (sec : ℚ) + (nsec : ℚ) / 1000000000 := by
    rw [← hsum]
    push_cast
    ring
  have hsecq : |(sec : ℚ)| ≤ 9223372036 := by
    rw [abs_le]
    constructor
    · have : (-9223372036 : Int) ≤ sec := hsb.1
      exact_mod_cast this
    · have : sec ≤ (9223372036 : Int) := hsb.2
      exact_mod_cast this
  -- the sign of the exact sum
  have hTsign : (0 ≤ d → 0 ≤ X.val + Y.val) ∧ (d < 0 → X.val + Y.val < 0) ∧
      (X.val + Y.val = 0 ∨ (2 : ℚ) ^ (-1022 : Int) ≤ |X.val + Y.val|) := by
    rw [hXv]
    refine ⟨?_, ?_, ?_⟩
    · intro h
      obtain ⟨hs, hn, _, _⟩ := hge h
      have : (0 : ℚ) ≤ (sec : ℚ) := by exact_mod_cast hs
      have := hY0 hn
      linarith
    · intro h
      obtain ⟨hs, hn, _, _⟩ := hle h.le
      have hsq : (sec : ℚ) ≤ 0 := by exact_mod_cast hs
      have hy := hY1 hn
      by_cases hs0 : sec = 0
      · have hn0 : nsec ≠ 0 := by omega
        have := hYlow hn0
        rw [abs_of_nonpos hy] at this
        linarith
      · have : sec ≤ -1 := by omega
        have : (sec : ℚ) ≤ -1 := by exact_mod_cast this
        linarith
    · rcases le_total 0 d with h | h
      · obtain ⟨hs, hn, _, _⟩ := hge h
        have hsq : (0 : ℚ) ≤ (sec : ℚ) := by exact_mod_cast hs
        have hy := hY0 hn
        by_cases hn0 : nsec = 0
        · by_cases hs0 : sec = 0
          · left
            rw [hYz hn0, hs0]
            simp
          · right
            have : (1 : Int) ≤ sec := by omega
            have : (1 : ℚ) ≤ (sec : ℚ) := by exact_mod_cast this
            rw [abs_of_nonneg (by linarith)]
            linarith
        · right
          have := hYlow hn0
          rw [abs_of_nonneg hy] at this
          rw [abs_of_nonneg (by linarith)]
          linarith
      · obtain ⟨hs, hn, _, _⟩ := hle h
        have hsq : (sec : ℚ) ≤ 0 := by exact_mod_cast hs
        have hy := hY1 hn
        by_cases hn0 : nsec = 0
        · by_cases hs0 : sec = 0
          · left
            rw [hYz hn0, hs0]
            simp
          · right
            have : sec ≤ -1 := by omega
            have : (sec : ℚ) ≤ -1 := by exact_mod_cast this
            rw [abs_of_nonpos (by linarith)]
            linarith
        · right
          have := hYlow hn0
          rw [abs_of_nonpos hy] at this
          rw [abs_of_nonpos (by linarith)]
          linarith
  obtain ⟨hT0, hT1, hT⟩ := hTsign
  obtain ⟨herr, hnegiff⟩ := F64.add_err X Y hT
  constructor
  · have hTabs : |X.val + Y.val| ≤ 9223372037 := by
      calc |X.val + Y.val| ≤ |X.val| + |Y.val| := abs_add _ _
        _ ≤ 9223372036 + 1 := by
            rw [hXv]
            exact add_le_add hsecq hYle
        _ = 9223372037 := by norm_num
    have hu0 : (0 : ℚ) ≤ (2 : ℚ) ^ (-53 : Int) := by positivity
    have h1' : |(F64.add X Y).val - (X.val + Y.val)| ≤ 9223372037 * (2 : ℚ) ^ (-53 : Int) :=
      le_trans herr (mul_le_mul_of_nonneg_right hTabs hu0)
    have h2' : |(X.val + Y.val) - (d : ℚ) / 1000000000| ≤ (2 : ℚ) ^ (-53 : Int) := by
      rw [hdq, hXv]
      have : (sec : ℚ) + Y.val - ((sec : ℚ) + (nsec : ℚ) / 1000000000) =
          Y.val - (nsec : ℚ) / 1000000000 := by ring
      rw [this]
      exact hYe
    calc |(F64.add X Y).val - (d : ℚ) / 1000000000|
        = |((F64.add X Y).val - (X.val + Y.val)) +
            ((X.val + Y.val) - (d : ℚ) / 1000000000)| := by
          congr 1; ring
      _ ≤ |(F64.add X Y).val - (X.val + Y.val)| +
            |(X.val + Y.val) - (d : ℚ) / 1000000000| := abs_add _ _
      _ ≤ 9223372037 * (2 : ℚ) ^ (-53 : Int) + (2 : ℚ) ^ (-53 : Int) := add_le_add h1' h2'
      _ ≤ 1 / 500000 := by norm_num
  · rw [hnegiff]
    constructor
    · rintro (h | ⟨_, hx, _⟩)
      · by_contra hc
        have := hT0 (not_lt.1 hc)
        linarith
      · rw [hXn] at hx
        simp only [decide_eq_true_eq] at hx
        by_contra hc
        have := (hge (not_lt.1 hc)).1
        omega
    · intro h
      exact Or.inl (hT1 h)

/-- The hundredths that `%.2f` writes for the seconds of an `int64` duration
are the nearest to the duration in units of ten milliseconds. -/
theorem hundredths_Seconds (d : Int) (h1 : -9223372036854775808 ≤ d)
    (h2 : d < 9223372036854775808) :
    |(hundredths (Seconds d) : ℚ) - |(d : ℚ)| / 10000000| ≤ 1 / 2 + 1 / 5000 := by
  have hb := hundredths_bound (Seconds d)
  have he := (Seconds_err d h1 h2).1
  have habs : |(|(Seconds d).val| - |(d : ℚ) / 1000000000|)| ≤ 1 / 500000 :=
    le_trans (abs_abs_sub_abs_le_abs_sub _ _) he
  have hd : |(d : ℚ) / 1000000000| = |(d : ℚ)| / 1000000000 := by
    rw [abs_div]
    norm_num
  rw [hd] at habs
  rw [abs_le] at hb habs ⊢
  constructor <;> linarith [hb.1, hb.2, habs.1, habs.2]

/-- A duration of `k` times ten milliseconds is written with the hundredths
`|k|`. -/
theorem hundredths_Seconds_exact (k : Int) (h1 : -9223372036854775808 ≤ 10000000 * k)
    (h2 : 10000000 * k < 9223372036854775808) :
    hundredths (Seconds (10000000 * k)) = k.natAbs := by
  have h := hundredths_Seconds (10000000 * k) h1 h2
  have hk : |((10000000 * k : Int) : ℚ)| / 10000000 = ((k.natAbs : Nat) : ℚ) := by
    push_cast
    rw [abs_mul, Nat.cast_natAbs]
    push_cast
    norm_num
  rw [hk] at h
  have hlt : |(hundredths (Seconds (10000000 * k)) : ℚ) - ((k.natAbs : Nat) : ℚ)| < 1 :=
    lt_of_le_of_lt h (by norm_num)
  rw [abs_lt] at hlt
  have h3 : (hundredths (Seconds (10000000 * k)) : ℚ) < ((k.natAbs + 1 : Nat) : ℚ) := by
    push_cast
    linarith [hlt.2]
  have h4 : ((k.natAbs : Nat) : ℚ) < ((hundredths (Seconds (10000000 * k)) + 1 : Nat) : ℚ) := by
    push_cast
    linarith [hlt.1]
  have h3' : hundredths (Seconds (10000000 * k)) < k.natAbs + 1 := by exact_mod_cast h3
  have h4' : k.natAbs < hundredths (Seconds (10000000 * k)) + 1 := by exact_mod_cast h4
  omega

/-- The text of `%.2f` for a duration of `k` times ten milliseconds. -/
theorem Sprintf2f_Seconds_exact (k : Int) (h1 : -9223372036854775808 ≤ 10000000 * k)
    (h2 : 10000000 * k < 9223372036854775808) :
    Sprintf2f (Seconds (10000000 * k)) =
      (if k < 0 then "-" else "") ++ Nat.repr (k.natAbs / 100) ++ "." ++
        Nat.repr (k.natAbs / 10 % 10) ++ Nat.repr (k.natAbs % 10) := by
  have hneg := (Seconds_err (10000000 * k) h1 h2).2
  unfold Sprintf2f
  rw [hundredths_Seconds_exact k h1 h2]
  by_cases hk : k < 0
  · have : (Seconds (10000000 * k)).neg = true := hneg.2 (by omega)
    simp only [this, if_true, hk]
  · have : ¬ ((Seconds (10000000 * k)).neg = true) := fun h => hk (by have := hneg.1 h; omega)
    simp only [this, if_false, hk, Bool.false_eq_true]

/-- C22. A duration-typed `const` node, compiled on any builder, leaves the
builder as it is and writes, inside the parentheses of the node, `'`, the text
`%.2f` gives for the seconds of the duration and ` seconds'::interval`. The
text of `%.2f` is the sign, the whole part in decimal, a point and exactly two
decimal digits, and the number of hundredths it shows is the nearest to the
absolute value of the seconds. For a duration `d` in the range of `int64` the
seconds are within `1/500000` of `d / 10 ^ 9`, the sign is written exactly when
`d` is negative, and the hundredths are within `1/2 + 1/5000` of `|d| / 10 ^ 7`;
a duration of `k` times ten milliseconds is written with the hundredths `|k|`,
that is as its exact decimal text. A duration of 90.5 seconds has the `float64`
value `181/2` and compiles to `('90.50 seconds'::interval)`. -/
theorem duration_literal (fmt : GoFmt) (sb : SQLBuilder) (b : String) :
    (∀ e : Expr, e.exprType = .cnst → e.valueType = .durationType →
      whereRecurse fmt sb e b =
        some (sb, b ++ "(" ++
          ("'" ++ Sprintf2f (Seconds e.durationValue) ++ " seconds'::interval") ++ ")")) ∧
    (∀ x : F64,
      Sprintf2f x =
        (if x.neg = true then "-" else "") ++ Nat.repr (hundredths x / 100) ++ "." ++
          Nat.repr (hundredths x / 10 % 10) ++ Nat.repr (hundredths x % 10) ∧
      (Nat.repr (hundredths x / 10 % 10)).length = 1 ∧
      (Nat.repr (hundredths x % 10)).length = 1 ∧
      |(hundredths x : ℚ) - |x.val| * 100| ≤ 1 / 2) ∧
    (Seconds 90500000000).val = 181 / 2 ∧
    (∀ e : Expr, e.exprType = .cnst → e.valueType = .durationType →
      e.durationValue = 90500000000 →
      whereRecurse fmt sb e b = some (sb, b ++ "('90.50 seconds'::interval)")) ∧
    (∀ d : Int, -9223372036854775808 ≤ d → d < 9223372036854775808 →
      |(Seconds d).val - (d : ℚ) / 1000000000| ≤ 1 / 500000 ∧
      ((Seconds d).neg = true ↔ d < 0) ∧
      |(hundredths (Seconds d) : ℚ) - |(d : ℚ)| / 10000000| ≤ 1 / 2 + 1 / 5000) ∧
    (∀ (e : Expr) (k : Int), e.exprType = .cnst → e.valueType = .durationType →
      e.durationValue = 10000000 * k →
      -9223372036854775808 ≤ 10000000 * k → 10000000 * k < 9223372036854775808 →
      whereRecurse fmt sb e b =
        some (sb, b ++ "(" ++
          ("'" ++ ((if k < 0 then "-" else "") ++ Nat.repr (k.natAbs / 100) ++ "." ++
            Nat.repr (k.natAbs / 10 % 10) ++ Nat.repr (k.natAbs % 10)) ++
            " seconds'::interval") ++ ")")) := by
  have hframe : ∀ e : Expr, e.exprType = .cnst → e.valueType = .durationType →
      whereRecurse fmt sb e b =
        some (sb, b ++ "(" ++
          ("'" ++ Sprintf2f (Seconds e.durationValue) ++ " seconds'::interval") ++ ")") := by
    intro e ht hv
    obtain ⟨t, vt, s, i, f, tm, bv, d, lang, al, ch⟩ := e
    simp only [Expr.exprType, Expr.valueType] at ht hv
    subst ht hv
    simp only [whereRecurse, cnstWhere, Expr.valueType, Expr.durationValue, WriteString_eq,
      WriteByte_eq, singleton_lparen, singleton_rparen]
  refine ⟨hframe, ?_, ?_, ?_, ?_, ?_⟩
  · intro x
    exact ⟨rfl, repr_digit_length _ (Nat.mod_lt _ (by decide)),
      repr_digit_length _ (Nat.mod_lt _ (by decide)), hundredths_bound x⟩
  · have h : Seconds 90500000000 = ⟨false, 6368371348078592, -46⟩ := by decide
    rw [h]
    norm_num [F64.val]
  · intro e ht hv hd
    rw [hframe e ht hv, hd]
    have h : Sprintf2f (Seconds 90500000000) = "90.50" := by decide
    rw [h]
    simp [String.ext_iff]
  · intro d h1 h2
    exact ⟨(Seconds_err d h1 h2).1, (Seconds_err d h1 h2).2, hundredths_Seconds d h1 h2⟩
  · intro e k ht hv hd h1 h2
    rw [hframe e ht hv, hd, Sprintf2f_Seconds_exact k h1 h2]

/-- The duration theorem on durations of 90.5 seconds and of 125 milliseconds,
the second a tie between two hundredths that goes to the even one, on a
duration of 1.005 seconds, and on the negative duration of 2.25 seconds. -/
theorem duration_literal_witness :
    whereRecurse zeroFmt (fresh false)
        (Expr.mk .cnst .durationType "" 0 0 ⟨0, 0, 0⟩ false 90500000000 "" "" []) "" =
      some (fresh false, "('90.50 seconds'::interval)") ∧
    whereRecurse zeroFmt (fresh false)
        (Expr.mk .cnst .durationType "" 0 0 ⟨0, 0, 0⟩ false 125000000 "" "" []) "" =
      some (fresh false, "('0.12 seconds'::interval)") ∧
    (|(Seconds 1005000000).val - ((1005000000 : Int) : ℚ) / 1000000000| ≤ 1 / 500000 ∧
      ((Seconds 1005000000).neg = true ↔ (1005000000 : Int) < 0) ∧
      |(hundredths (Seconds 1005000000) : ℚ) - |((1005000000 : Int) : ℚ)| / 10000000| ≤
        1 / 2 + 1 / 5000) ∧
    whereRecurse zeroFmt (fresh false)
        (Expr.mk .cnst .durationType "" 0 0 ⟨0, 0, 0⟩ false (-2250000000) "" "" []) "" =
      some (fresh false, "('-2.25 seconds'::interval)") :=
  ⟨((duration_literal zeroFmt (fresh false) "").2.2.2.1
      (Expr.mk .cnst .durationType "" 0 0 ⟨0, 0, 0⟩ false 90500000000 "" "" [])
      rfl rfl rfl).trans (by decide),
   ((duration_literal zeroFmt (fresh false) "").1
      (Expr.mk .cnst .durationType "" 0 0 ⟨0, 0, 0⟩ false 125000000 "" "" [])
      rfl rfl).trans (by decide),
   (duration_literal zeroFmt (fresh false) "").2.2.2.2.1 1005000000 (by decide) (by decide),
   ((duration_literal zeroFmt (fresh false) "").2.2.2.2.2
      (Expr.mk .cnst .durationType "" 0 0 ⟨0, 0, 0⟩ false (-2250000000) "" "" []) (-225)
      rfl rfl (by decide) (by decide) (by decide)).trans (by decide)⟩

end ISDuBA
